import Mathlib

/-!
# QCodeEditor: Python symbol extractor and completer

A shallow embedding of `QPythonExtracter` (src/internal/QPythonExtracter.cpp),
`QSymbolExtracter::calculateLineAndColumn` (include/internal/QSymbolExtracter.hpp)
and `QPythonCompleter::splitPath` (src/internal/QPythonCompleter.cpp).

Conventions of the embedding.

* A `QString` is the list of its UTF-16 code units; one `Char` stands for one
  code unit (text of the Basic Multilingual Plane).  Offsets into a text are
  natural numbers, the `int` fields of `SymbolInfo` are integers.
* The sources are written against Qt 5 (`QString::lastIndexOf(QRegExp)` in
  QCodeEditor.cpp exists in Qt 5 only).  In Qt 5 `QMultiMap<K,V>` inherits
  `QMap<K,V>::toStdMap()`, whose result is a `std::map<K,V>`: one value per key.
* `QRegularExpression` is PCRE2: a backtracking matcher, greedy quantifiers,
  leftmost match first; `\s`, `\w` and `\b` are the ASCII classes (the patterns
  are compiled without `UseUnicodePropertiesOption`), `.` excludes the line feed.
-/

namespace QCodeEditor

/-- A `QString`: the sequence of its code units. -/
abbrev QString := List Char

/-! ## Characters and strings -/

/-- Code-unit order of `QString::operator<` (case-sensitive `compare`): `a < b`. -/
def qstrLt : QString → QString → Bool
  | [], [] => false
  | [], _ :: _ => true
  | _ :: _, [] => false
  | a :: as, b :: bs =>
    if a.toNat < b.toNat then true
    else if b.toNat < a.toNat then false
    else qstrLt as bs

/-- Case-sensitive `a <= b` on strings, the negation of `b < a`. -/
def qstrLe (a b : QString) : Bool := !qstrLt b a

/-- The class `\s` of PCRE2 without Unicode properties: space, `\t`, `\n`,
vertical tab, form feed, `\r`. -/
def isSpaceRx (c : Char) : Bool :=
  c == ' ' || c == '\t' || c == '\n' || c == Char.ofNat 11 || c == Char.ofNat 12 || c == '\r'

/-- The class `[A-Za-z_]`. -/
def isIdentStart (c : Char) : Bool :=
  ('A'.toNat ≤ c.toNat && c.toNat ≤ 'Z'.toNat) ||
  ('a'.toNat ≤ c.toNat && c.toNat ≤ 'z'.toNat) || c == '_'

/-- The class `[A-Za-z0-9_]`, which is also `\w` without Unicode properties. -/
def isIdentChar (c : Char) : Bool :=
  isIdentStart c || ('0'.toNat ≤ c.toNat && c.toNat ≤ '9'.toNat)

/-- The class `[A-Za-z0-9_.]` of the module path in a `from` import. -/
def isModuleChar (c : Char) : Bool := isIdentChar c || c == '.'

/-- The metacharacter `.`: any character but the line feed. -/
def isDot (c : Char) : Bool := c != '\n'

/-- The class `[^)]`. -/
def isNotRParen (c : Char) : Bool := c != ')'

/-- `QChar::isSpace`: the ASCII white space, U+0085, U+00A0 and the Unicode
separators (categories Zs, Zl, Zp). -/
def qIsSpace (c : Char) : Bool :=
  let n := c.toNat
  n == 32 || (9 ≤ n && n ≤ 13) || n == 0x85 || n == 0xA0 || n == 0x1680 ||
  (0x2000 ≤ n && n ≤ 0x200A) || n == 0x2028 || n == 0x2029 || n == 0x202F ||
  n == 0x205F || n == 0x3000

/-- `QString::trimmed`: white space removed from both ends. -/
def trimmed (s : QString) : QString :=
  ((s.dropWhile qIsSpace).reverse.dropWhile qIsSpace).reverse

/-- `QString::startsWith(prefix)`, case-sensitive. -/
def startsWith : QString → QString → Bool
  | _, [] => true
  | [], _ :: _ => false
  | c :: cs, p :: ps => c == p && startsWith cs ps

/-- `QString::endsWith(suffix)`, case-sensitive. -/
def endsWith (s suffix : QString) : Bool := startsWith s.reverse suffix.reverse

/-- `QStringList::contains(s)`, case-sensitive. -/
def qContains (l : List QString) (s : QString) : Bool := l.any (fun x => x == s)

/-- `QStringList::removeDuplicates`: the first occurrence of each string is
kept, in the order of the list; `seen` holds the strings already met. -/
def removeDuplicatesAux : List QString → List QString → List QString
  | _, [] => []
  | seen, x :: xs =>
    if qContains seen x then removeDuplicatesAux seen xs
    else x :: removeDuplicatesAux (x :: seen) xs

/-- `QStringList::removeDuplicates`. -/
def removeDuplicates (l : List QString) : List QString := removeDuplicatesAux [] l

/-- `QStringList::removeAll(s)`: every element equal to `s` is removed. -/
def removeAll (l : List QString) (s : QString) : List QString :=
  l.filter (fun x => !(x == s))

/-- Insertion of one string into a list sorted by `le`. -/
def sortInsert (le : QString → QString → Bool) (x : QString) : List QString → List QString
  | [] => [x]
  | y :: ys => if le x y then x :: y :: ys else y :: sortInsert le x ys

/-- A sorted arrangement of a list for the order `le`.  `QStringList::sort` is
`std::sort`, which returns a sorted permutation and leaves open the order of
strings that compare equal; this function computes the stable one. -/
def sortBy (le : QString → QString → Bool) : List QString → List QString
  | [] => []
  | x :: xs => sortInsert le x (sortBy le xs)

/-- `QStringList::sort()` with the default `Qt::CaseSensitive`. -/
def qSort (l : List QString) : List QString := sortBy qstrLe l

/-! ## Regular expressions -/

/-- The fragment of PCRE2 syntax used by the extractor. -/
inductive Rx where
  /-- One character of a class. -/
  | chr (p : Char → Bool)
  /-- Greedy `c*` over a class. -/
  | star (p : Char → Bool)
  /-- Concatenation. -/
  | seq (a b : Rx)
  /-- Greedy `(?:a)?`. -/
  | opt (a : Rx)
  /-- Capture group number `i`. -/
  | cap (i : Nat) (a : Rx)
  /-- `^` under `MultilineOption`. -/
  | bol
  /-- `\b`. -/
  | wordB
  /-- Negative lookahead `(?!a)`. -/
  | notAhead (a : Rx)
  /-- The empty pattern. -/
  | eps

/-- A literal string as a pattern. -/
def Rx.str : List Char → Rx
  | [] => Rx.eps
  | c :: cs => Rx.seq (Rx.chr (fun x => x == c)) (Rx.str cs)

/-- A capture: the offset where the group started and the text it matched. -/
structure Capture where
  start : Nat
  text : QString

/-- The state of a match attempt: the character before the cursor, the offset
of the cursor, the text from the cursor on, and the groups captured so far
(most recent first). -/
structure MatchState where
  prev : Option Char
  pos : Nat
  rest : List Char
  caps : List (Nat × Capture)

/-- Greedy repetition of a class followed by the continuation `k`: the longest
run is tried first, then shorter ones. -/
def starLoop (p : Char → Bool) (k : MatchState → Option MatchState)
    (caps : List (Nat × Capture)) : Option Char → Nat → List Char → Option MatchState
  | prev, pos, [] => k ⟨prev, pos, [], caps⟩
  | prev, pos, c :: cs =>
    if p c then
      match starLoop p k caps (some c) (pos + 1) cs with
      | some r => some r
      | none => k ⟨prev, pos, c :: cs, caps⟩
    else k ⟨prev, pos, c :: cs, caps⟩

/-- Is the optional character a word character (`\w`)? -/
def isWordOpt : Option Char → Bool
  | none => false
  | some c => isIdentChar c

/-- Backtracking match of a pattern at a state, with the continuation `k` for
what follows the pattern. -/
def Rx.run : Rx → (MatchState → Option MatchState) → MatchState → Option MatchState
  | Rx.chr p, k, s =>
    match s.rest with
    | [] => none
    | c :: cs => if p c then k ⟨some c, s.pos + 1, cs, s.caps⟩ else none
  | Rx.star p, k, s => starLoop p k s.caps s.prev s.pos s.rest
  | Rx.seq a b, k, s => a.run (b.run k) s
  | Rx.opt a, k, s =>
    match a.run k s with
    | some r => some r
    | none => k s
  | Rx.cap i a, k, s =>
    a.run (fun e => k ⟨e.prev, e.pos, e.rest,
      (i, ⟨s.pos, s.rest.take (e.pos - s.pos)⟩) :: e.caps⟩) s
  | Rx.bol, k, s =>
    match s.prev with
    | none => k s
    | some c => if c == '\n' && !s.rest.isEmpty then k s else none
  | Rx.wordB, k, s =>
    if isWordOpt s.prev != isWordOpt s.rest.head? then k s else none
  | Rx.notAhead a, k, s =>
    match a.run some s with
    | some _ => none
    | none => k s
  | Rx.eps, k, s => k s

/-- A `QRegularExpressionMatch`: the offsets of the whole match and its groups. -/
structure RxMatch where
  start : Nat
  stop : Nat
  caps : List (Nat × Capture)

/-- `QRegularExpressionMatch::captured(i)`: the text of group `i`, empty when
the group did not take part in the match. -/
def RxMatch.captured (m : RxMatch) (i : Nat) : QString :=
  match m.caps.find? (fun c => c.1 == i) with
  | some c => c.2.text
  | none => []

/-- `QRegularExpressionMatch::capturedStart(i)` of a group that took part in
the match (offset 0 stands for an unset group, which no caller reads). -/
def RxMatch.capturedStart (m : RxMatch) (i : Nat) : Nat :=
  match m.caps.find? (fun c => c.1 == i) with
  | some c => c.2.start
  | none => 0

/-- `QRegularExpressionMatch::capturedLength(i)`. -/
def RxMatch.capturedLength (m : RxMatch) (i : Nat) : Nat := (m.captured i).length

/-- `QRegularExpressionMatch::lastCapturedIndex`: the highest group that
captured something, 0 when none did. -/
def RxMatch.lastCapturedIndex (m : RxMatch) : Nat :=
  m.caps.foldl (fun acc c => max acc c.1) 0

/-- One match attempt anchored at a cursor. -/
def Rx.matchAt (r : Rx) (prev : Option Char) (pos : Nat) (rest : List Char) : Option RxMatch :=
  match r.run some ⟨prev, pos, rest, []⟩ with
  | some e => some ⟨pos, e.pos, e.caps⟩
  | none => none

/-- The iteration of `QRegularExpression::globalMatch` from a cursor on: the
leftmost match is taken, the search resumes where it ended.  `skip` counts the
characters of the last match still to be passed over.  (No pattern of the
extractor matches the empty string.) -/
def globalMatchAux (r : Rx) : Nat → Option Char → Nat → List Char → List RxMatch
  | skip, prev, pos, [] =>
    if skip = 0 then
      match r.matchAt prev pos [] with
      | some m => [m]
      | none => []
    else []
  | 0, prev, pos, c :: cs =>
    match r.matchAt prev pos (c :: cs) with
    | some m => m :: globalMatchAux r (m.stop - pos - 1) (some c) (pos + 1) cs
    | none => globalMatchAux r 0 (some c) (pos + 1) cs
  | skip + 1, _, pos, c :: cs => globalMatchAux r skip (some c) (pos + 1) cs

/-- `QRegularExpression::globalMatch(code)`: all matches, left to right. -/
def globalMatch (r : Rx) (code : QString) : List RxMatch :=
  globalMatchAux r 0 none 0 code

/-- One or more white-space characters, `\s+`. -/
def rxSpaces1 : Rx := Rx.seq (Rx.chr isSpaceRx) (Rx.star isSpaceRx)

/-- An identifier, `[A-Za-z_][A-Za-z0-9_]*`. -/
def rxIdent : Rx := Rx.seq (Rx.chr isIdentStart) (Rx.star isIdentChar)

/-- The pattern `class\s+([A-Za-z_][A-Za-z0-9_]*)\s*(?:\(.*\))?:`. -/
def classRegex : Rx :=
  Rx.seq (Rx.str "class".toList) (Rx.seq rxSpaces1 (Rx.seq (Rx.cap 1 rxIdent)
    (Rx.seq (Rx.star isSpaceRx)
      (Rx.seq (Rx.opt (Rx.seq (Rx.chr (fun c => c == '('))
          (Rx.seq (Rx.star isDot) (Rx.chr (fun c => c == ')')))))
        (Rx.chr (fun c => c == ':'))))))

/-- The pattern `def\s+([A-Za-z_][A-Za-z0-9_]*)\s*\(([^)]*)\)`. -/
def funcRegex : Rx :=
  Rx.seq (Rx.str "def".toList) (Rx.seq rxSpaces1 (Rx.seq (Rx.cap 1 rxIdent)
    (Rx.seq (Rx.star isSpaceRx) (Rx.seq (Rx.chr (fun c => c == '('))
      (Rx.seq (Rx.cap 2 (Rx.star isNotRParen)) (Rx.chr (fun c => c == ')')))))))

/-- The pattern `^(?:\s*)([A-Za-z_][A-Za-z0-9_]*)\s*=(?!=)` with `MultilineOption`. -/
def varRegex : Rx :=
  Rx.seq Rx.bol (Rx.seq (Rx.star isSpaceRx) (Rx.seq (Rx.cap 1 rxIdent)
    (Rx.seq (Rx.star isSpaceRx) (Rx.seq (Rx.chr (fun c => c == '='))
      (Rx.notAhead (Rx.chr (fun c => c == '=')))))))

/-- The pattern `self\.([A-Za-z_][A-Za-z0-9_]*)\s*=`. -/
def attrRegex : Rx :=
  Rx.seq (Rx.str "self.".toList) (Rx.seq (Rx.cap 1 rxIdent)
    (Rx.seq (Rx.star isSpaceRx) (Rx.chr (fun c => c == '='))))

/-- The pattern `import\s+([A-Za-z_][A-Za-z0-9_]*)`. -/
def importRegex : Rx :=
  Rx.seq (Rx.str "import".toList) (Rx.seq rxSpaces1 (Rx.cap 1 rxIdent))

/-- The pattern
`from\s+[A-Za-z0-9_.]+\s+import\s+([A-Za-z_][A-Za-z0-9_]*)(?:\s+as\s+([A-Za-z_][A-Za-z0-9_]*))?`. -/
def fromImportRegex : Rx :=
  Rx.seq (Rx.str "from".toList) (Rx.seq rxSpaces1
    (Rx.seq (Rx.seq (Rx.chr isModuleChar) (Rx.star isModuleChar)) (Rx.seq rxSpaces1
      (Rx.seq (Rx.str "import".toList) (Rx.seq rxSpaces1 (Rx.seq (Rx.cap 1 rxIdent)
        (Rx.opt (Rx.seq rxSpaces1 (Rx.seq (Rx.str "as".toList)
          (Rx.seq rxSpaces1 (Rx.cap 2 rxIdent)))))))))))

/-- The pattern `([A-Za-z_][A-Za-z0-9_]*)\s*=\s*([A-Za-z_][A-Za-z0-9_]*)\s*\(`. -/
def objRegex : Rx :=
  Rx.seq (Rx.cap 1 rxIdent) (Rx.seq (Rx.star isSpaceRx) (Rx.seq (Rx.chr (fun c => c == '='))
    (Rx.seq (Rx.star isSpaceRx) (Rx.seq (Rx.cap 2 rxIdent)
      (Rx.seq (Rx.star isSpaceRx) (Rx.chr (fun c => c == '(')))))))

/-- The pattern `\b(keyword)\b` built by `QString("\\b(%1)\\b").arg(keyword)`;
the keywords of `initPythonKeywords` consist of letters, so the keyword stands
for itself in the pattern. -/
def keywordRegex (keyword : QString) : Rx :=
  Rx.seq Rx.wordB (Rx.seq (Rx.cap 1 (Rx.str keyword)) Rx.wordB)

/-! ## Data model -/

/-- `SymbolInfo::SymbolType`. -/
inductive SymbolType where
  | Keyword
  | Class
  | Function
  | Variable
  | Import
  | Other
  deriving DecidableEq, Repr

/-- `struct SymbolInfo`. -/
structure SymbolInfo where
  name : QString
  type : SymbolType
  line : Int
  column : Int
  length : Int
  scope : QString
  parameters : QString
  deriving DecidableEq

/-- The default constructor `SymbolInfo()`. -/
def SymbolInfo.default : SymbolInfo :=
  { name := [], type := SymbolType.Other, line := 0, column := 0, length := 0,
    scope := [], parameters := [] }

/-- The entries of a `QMap<QString, QString>` or `QMultiMap<QString, QString>`
in iteration order (ascending keys). -/
abbrev Entries := List (QString × QString)

/-- `QMap::operator[](key) = value`: the value of an existing key is replaced,
a new key is inserted at its place in the key order. -/
def qmapSet : Entries → QString → QString → Entries
  | [], k, v => [(k, v)]
  | (k0, v0) :: m, k, v =>
    if k == k0 then (k, v) :: m
    else if qstrLt k k0 then (k, v) :: (k0, v0) :: m
    else (k0, v0) :: qmapSet m k v

/-- `QMap::value(key)`: the value of the key, a default-constructed (empty)
string when the key is absent. -/
def qmapValue (m : Entries) (k : QString) : QString :=
  match m.find? (fun p => p.1 == k) with
  | some p => p.2
  | none => []

/-- `QMultiMap::insert(key, value)`: a new entry is always created, before the
entries whose key is not less than `key` (so the entries of one key run from
the most recently to the least recently inserted). -/
def mmInsert : Entries → QString → QString → Entries
  | [], k, v => [(k, v)]
  | (k0, v0) :: m, k, v =>
    if qstrLt k0 k then (k0, v0) :: mmInsert m k v
    else (k, v) :: (k0, v0) :: m

/-- `std::map::insert(hint, pair)`: nothing happens when the key is present,
otherwise the pair is placed in key order. -/
def stdMapInsert : Entries → QString × QString → Entries
  | [], p => [p]
  | q :: m, p =>
    if p.1 == q.1 then q :: m
    else if qstrLt p.1 q.1 then p :: q :: m
    else q :: stdMapInsert m p

/-- `QMap::toStdMap()` of Qt 5, which `QMultiMap` inherits: the entries are
visited from the last to the first and inserted into a `std::map`, so of the
entries of one key only the last one (the least recently inserted) is kept. -/
def toStdMap (m : Entries) : Entries :=
  m.foldr (fun p acc => stdMapInsert acc p) []

/-- The signals of `QSymbolExtracter`. -/
inductive Signal where
  | symbolsUpdated (symbols : List QString)
  | symbolsInfoUpdated (symbolsInfo : List SymbolInfo)

/-- The member variables of `QPythonExtracter`. -/
structure QPythonExtracter where
  m_symbols : List QString
  m_pythonKeywords : List QString
  m_objectTypes : Entries
  m_classMembers : Entries
  m_symbolsInfo : List SymbolInfo
  m_functionParameters : Entries

/-- The keyword list of `initPythonKeywords`. -/
def pythonKeywords : List QString :=
  ["and", "as", "assert", "async", "await", "break",
   "class", "continue", "def", "del", "elif", "else",
   "except", "False", "finally", "for", "from", "global",
   "if", "import", "in", "is", "lambda", "None",
   "nonlocal", "not", "or", "pass", "raise", "return",
   "True", "try", "while", "with", "yield"].map String.toList

/-- The constructor `QPythonExtracter::QPythonExtracter`. -/
def QPythonExtracter.new : QPythonExtracter :=
  { m_symbols := [], m_pythonKeywords := pythonKeywords, m_objectTypes := [],
    m_classMembers := [], m_symbolsInfo := [], m_functionParameters := [] }

/-! ## Class bodies -/

/-- Search of a character in a list, `i` being the offset of its head. -/
def indexOfAux (ch : Char) : List Char → Nat → Option Nat
  | [], _ => none
  | c :: cs, i => if c == ch then some i else indexOfAux ch cs (i + 1)

/-- `QString::indexOf(ch, from)`; `none` stands for -1. -/
def indexOf (code : QString) (ch : Char) (start : Nat) : Option Nat :=
  indexOfAux ch (code.drop start) start

/-- The loop `while (p < code.length() && code.at(p) == ' ') { n++; p++; }`
on the text from `p` on: the number of spaces passed. -/
def countSpaces (l : List Char) : Nat := (l.takeWhile (fun c => c == ' ')).length

/-- The main loop of `findClassEnd` from offset `pos`, at most `fuel`
iterations; `none` when the iterations are used up. -/
def findClassEndLoop (code : QString) (indentLevel : Nat) : Nat → Nat → Option Nat
  | 0, _ => none
  | fuel + 1, pos =>
    if pos < code.length then
      let currentIndent := countSpaces (code.drop pos)
      let currentPos := pos + currentIndent
      if decide (currentPos ≥ code.length) || code.get? currentPos == some '\n'
          || code.get? currentPos == some '#' then
        match indexOf code '\n' pos with
        | none => some code.length
        | some p => findClassEndLoop code indentLevel fuel (p + 1)
      else if currentIndent ≤ indentLevel then some pos
      else
        match indexOf code '\n' pos with
        | none => some code.length
        | some p => findClassEndLoop code indentLevel fuel (p + 1)
    else some code.length

/-- `QPythonExtracter::findClassEnd` with its loop bounded by the text length
plus one (every iteration moves past a line feed). -/
def findClassEndRun (code : QString) (startPos : Nat) : Option Nat :=
  match indexOf code '\n' startPos with
  | none => some code.length
  | some pos =>
    let indentLevel := countSpaces (code.drop pos)
    findClassEndLoop code indentLevel (code.length + 1) (pos + 1)

/-- `QPythonExtracter::findClassEnd`. -/
def findClassEnd (code : QString) (startPos : Nat) : Nat :=
  (findClassEndRun code startPos).getD code.length

/-- `QPythonExtracter::findClassForPosition`: the name of the last class header
before `position` when `position` is before the end of that class, else empty. -/
def findClassForPosition (code : QString) (position : Nat) : QString :=
  let beforeCode := code.take position
  let last : QString × Option Nat :=
    (globalMatch classRegex beforeCode).foldl
      (fun acc m =>
        match acc.2 with
        | none => (m.captured 1, some m.start)
        | some lastPos => if m.start > lastPos then (m.captured 1, some m.start) else acc)
      ([], none)
  match last.2 with
  | none => []
  | some lastPos =>
    if !last.1.isEmpty then
      if position < findClassEnd code lastPos then last.1 else []
    else []

/-! ## Extraction of names -/

/-- The string `__init__`. -/
def initName : QString := "__init__".toList

/-- `QPythonExtracter::extractClassMembers`: `members` is the caller's list. -/
def extractClassMembers (st : QPythonExtracter) (className classCode : QString)
    (members : List QString) : QPythonExtracter × List QString :=
  let afterMethods := (globalMatch funcRegex classCode).foldl
    (fun (acc : QPythonExtracter × List QString) m =>
      let methodName := m.captured 1
      let parameters := trimmed (m.captured 2)
      if !startsWith methodName ['_'] || methodName == initName then
        ({ acc.1 with
            m_classMembers := mmInsert acc.1.m_classMembers className methodName,
            m_functionParameters :=
              qmapSet acc.1.m_functionParameters (className ++ ['.'] ++ methodName) parameters },
         acc.2 ++ [methodName])
      else acc)
    (st, members)
  let afterAttrs := (globalMatch attrRegex classCode).foldl
    (fun (acc : QPythonExtracter × List QString) m =>
      let attrName := m.captured 1
      if !startsWith attrName ['_'] then
        ({ acc.1 with m_classMembers := mmInsert acc.1.m_classMembers className attrName },
         acc.2 ++ [attrName])
      else acc)
    afterMethods
  let hasInit := afterAttrs.2.any (fun x => x == initName)
  if !hasInit then
    ({ afterAttrs.1 with
        m_classMembers := mmInsert afterAttrs.1.m_classMembers className initName },
     afterAttrs.2 ++ [initName])
  else afterAttrs

/-- `QPythonExtracter::extractClasses`. -/
def extractClasses (st : QPythonExtracter) (code : QString) (symbols : List QString) :
    QPythonExtracter × List QString :=
  (globalMatch classRegex code).foldl
    (fun (acc : QPythonExtracter × List QString) m =>
      let className := m.captured 1
      if !startsWith className ['_'] then
        let symbols1 := acc.2 ++ [className]
        let classPos := m.start
        let endPos := findClassEnd code classPos
        if endPos > classPos then
          let classCode := (code.drop classPos).take (endPos - classPos)
          ((extractClassMembers acc.1 className classCode []).1, symbols1)
        else (acc.1, symbols1)
      else acc)
    (st, symbols)

/-- `QPythonExtracter::extractFunctions`. -/
def extractFunctions (st : QPythonExtracter) (code : QString) (symbols : List QString) :
    QPythonExtracter × List QString :=
  (globalMatch funcRegex code).foldl
    (fun (acc : QPythonExtracter × List QString) m =>
      let funcName := m.captured 1
      let parameters := trimmed (m.captured 2)
      if !startsWith funcName ['_'] then
        ({ acc.1 with
            m_functionParameters := qmapSet acc.1.m_functionParameters funcName parameters },
         acc.2 ++ [funcName])
      else acc)
    (st, symbols)

/-- `QPythonExtracter::extractVariables`. -/
def extractVariables (st : QPythonExtracter) (code : QString) (symbols : List QString) :
    List QString :=
  let afterVars := (globalMatch varRegex code).foldl
    (fun (acc : List QString) m =>
      let varName := m.captured 1
      if !qContains st.m_pythonKeywords varName && !startsWith varName ['_'] then
        acc ++ [varName]
      else acc)
    symbols
  (globalMatch attrRegex code).foldl
    (fun (acc : List QString) m =>
      let attrName := m.captured 1
      if !startsWith attrName ['_'] then acc ++ [attrName] else acc)
    afterVars

/-- `QPythonExtracter::extractImports`. -/
def extractImports (code : QString) (symbols : List QString) : List QString :=
  let afterImports := (globalMatch importRegex code).foldl
    (fun (acc : List QString) m => acc ++ [m.captured 1])
    symbols
  (globalMatch fromImportRegex code).foldl
    (fun (acc : List QString) m =>
      if m.lastCapturedIndex ≥ 2 && !(m.captured 2).isEmpty then acc ++ [m.captured 2]
      else acc ++ [m.captured 1])
    afterImports

/-- `QPythonExtracter::extractObjectTypes`. -/
def extractObjectTypes (st : QPythonExtracter) (code : QString) : QPythonExtracter :=
  let st1 := (globalMatch objRegex code).foldl
    (fun (acc : QPythonExtracter) m =>
      let objName := m.captured 1
      let className := m.captured 2
      if !objName.isEmpty && !className.isEmpty then
        { acc with m_objectTypes := qmapSet acc.m_objectTypes objName className }
      else acc)
    st
  let st2 := (globalMatch attrRegex code).foldl
    (fun (acc : QPythonExtracter) m =>
      let attrName := m.captured 1
      let pos := m.start
      let className := findClassForPosition code pos
      if !className.isEmpty && !attrName.isEmpty then
        { acc with m_classMembers := mmInsert acc.m_classMembers className attrName }
      else acc)
    st1
  (globalMatch classRegex code).foldl
    (fun (acc : QPythonExtracter) m =>
      let className := m.captured 1
      let hasInit := acc.m_classMembers.any (fun p => p.1 == className && p.2 == initName)
      if !hasInit then
        { acc with m_classMembers := mmInsert acc.m_classMembers className initName }
      else acc)
    st2

/-! ## Positions -/

/-- `QSymbolExtracter::calculateLineAndColumn`: the loop over the offsets
`i < position && i < text.length()`, from line 1 and column 1. -/
def calculateLineAndColumn (text : QString) (position : Nat) : Int × Int :=
  (text.take position).foldl
    (fun (lc : Int × Int) ch => if ch == '\n' then (lc.1 + 1, 1) else (lc.1, lc.2 + 1))
    (1, 1)

/-- The record list and the set `processedSymbols` while positions are collected. -/
abbrev PosAcc := List SymbolInfo × List QString

/-- Step 1 of `extractSymbolPositions`: the records of one keyword. -/
def keywordPositions (code : QString) (infos : List SymbolInfo) (keyword : QString) :
    List SymbolInfo :=
  (globalMatch (keywordRegex keyword) code).foldl
    (fun (acc : List SymbolInfo) m =>
      let position := m.capturedStart 1
      let length := m.capturedLength 1
      let lc := calculateLineAndColumn code position
      acc ++ [{ name := keyword, type := SymbolType.Keyword, line := lc.1, column := lc.2,
                length := (length : Int), scope := [], parameters := [] }])
    infos

/-- Step 2 of `extractSymbolPositions`: classes. -/
def classPositions (code : QString) (acc0 : PosAcc) : PosAcc :=
  (globalMatch classRegex code).foldl
    (fun (acc : PosAcc) m =>
      let className := m.captured 1
      if qContains acc.2 ("c:".toList ++ className) then acc
      else
        let position := m.capturedStart 1
        let length := m.capturedLength 1
        let lc := calculateLineAndColumn code position
        (acc.1 ++ [{ name := className, type := SymbolType.Class, line := lc.1, column := lc.2,
                     length := (length : Int), scope := [], parameters := [] }],
         ("c:".toList ++ className) :: acc.2))
    acc0

/-- Step 3 of `extractSymbolPositions`: functions. -/
def functionPositions (code : QString) (acc0 : PosAcc) : PosAcc :=
  (globalMatch funcRegex code).foldl
    (fun (acc : PosAcc) m =>
      let funcName := m.captured 1
      let parameters := trimmed (m.captured 2)
      let position := m.capturedStart 1
      let scope := findClassForPosition code position
      let scopedName := if scope.isEmpty then funcName else scope ++ ['.'] ++ funcName
      if qContains acc.2 ("f:".toList ++ scopedName) then acc
      else
        let length := m.capturedLength 1
        let lc := calculateLineAndColumn code position
        (acc.1 ++ [{ name := funcName, type := SymbolType.Function, line := lc.1,
                     column := lc.2, length := (length : Int), scope := scope,
                     parameters := parameters }],
         ("f:".toList ++ scopedName) :: acc.2))
    acc0

/-- Step 4 of `extractSymbolPositions`: variables. -/
def variablePositions (keywords : List QString) (code : QString) (acc0 : PosAcc) : PosAcc :=
  (globalMatch varRegex code).foldl
    (fun (acc : PosAcc) m =>
      let varName := m.captured 1
      if !qContains keywords varName then
        let position := m.capturedStart 1
        let scope := findClassForPosition code position
        let scopedName := if scope.isEmpty then varName else scope ++ ['.'] ++ varName
        if qContains acc.2 ("v:".toList ++ scopedName) then acc
        else
          let length := m.capturedLength 1
          let lc := calculateLineAndColumn code position
          (acc.1 ++ [{ name := varName, type := SymbolType.Variable, line := lc.1,
                       column := lc.2, length := (length : Int), scope := scope,
                       parameters := [] }],
           ("v:".toList ++ scopedName) :: acc.2)
      else acc)
    acc0

/-- Step 5 of `extractSymbolPositions`: `self` attributes. -/
def attributePositions (code : QString) (acc0 : PosAcc) : PosAcc :=
  (globalMatch attrRegex code).foldl
    (fun (acc : PosAcc) m =>
      let attrName := m.captured 1
      let position := m.capturedStart 1
      let scope := findClassForPosition code position
      let scopedName := scope ++ ['.'] ++ attrName
      if qContains acc.2 ("v:".toList ++ scopedName) then acc
      else
        let length := m.capturedLength 1
        let lc := calculateLineAndColumn code position
        (acc.1 ++ [{ name := attrName, type := SymbolType.Variable, line := lc.1,
                     column := lc.2, length := (length : Int), scope := scope,
                     parameters := [] }],
         ("v:".toList ++ scopedName) :: acc.2))
    acc0

/-- Step 6 of `extractSymbolPositions`: `import` statements. -/
def importPositions (code : QString) (acc0 : PosAcc) : PosAcc :=
  (globalMatch importRegex code).foldl
    (fun (acc : PosAcc) m =>
      let importName := m.captured 1
      if qContains acc.2 ("i:".toList ++ importName) then acc
      else
        let position := m.capturedStart 1
        let length := m.capturedLength 1
        let lc := calculateLineAndColumn code position
        (acc.1 ++ [{ name := importName, type := SymbolType.Import, line := lc.1,
                     column := lc.2, length := (length : Int), scope := [],
                     parameters := [] }],
         ("i:".toList ++ importName) :: acc.2))
    acc0

/-- Step 7 of `extractSymbolPositions`: `from ... import ... [as ...]`; `g` is
the group that names the import (2 with an alias, else 1). -/
def fromImportPositions (code : QString) (acc0 : PosAcc) : PosAcc :=
  (globalMatch fromImportRegex code).foldl
    (fun (acc : PosAcc) m =>
      let g := if m.lastCapturedIndex ≥ 2 && !(m.captured 2).isEmpty then 2 else 1
      let importName := m.captured g
      if qContains acc.2 ("i:".toList ++ importName) then acc
      else
        let position := m.capturedStart g
        let length := m.capturedLength g
        let lc := calculateLineAndColumn code position
        (acc.1 ++ [{ name := importName, type := SymbolType.Import, line := lc.1,
                     column := lc.2, length := (length : Int), scope := [],
                     parameters := [] }],
         ("i:".toList ++ importName) :: acc.2))
    acc0

/-- `QPythonExtracter::extractSymbolPositions`. -/
def extractSymbolPositions (st : QPythonExtracter) (code : QString) : QPythonExtracter :=
  let keywordInfos := st.m_pythonKeywords.foldl (keywordPositions code) []
  let acc := fromImportPositions code (importPositions code (attributePositions code
    (variablePositions st.m_pythonKeywords code (functionPositions code
      (classPositions code (keywordInfos, []))))))
  { st with m_symbolsInfo := acc.1 }

/-! ## The public interface of the extractor -/

/-- What one call of `extractSymbols` yields: the new state, the returned
list and the signals emitted, in order. -/
structure ExtractResult where
  state : QPythonExtracter
  symbols : List QString
  emitted : List Signal

/-- `QPythonExtracter::extractSymbols`. -/
def extractSymbols (st : QPythonExtracter) (code : QString) : ExtractResult :=
  if code.isEmpty then { state := st, symbols := [], emitted := [] }
  else
    let st0 := { st with m_objectTypes := [], m_classMembers := [], m_symbolsInfo := [] }
    let symbolList := st0.m_pythonKeywords
    let r1 := extractClasses st0 code symbolList
    let r2 := extractFunctions r1.1 code r1.2
    let l3 := extractVariables r2.1 code r2.2
    let l4 := extractImports code l3
    let st5 := extractObjectTypes r2.1 code
    let st6 := extractSymbolPositions st5 code
    let sorted := qSort (removeDuplicates l4)
    let st7 := { st6 with m_symbols := sorted }
    { state := st7, symbols := st7.m_symbols,
      emitted := [Signal.symbolsUpdated st7.m_symbols,
                  Signal.symbolsInfoUpdated st7.m_symbolsInfo] }

/-- `QPythonExtracter::symbols`. -/
def symbols (st : QPythonExtracter) : List QString := st.m_symbols

/-- The loop `for (pair : m_classMembers.toStdMap()) if (pair.first == name)
members.append(pair.second)`. -/
def membersOfKey (st : QPythonExtracter) (name : QString) : List QString :=
  ((toStdMap st.m_classMembers).filter (fun p => p.1 == name)).map (fun p => p.2)

/-- The default members of the built-in types, the last step of `getObjectMembers`. -/
def builtinMembers (objectName : QString) : List QString :=
  if objectName == "str".toList || startsWith objectName ['"'] || startsWith objectName ['\''] then
    ["upper", "lower", "strip", "split", "join", "replace", "find"].map String.toList
  else if objectName == "list".toList || endsWith objectName [']'] then
    ["append", "extend", "insert", "remove", "pop", "clear", "sort", "count"].map String.toList
  else if objectName == "dict".toList || endsWith objectName ['}'] then
    ["keys", "values", "items", "get", "update", "pop", "clear"].map String.toList
  else []

/-- `QPythonExtracter::getObjectMembers`. -/
def getObjectMembers (st : QPythonExtracter) (objectName : QString) : List QString :=
  let members1 := membersOfKey st objectName
  let members2 :=
    if members1.isEmpty then
      let className := qmapValue st.m_objectTypes objectName
      if !className.isEmpty then members1 ++ membersOfKey st className else members1
    else members1
  let members3 := if members2.isEmpty then members2 ++ builtinMembers objectName else members2
  removeDuplicates members3

/-- `QPythonExtracter::getObjectType`. -/
def getObjectType (st : QPythonExtracter) (objectName : QString) : QString :=
  qmapValue st.m_objectTypes objectName

/-- `QPythonExtracter::getSymbolsInfo`. -/
def getSymbolsInfo (st : QPythonExtracter) : List SymbolInfo := st.m_symbolsInfo

/-- The test of the loop of `getSymbolInfoAtPosition` on one record. -/
def coversPosition (line column : Int) (info : SymbolInfo) : Bool :=
  info.line == line && decide (column ≥ info.column) &&
    decide (column < info.column + info.length)

/-- The loop of `getSymbolInfoAtPosition` over a record list. -/
def scanSymbolInfo (line column : Int) : List SymbolInfo → SymbolInfo
  | [] => SymbolInfo.default
  | info :: rest => if coversPosition line column info then info
                    else scanSymbolInfo line column rest

/-- `QPythonExtracter::getSymbolInfoAtPosition`. -/
def getSymbolInfoAtPosition (st : QPythonExtracter) (line column : Int) : SymbolInfo :=
  scanSymbolInfo line column st.m_symbolsInfo

/-! ## The completer -/

/-- Case-insensitive `QString::startsWith(p, Qt::CaseInsensitive)`; `fold` is
the case folding of a code unit (`QChar::toCaseFolded`). -/
def ciStartsWith (fold : Char → Char) (s p : QString) : Bool :=
  startsWith (s.map fold) (p.map fold)

/-- Case-insensitive `QString::contains(p, Qt::CaseInsensitive)`: `p` occurs
at some offset of `s`. -/
def ciContains (fold : Char → Char) : QString → QString → Bool
  | [], p => ciStartsWith fold [] p
  | c :: cs, p => ciStartsWith fold (c :: cs) p || ciContains fold cs p

/-- Case-insensitive `a <= b`: `compare(b, a, Qt::CaseInsensitive) < 0` fails. -/
def ciLe (fold : Char → Char) (a b : QString) : Bool :=
  !qstrLt (b.map fold) (a.map fold)

/-- `QStringList::sort(Qt::CaseInsensitive)`. -/
def ciSort (fold : Char → Char) (l : List QString) : List QString := sortBy (ciLe fold) l

/-- Case folding of the ASCII letters; on ASCII text it is `QChar::toCaseFolded`. -/
def asciiFold (c : Char) : Char :=
  if 'A'.toNat ≤ c.toNat && c.toNat ≤ 'Z'.toNat then Char.ofNat (c.toNat + 32) else c

/-- The member variables of `QPythonCompleter`, with the string list of its
model `m_model`, the completion prefix of the `QCompleter` base and the
visibility of its popup.  `m_extracter` is the extractor pointed to, in its
current state (`none` for a null pointer). -/
structure QPythonCompleter where
  m_extracter : Option QPythonExtracter
  m_model : List QString
  m_builtinSymbols : List QString
  m_userSymbols : List QString
  m_currentCompletionObject : QString
  m_currentCompletionList : List QString
  m_specialCompletions : Entries
  completionPrefix : QString
  popupVisible : Bool

/-- `QString::lastIndexOf(".")` on a list whose head has offset `i`; `none`
stands for -1. -/
def lastIndexOfDotAux : List Char → Nat → Option Nat
  | [], _ => none
  | c :: cs, i =>
    match lastIndexOfDotAux cs (i + 1) with
    | some j => some j
    | none => if c == '.' then some i else none

/-- `QString::lastIndexOf(".")`. -/
def lastIndexOfDot (path : QString) : Option Nat := lastIndexOfDotAux path 0

/-- The members looked up for an object expression in `splitPath`:
`getObjectMembers(objectName)`, or the members of its type when that is empty;
nothing without an extractor. -/
def resolveMembers (c : QPythonCompleter) (objectName : QString) : List QString :=
  match c.m_extracter with
  | none => []
  | some ex =>
    let l1 := getObjectMembers ex objectName
    if l1.isEmpty then
      let objectType := getObjectType ex objectName
      if !objectType.isEmpty then getObjectMembers ex objectType else l1
    else l1

/-- The loop of `splitPath` that fills `startsWithMatches`, `containsMatches`
and `otherMatches`. -/
def bucketMembers (fold : Char → Char) (memberPrefix : QString) (items : List QString) :
    List QString × List QString × List QString :=
  items.foldl
    (fun (acc : List QString × List QString × List QString) item =>
      if ciStartsWith fold item memberPrefix then (acc.1 ++ [item], acc.2.1, acc.2.2)
      else if ciContains fold item memberPrefix then (acc.1, acc.2.1 ++ [item], acc.2.2)
      else (acc.1, acc.2.1, acc.2.2 ++ [item]))
    ([], [], [])

/-- The ordering step of `splitPath`: with a prefix the three buckets, each
sorted case-insensitively, in priority order; without one the sorted list. -/
def rankMembers (fold : Char → Char) (memberPrefix : QString) (list : List QString) :
    List QString :=
  if !memberPrefix.isEmpty then
    let b := bucketMembers fold memberPrefix list
    ciSort fold b.1 ++ ciSort fold b.2.1 ++ ciSort fold b.2.2
  else ciSort fold list

/-- The list that `splitPath` puts into the model for `objectName.memberPrefix`. -/
def dottedCompletionList (fold : Char → Char) (c : QPythonCompleter)
    (objectName memberPrefix : QString) : List QString :=
  let resolved := resolveMembers c objectName
  let list1 :=
    match c.m_extracter with
    | none => resolved
    | some _ => if !memberPrefix.isEmpty then removeAll resolved memberPrefix else resolved
  rankMembers fold memberPrefix list1

/-- `QPythonCompleter::splitPath`: the new state (the function is `const` but
writes the `mutable` members and the model) and the returned list.  The model
of the completer is its own `QStringListModel`; `QCompleter::splitPath` of a
list model returns the completion prefix. -/
def splitPath (fold : Char → Char) (c : QPythonCompleter) (path : QString) :
    QPythonCompleter × List QString :=
  if !path.any (fun ch => ch == '.') then
    let currentInput := trimmed path
    let c1 :=
      if !currentInput.isEmpty then { c with m_model := removeAll c.m_model currentInput }
      else c
    (c1, [c1.completionPrefix])
  else
    match lastIndexOfDot path with
    | none => (c, [path])
    | some lastDotPos =>
      if lastDotPos > 0 then
        let objectName := path.take lastDotPos
        let memberPrefix := path.drop (lastDotPos + 1)
        let list := dottedCompletionList fold c objectName memberPrefix
        ({ c with m_currentCompletionObject := objectName, m_currentCompletionList := list,
                  m_model := list, popupVisible := true },
         [memberPrefix])
      else (c, [path])

/-! ## Orders on records and on strings used in the statements -/

/-- The place of a kind in the recording order of `extractSymbolPositions`. -/
def kindRank : SymbolType → Nat
  | SymbolType.Keyword => 0
  | SymbolType.Class => 1
  | SymbolType.Function => 2
  | SymbolType.Variable => 3
  | SymbolType.Import => 4
  | SymbolType.Other => 5

/-- A record occupies the position `(line, column)`: same line, and the column
lies in `[column, column + length)` of the record. -/
def Occupies (r : SymbolInfo) (line column : Int) : Prop :=
  r.line = line ∧ r.column ≤ column ∧ column < r.column + r.length

/-! ## Lines of a text, as the class-body rule of the specification names them -/

/-- Offset `q` is the start of a line that comes after the line containing
`startPos`: the character before `q` is a line feed at or after `startPos`. -/
def LineStartAfter (code : QString) (startPos q : Nat) : Prop :=
  ∃ nl, startPos ≤ nl ∧ code.get? nl = some '\n' ∧ q = nl + 1

/-- The line starting at offset `q` is non-blank (it has a character other than
spaces before its end), is not a comment line (that character is not `#`) and
has at most `k` leading spaces. -/
def DedentedLine (code : QString) (k q : Nat) : Prop :=
  q + countSpaces (code.drop q) < code.length ∧
  code.get? (q + countSpaces (code.drop q)) ≠ some '\n' ∧
  code.get? (q + countSpaces (code.drop q)) ≠ some '#' ∧
  countSpaces (code.drop q) ≤ k

/-- The offset at which the line containing `pos` starts. -/
def lineStartOf (code : QString) (pos : Nat) : Nat :=
  pos - (((code.take pos).reverse).takeWhile (fun c => c != '\n')).length

/-- The number of leading spaces of the line containing `pos`: the indent
level of a header found at `pos`. -/
def headerIndent (code : QString) (pos : Nat) : Nat :=
  countSpaces (code.drop (lineStartOf code pos))

/-- Records in recording order: the rank of the kind never decreases. -/
def RankOrdered (l : List SymbolInfo) : Prop :=
  List.Pairwise (fun a b => kindRank a.type ≤ kindRank b.type) l

/-- The keys of an entry list increase strictly, as in a `std::map`. -/
def StrictKeys (m : Entries) : Prop :=
  List.Pairwise (fun a b => qstrLt a.1 b.1 = true) m

/-! ## What a pattern can match -/

/-- The states a greedy `c*` can hand over: some characters of the class have
been passed, the captures are untouched. -/
def StarReaches (p : Char → Bool) (s e : MatchState) : Prop :=
  ∃ consumed : List Char, (∀ c ∈ consumed, p c = true) ∧ s.rest = consumed ++ e.rest ∧
    e.pos = s.pos + consumed.length ∧ e.caps = s.caps

/-- Declarative reading of a pattern: `r.Reaches s e` when matching `r` from
the state `s` can end in the state `e` (whatever the order in which the
backtracking matcher tries the alternatives). -/
def Rx.Reaches : Rx → MatchState → MatchState → Prop
  | Rx.chr p, s, e =>
    ∃ c cs, s.rest = c :: cs ∧ p c = true ∧ e = ⟨some c, s.pos + 1, cs, s.caps⟩
  | Rx.star p, s, e => StarReaches p s e
  | Rx.seq a b, s, e => ∃ mid, a.Reaches s mid ∧ b.Reaches mid e
  | Rx.opt a, s, e => a.Reaches s e ∨ e = s
  | Rx.cap i a, s, e =>
    ∃ e1, a.Reaches s e1 ∧
      e = ⟨e1.prev, e1.pos, e1.rest, (i, ⟨s.pos, s.rest.take (e1.pos - s.pos)⟩) :: e1.caps⟩
  | Rx.bol, s, e => e = s
  | Rx.wordB, s, e => e = s
  | Rx.notAhead _, s, e => e = s
  | Rx.eps, s, e => e = s

/-- The least number of characters a pattern consumes. -/
def Rx.minLen : Rx → Nat
  | Rx.chr _ => 1
  | Rx.star _ => 0
  | Rx.seq a b => a.minLen + b.minLen
  | Rx.opt _ => 0
  | Rx.cap _ a => a.minLen
  | Rx.bol => 0
  | Rx.wordB => 0
  | Rx.notAhead _ => 0
  | Rx.eps => 0

/-- Every capture group `i` inside the pattern consumes at least `b i` characters. -/
def Rx.capsAtLeast (b : Nat → Nat) : Rx → Bool
  | Rx.chr _ => true
  | Rx.star _ => true
  | Rx.seq a c => a.capsAtLeast b && c.capsAtLeast b
  | Rx.opt a => a.capsAtLeast b
  | Rx.cap i a => decide (b i ≤ a.minLen) && a.capsAtLeast b
  | Rx.bol => true
  | Rx.wordB => true
  | Rx.notAhead _ => true
  | Rx.eps => true

/-- Group `i` takes part in every match of the pattern. -/
def Rx.alwaysCaptures (i : Nat) : Rx → Bool
  | Rx.chr _ => false
  | Rx.star _ => false
  | Rx.seq a c => a.alwaysCaptures i || c.alwaysCaptures i
  | Rx.opt _ => false
  | Rx.cap j a => j == i || a.alwaysCaptures i
  | Rx.bol => false
  | Rx.wordB => false
  | Rx.notAhead _ => false
  | Rx.eps => false

/-! ## What each category contributes to the symbol list -/

/-- The names `extractClasses` appends: the class names without a leading underscore. -/
def classSymbols (code : QString) : List QString :=
  (globalMatch classRegex code).flatMap
    (fun m => if !startsWith (m.captured 1) ['_'] then [m.captured 1] else [])

/-- The names `extractFunctions` appends: the function names without a leading
underscore. -/
def functionSymbols (code : QString) : List QString :=
  (globalMatch funcRegex code).flatMap
    (fun m => if !startsWith (m.captured 1) ['_'] then [m.captured 1] else [])

/-- The names the first loop of `extractVariables` appends: the assigned names
that are no keyword and have no leading underscore. -/
def variableSymbols (keywords : List QString) (code : QString) : List QString :=
  (globalMatch varRegex code).flatMap
    (fun m => if !qContains keywords (m.captured 1) && !startsWith (m.captured 1) ['_']
      then [m.captured 1] else [])

/-- The names the second loop of `extractVariables` appends: the `self`
attributes without a leading underscore. -/
def attributeSymbols (code : QString) : List QString :=
  (globalMatch attrRegex code).flatMap
    (fun m => if !startsWith (m.captured 1) ['_'] then [m.captured 1] else [])

/-- The names the first loop of `extractImports` appends: the name after every
`import`. -/
def importSymbols (code : QString) : List QString :=
  (globalMatch importRegex code).flatMap (fun m => [m.captured 1])

/-- The names the second loop of `extractImports` appends: for every
`from ... import`, the alias when there is one, else the imported name. -/
def fromImportSymbols (code : QString) : List QString :=
  (globalMatch fromImportRegex code).flatMap
    (fun m => if m.lastCapturedIndex ≥ 2 && !(m.captured 2).isEmpty then [m.captured 2]
      else [m.captured 1])

/-- The symbol list of `extractSymbols` before duplicates are removed and the
list is sorted. -/
def collectedSymbols (keywords : List QString) (code : QString) : List QString :=
  keywords ++ classSymbols code ++ functionSymbols code ++ variableSymbols keywords code ++
    attributeSymbols code ++ importSymbols code ++ fromImportSymbols code

/-! ## Records by provenance -/

/-- The record `extractSymbolPositions` builds for a match of the function
header pattern. -/
def functionRecord (code : QString) (m : RxMatch) : SymbolInfo :=
  { name := m.captured 1, type := SymbolType.Function,
    line := (calculateLineAndColumn code (m.capturedStart 1)).1,
    column := (calculateLineAndColumn code (m.capturedStart 1)).2,
    length := (m.capturedLength 1 : Int),
    scope := findClassForPosition code (m.capturedStart 1),
    parameters := trimmed (m.captured 2) }

/-- The record `extractSymbolPositions` builds for a match of the assignment
pattern or of the `self` attribute pattern. -/
def variableRecord (code : QString) (m : RxMatch) : SymbolInfo :=
  { name := m.captured 1, type := SymbolType.Variable,
    line := (calculateLineAndColumn code (m.capturedStart 1)).1,
    column := (calculateLineAndColumn code (m.capturedStart 1)).2,
    length := (m.capturedLength 1 : Int),
    scope := findClassForPosition code (m.capturedStart 1),
    parameters := [] }

/-- Where a record of the position list comes from: a keyword, class or import
record has no scope; a function record is built from a match of the function
header pattern, a variable record from a match of the assignment pattern or of
the attribute pattern. -/
def RecordOrigin (code : QString) (r : SymbolInfo) : Prop :=
  ((r.type = SymbolType.Keyword ∨ r.type = SymbolType.Class ∨ r.type = SymbolType.Import) ∧
    r.scope = []) ∨
  (∃ m ∈ globalMatch funcRegex code, r = functionRecord code m) ∨
  (∃ m ∈ globalMatch varRegex code, r = variableRecord code m) ∨
  (∃ m ∈ globalMatch attrRegex code, r = variableRecord code m)

/-- The text of a capture stands in `code` at the offset of the capture. -/
def CaptureInText (code : QString) (c : Capture) : Prop :=
  (code.drop c.start).take c.text.length = c.text

/-! ## Lines and columns, as the specification counts them -/

/-- The number of characters of the last line of `l`: those after its last
line feed, or all of them when it has none. -/
def lastLineLength (l : List Char) : Nat :=
  ((l.reverse).takeWhile (fun c => c != '\n')).length

/-- The offset of column `column + 1` of the line reached after `newlines`
line feeds of the text: the inverse reading of a line and a column. -/
def offsetOfLineColumn : List Char → Nat → Nat → Nat
  | _, 0, column => column
  | [], _ + 1, column => column
  | c :: cs, k + 1, column =>
    1 + (if c == '\n' then offsetOfLineColumn cs k column
         else offsetOfLineColumn cs (k + 1) column)

/-! ## Patterns on white space -/

/-- The white-space characters of a blank text: space, tab and line feed. -/
def blankChars : List Char := [' ', '\t', '\n']

/-- Every match of the pattern passes a character that is none of `ws`: some
single-character class on the way rejects all of them. -/
def Rx.consumesOutside (ws : List Char) : Rx → Bool
  | Rx.chr p => ws.all (fun c => !p c)
  | Rx.star _ => false
  | Rx.seq a b => a.consumesOutside ws || b.consumesOutside ws
  | Rx.opt _ => false
  | Rx.cap _ a => a.consumesOutside ws
  | Rx.bol => false
  | Rx.wordB => false
  | Rx.notAhead _ => false
  | Rx.eps => false

/-! ## What survives from one extraction to the next -/

/-- `QMap::find(key)`: the value of the key when the key is present. -/
def qmapFind (m : Entries) (k : QString) : Option QString :=
  (m.find? (fun p => p.1 == k)).map (fun p => p.2)

/-- The assignments `m_functionParameters[className + "." + methodName] =
parameters` of one run of `extractClassMembers`, in order. -/
def methodAssignments (className classCode : QString) : Entries :=
  (globalMatch funcRegex classCode).flatMap
    (fun m =>
      if !startsWith (m.captured 1) ['_'] || m.captured 1 == initName then
        [(className ++ ['.'] ++ m.captured 1, trimmed (m.captured 2))]
      else [])

/-- The assignments to `m_functionParameters` during `extractClasses`. -/
def classAssignments (code : QString) : Entries :=
  (globalMatch classRegex code).flatMap
    (fun m =>
      if !startsWith (m.captured 1) ['_'] then
        if findClassEnd code m.start > m.start then
          methodAssignments (m.captured 1)
            ((code.drop m.start).take (findClassEnd code m.start - m.start))
        else []
      else [])

/-- The assignments `m_functionParameters[funcName] = parameters` of
`extractFunctions`. -/
def functionAssignments (code : QString) : Entries :=
  (globalMatch funcRegex code).flatMap
    (fun m =>
      if !startsWith (m.captured 1) ['_'] then [(m.captured 1, trimmed (m.captured 2))]
      else [])

/-- All assignments to `m_functionParameters` of one call of `extractSymbols`. -/
def parameterAssignments (code : QString) : Entries :=
  classAssignments code ++ functionAssignments code

/-- A sequence of assignments `map[key] = value` applied to a `QMap`. -/
def applyAssignments (assignments : Entries) (m : Entries) : Entries :=
  assignments.foldl (fun acc p => qmapSet acc p.1 p.2) m

/-- Two extractor states agree on the keyword list and on what
`extractSymbols` clears at its start and rebuilds. -/
def SameCore (a b : QPythonExtracter) : Prop :=
  a.m_pythonKeywords = b.m_pythonKeywords ∧ a.m_objectTypes = b.m_objectTypes ∧
    a.m_classMembers = b.m_classMembers ∧ a.m_symbolsInfo = b.m_symbolsInfo

/-- A record of the position list lies in the text: line and column are at
least 1, the length is the length of the name and at least 1, and the
characters of the text from column `r.column` of line `r.line` on (a place
where the text counts this line and column) spell the name. -/
def RecordInText (code : QString) (r : SymbolInfo) : Prop :=
  1 ≤ r.line ∧ 1 ≤ r.column ∧ r.length = (r.name.length : Int) ∧ 1 ≤ r.length ∧
    calculateLineAndColumn code
        (offsetOfLineColumn code (r.line - 1).toNat (r.column - 1).toNat) =
      (r.line, r.column) ∧
    (code.drop (offsetOfLineColumn code (r.line - 1).toNat (r.column - 1).toNat)).take
        r.length.toNat = r.name

/-- The record is built from group `g` of the match: name, place and length
are those of the group. -/
def RecordOfGroup (code : QString) (m : RxMatch) (g : Nat) (r : SymbolInfo) : Prop :=
  r.name = m.captured g ∧
    r.line = (calculateLineAndColumn code (m.capturedStart g)).1 ∧
    r.column = (calculateLineAndColumn code (m.capturedStart g)).2 ∧
    r.length = (m.capturedLength g : Int)

/-! ## The candidate model of the completer -/

/-- `m_specialCompletions.keys()`: the registered template keywords, in key order. -/
def specialKeys (c : QPythonCompleter) : List QString :=
  c.m_specialCompletions.map (fun p => p.1)

/-- `QPythonCompleter::updateCompleterModel`. -/
def updateCompleterModel (fold : Char → Char) (c : QPythonCompleter) : QPythonCompleter :=
  let completeList := c.m_builtinSymbols ++ c.m_userSymbols
  let completeList1 := (specialKeys c).foldl
    (fun (acc : List QString) key => if !qContains acc key then acc ++ [key] else acc)
    completeList
  let completeList2 := ciSort fold (removeDuplicates completeList1)
  let currentCompletion := trimmed c.completionPrefix
  let completeList3 :=
    if !currentCompletion.isEmpty then removeAll completeList2 currentCompletion
    else completeList2
  { c with m_model := completeList3 }

/-- `QPythonCompleter::addSpecialCompletion`. -/
def addSpecialCompletion (fold : Char → Char) (c : QPythonCompleter)
    (keyword expansion : QString) : QPythonCompleter :=
  let c1 := { c with m_specialCompletions := qmapSet c.m_specialCompletions keyword expansion }
  if !qContains c1.m_model keyword then
    { c1 with m_model := ciSort fold (c1.m_model ++ [keyword]) }
  else c1

/-- The templates registered by `QPythonCompleter::initSpecialCompletions`, in
the order of the calls. -/
def defaultTemplates : Entries :=
  [("main", "if __name__ == \"__main__\":\n    "),
   ("try", "try:\n    \nexcept Exception as e:\n    "),
   ("for", "for i in range(10):\n    "),
   ("while", "while True:\n    "),
   ("if", "if condition:\n    "),
   ("elif", "elif condition:\n    "),
   ("else", "else:\n    "),
   ("class", "class ClassName:\n    def __init__(self):\n        "),
   ("def", "def function_name(parameters):\n    "),
   ("return", "return "),
   ("import", "import "),
   ("from", "from module import ")].map (fun p => (p.1.toList, p.2.toList))

/-- `QPythonCompleter::initSpecialCompletions`. -/
def initSpecialCompletions (fold : Char → Char) (c : QPythonCompleter) : QPythonCompleter :=
  defaultTemplates.foldl (fun acc p => addSpecialCompletion fold acc p.1 p.2) c

/-- The constructor `QPythonCompleter::QPythonCompleter`; `builtinSymbols` is
the list of names read from the resource `:/languages/python.xml`. -/
def QPythonCompleter.new (fold : Char → Char) (builtinSymbols : List QString) :
    QPythonCompleter :=
  updateCompleterModel fold (initSpecialCompletions fold
    { m_extracter := none, m_model := [], m_builtinSymbols := builtinSymbols,
      m_userSymbols := [], m_currentCompletionObject := [], m_currentCompletionList := [],
      m_specialCompletions := [], completionPrefix := [], popupVisible := false })

/-- `QPythonCompleter::updateUserSymbols`. -/
def updateUserSymbols (fold : Char → Char) (c : QPythonCompleter)
    (userSymbols : List QString) : QPythonCompleter :=
  updateCompleterModel fold { c with m_userSymbols := userSymbols }

/-- `QPythonCompleter::onSymbolsUpdated`. -/
def onSymbolsUpdated (fold : Char → Char) (c : QPythonCompleter) (symbols : List QString) :
    QPythonCompleter :=
  updateCompleterModel fold { c with m_userSymbols := symbols }

/-- `QPythonCompleter::setExtracter`: the pointer is stored and, when it is
not null, the symbols of the extractor are taken over at once. -/
def setExtracter (fold : Char → Char) (c : QPythonCompleter)
    (extracter : Option QPythonExtracter) : QPythonCompleter :=
  let c1 := { c with m_extracter := extracter }
  match extracter with
  | some ex => onSymbolsUpdated fold c1 (symbols ex)
  | none => c1

/-- `QCompleter::setCompletionPrefix` of Qt 5: the prefix is stored, then
`splitPath(prefix)` is called. -/
def setCompletionPrefix (fold : Char → Char) (c : QPythonCompleter) (p : QString) :
    QPythonCompleter :=
  (splitPath fold { c with completionPrefix := p } p).1

/-- The extractor of the completer runs `extractSymbols(code)`; its signal
`symbolsUpdated` is connected to `onSymbolsUpdated` by `setExtracter`. -/
def extracterRun (fold : Char → Char) (c : QPythonCompleter) (code : QString) :
    QPythonCompleter :=
  match c.m_extracter with
  | none => c
  | some ex =>
    (extractSymbols ex code).emitted.foldl
      (fun acc sig =>
        match sig with
        | Signal.symbolsUpdated syms => onSymbolsUpdated fold acc syms
        | Signal.symbolsInfoUpdated _ => acc)
      { c with m_extracter := some (extractSymbols ex code).state }

/-- The operations on a completer between two rebuilds of its model. -/
inductive CompleterOp where
  | symbolsUpdated (symbols : List QString)
  | updateUserSymbols (userSymbols : List QString)
  | addSpecialCompletion (keyword expansion : QString)
  | splitPath (path : QString)
  | setCompletionPrefix (p : QString)
  | setExtracter (extracter : Option QPythonExtracter)
  | extract (code : QString)

/-- One operation applied to a completer. -/
def applyOp (fold : Char → Char) (c : QPythonCompleter) : CompleterOp → QPythonCompleter
  | CompleterOp.symbolsUpdated symbols => onSymbolsUpdated fold c symbols
  | CompleterOp.updateUserSymbols userSymbols => updateUserSymbols fold c userSymbols
  | CompleterOp.addSpecialCompletion keyword expansion =>
    addSpecialCompletion fold c keyword expansion
  | CompleterOp.splitPath path => (splitPath fold c path).1
  | CompleterOp.setCompletionPrefix p => setCompletionPrefix fold c p
  | CompleterOp.setExtracter extracter => setExtracter fold c extracter
  | CompleterOp.extract code => extracterRun fold c code

/-- A sequence of operations applied in order. -/
def applyOps (fold : Char → Char) (c : QPythonCompleter) (ops : List CompleterOp) :
    QPythonCompleter :=
  ops.foldl (applyOp fold) c

/-- The base candidate set in the words of the specification: the builtin
symbols, the user symbols and the template keywords in one list, duplicates
removed, sorted case-insensitively, and the entries equal to a non-empty
current token removed. -/
def baseCandidates (fold : Char → Char) (builtin user keys : List QString)
    (token : QString) : List QString :=
  if token.isEmpty then ciSort fold (removeDuplicates (builtin ++ user ++ keys))
  else removeAll (ciSort fold (removeDuplicates (builtin ++ user ++ keys))) token

/-- The member list `members` with every element exactly equal to `p`
removed, in the words of the specification. -/
def withoutExact (members : List QString) (p : QString) : List QString :=
  members.filter (fun m => decide (m ≠ p))

/-! # Theorems -/

/-! ## Lemmas: position queries -/

theorem coversPosition_iff (line column : Int) (r : SymbolInfo) :
    coversPosition line column r = true ↔ Occupies r line column := by
  unfold coversPosition Occupies
  simp [Bool.and_eq_true, and_assoc]

theorem scanSymbolInfo_none (line column : Int) (l : List SymbolInfo)
    (h : ∀ r ∈ l, ¬ Occupies r line column) :
    scanSymbolInfo line column l = SymbolInfo.default := by
  induction l with
  | nil => rfl
  | cons a t ih =>
    have ha : coversPosition line column a = false := by
      rw [Bool.eq_false_iff]
      intro hc
      exact h a (List.mem_cons_self a t) ((coversPosition_iff line column a).1 hc)
    simp only [scanSymbolInfo, ha]
    exact ih (fun r hr => h r (List.mem_cons_of_mem a hr))

theorem scanSymbolInfo_first (line column : Int) (l : List SymbolInfo)
    (h : ∃ r ∈ l, Occupies r line column) :
    ∃ pre r post, l = pre ++ r :: post ∧ Occupies r line column ∧
      (∀ x ∈ pre, ¬ Occupies x line column) ∧ scanSymbolInfo line column l = r := by
  induction l with
  | nil =>
    obtain ⟨r, hr, _⟩ := h
    exact absurd hr (List.not_mem_nil r)
  | cons a t ih =>
    by_cases ha : Occupies a line column
    · refine ⟨[], a, t, rfl, ha, ?_, ?_⟩
      · intro x hx
        exact absurd hx (List.not_mem_nil x)
      · have hc := (coversPosition_iff line column a).2 ha
        simp [scanSymbolInfo, hc]
    · have ht : ∃ r ∈ t, Occupies r line column := by
        obtain ⟨r, hr, ho⟩ := h
        rcases List.mem_cons.1 hr with hra | hrt
        · exact absurd (hra ▸ ho) ha
        · exact ⟨r, hrt, ho⟩
      obtain ⟨pre, r, post, hl, ho, hpre, hres⟩ := ih ht
      refine ⟨a :: pre, r, post, by rw [hl]; rfl, ho, ?_, ?_⟩
      · intro x hx
        rcases List.mem_cons.1 hx with hxa | hxp
        · exact hxa ▸ ha
        · exact hpre x hxp
      · have hc : coversPosition line column a = false := by
          rw [Bool.eq_false_iff]
          intro hc
          exact ha ((coversPosition_iff line column a).1 hc)
        simp only [scanSymbolInfo, hc]
        exact hres

/-! ## Lemmas: the recording order of positions -/

theorem foldl_grows {α β : Type} (g : β → List SymbolInfo) (P : SymbolInfo → Prop)
    (f : β → α → β)
    (hf : ∀ acc m, ∃ ex, g (f acc m) = g acc ++ ex ∧ ∀ r ∈ ex, P r) :
    ∀ (ms : List α) (acc0 : β), ∃ ex, g (ms.foldl f acc0) = g acc0 ++ ex ∧ ∀ r ∈ ex, P r := by
  intro ms
  induction ms with
  | nil =>
    intro acc0
    exact ⟨[], by simp, by simp⟩
  | cons m t ih =>
    intro acc0
    obtain ⟨ex1, h1, hp1⟩ := hf acc0 m
    obtain ⟨ex2, h2, hp2⟩ := ih (f acc0 m)
    refine ⟨ex1 ++ ex2, ?_, ?_⟩
    · rw [List.foldl_cons, h2, h1, List.append_assoc]
    · intro r hr
      rcases List.mem_append.1 hr with h | h
      · exact hp1 r h
      · exact hp2 r h

theorem keywordPositions_grows (code : QString) (infos : List SymbolInfo) (keyword : QString) :
    ∃ ex, keywordPositions code infos keyword = infos ++ ex ∧
      ∀ r ∈ ex, r.type = SymbolType.Keyword := by
  unfold keywordPositions
  apply foldl_grows (fun x => x) (fun r => r.type = SymbolType.Keyword)
  intro acc m
  exact ⟨_, rfl, by simp⟩

theorem classPositions_grows (code : QString) (acc0 : PosAcc) :
    ∃ ex, (classPositions code acc0).1 = acc0.1 ++ ex ∧
      ∀ r ∈ ex, r.type = SymbolType.Class := by
  unfold classPositions
  refine foldl_grows (fun x : PosAcc => x.1) (fun r => r.type = SymbolType.Class) _ ?_ _ _
  intro acc m
  dsimp only
  split_ifs <;> first
    | exact ⟨_, rfl, by simp⟩
    | exact ⟨[], (List.append_nil _).symm, fun r hr => absurd hr (List.not_mem_nil r)⟩

theorem functionPositions_grows (code : QString) (acc0 : PosAcc) :
    ∃ ex, (functionPositions code acc0).1 = acc0.1 ++ ex ∧
      ∀ r ∈ ex, r.type = SymbolType.Function := by
  unfold functionPositions
  refine foldl_grows (fun x : PosAcc => x.1) (fun r => r.type = SymbolType.Function) _ ?_ _ _
  intro acc m
  dsimp only
  split_ifs <;> first
    | exact ⟨_, rfl, by simp⟩
    | exact ⟨[], (List.append_nil _).symm, fun r hr => absurd hr (List.not_mem_nil r)⟩

theorem variablePositions_grows (keywords : List QString) (code : QString) (acc0 : PosAcc) :
    ∃ ex, (variablePositions keywords code acc0).1 = acc0.1 ++ ex ∧
      ∀ r ∈ ex, r.type = SymbolType.Variable := by
  unfold variablePositions
  refine foldl_grows (fun x : PosAcc => x.1) (fun r => r.type = SymbolType.Variable) _ ?_ _ _
  intro acc m
  dsimp only
  split_ifs <;> first
    | exact ⟨_, rfl, by simp⟩
    | exact ⟨[], (List.append_nil _).symm, fun r hr => absurd hr (List.not_mem_nil r)⟩

theorem attributePositions_grows (code : QString) (acc0 : PosAcc) :
    ∃ ex, (attributePositions code acc0).1 = acc0.1 ++ ex ∧
      ∀ r ∈ ex, r.type = SymbolType.Variable := by
  unfold attributePositions
  refine foldl_grows (fun x : PosAcc => x.1) (fun r => r.type = SymbolType.Variable) _ ?_ _ _
  intro acc m
  dsimp only
  split_ifs <;> first
    | exact ⟨_, rfl, by simp⟩
    | exact ⟨[], (List.append_nil _).symm, fun r hr => absurd hr (List.not_mem_nil r)⟩

theorem importPositions_grows (code : QString) (acc0 : PosAcc) :
    ∃ ex, (importPositions code acc0).1 = acc0.1 ++ ex ∧
      ∀ r ∈ ex, r.type = SymbolType.Import := by
  unfold importPositions
  refine foldl_grows (fun x : PosAcc => x.1) (fun r => r.type = SymbolType.Import) _ ?_ _ _
  intro acc m
  dsimp only
  split_ifs <;> first
    | exact ⟨_, rfl, by simp⟩
    | exact ⟨[], (List.append_nil _).symm, fun r hr => absurd hr (List.not_mem_nil r)⟩

theorem fromImportPositions_grows (code : QString) (acc0 : PosAcc) :
    ∃ ex, (fromImportPositions code acc0).1 = acc0.1 ++ ex ∧
      ∀ r ∈ ex, r.type = SymbolType.Import := by
  unfold fromImportPositions
  refine foldl_grows (fun x : PosAcc => x.1) (fun r => r.type = SymbolType.Import) _ ?_ _ _
  intro acc m
  dsimp only
  split_ifs <;> first
    | exact ⟨_, rfl, by simp⟩
    | exact ⟨[], (List.append_nil _).symm, fun r hr => absurd hr (List.not_mem_nil r)⟩

theorem rankOrdered_append (l ex : List SymbolInfo) (n : Nat) (hl : RankOrdered l)
    (hln : ∀ r ∈ l, kindRank r.type ≤ n) (hex : ∀ r ∈ ex, kindRank r.type = n) :
    RankOrdered (l ++ ex) ∧ ∀ r ∈ l ++ ex, kindRank r.type ≤ n := by
  constructor
  · unfold RankOrdered
    rw [List.pairwise_append]
    refine ⟨hl, ?_, ?_⟩
    · rw [List.pairwise_iff_forall_sublist]
      intro a b hab
      have ha := hex a (hab.subset (List.mem_cons_self a [b]))
      have hb := hex b (hab.subset (List.mem_cons_of_mem a (List.mem_singleton_self b)))
      omega
    · intro a ha b hb
      have h1 := hln a ha
      have h2 := hex b hb
      omega
  · intro r hr
    rcases List.mem_append.1 hr with h | h
    · exact hln r h
    · exact le_of_eq (hex r h)

theorem keywordFold_grows (code : QString) (keywords : List QString) :
    ∃ ex, keywords.foldl (keywordPositions code) [] = ex ∧
      ∀ r ∈ ex, r.type = SymbolType.Keyword := by
  obtain ⟨ex, h, hp⟩ := foldl_grows (fun x : List SymbolInfo => x)
    (fun r => r.type = SymbolType.Keyword) (keywordPositions code)
    (fun acc m => keywordPositions_grows code acc m) keywords []
  exact ⟨ex, by simpa using h, hp⟩

theorem extractSymbolPositions_ranked (st : QPythonExtracter) (code : QString) :
    RankOrdered (extractSymbolPositions st code).m_symbolsInfo ∧
      ∀ r ∈ (extractSymbolPositions st code).m_symbolsInfo, kindRank r.type ≤ 4 := by
  unfold extractSymbolPositions
  dsimp only
  obtain ⟨k, hk, hkp⟩ := keywordFold_grows code st.m_pythonKeywords
  rw [hk]
  obtain ⟨e1, h1, p1⟩ := classPositions_grows code (k, [])
  obtain ⟨e2, h2, p2⟩ := functionPositions_grows code (classPositions code (k, []))
  obtain ⟨e3, h3, p3⟩ := variablePositions_grows st.m_pythonKeywords code
    (functionPositions code (classPositions code (k, [])))
  obtain ⟨e4, h4, p4⟩ := attributePositions_grows code
    (variablePositions st.m_pythonKeywords code
      (functionPositions code (classPositions code (k, []))))
  obtain ⟨e5, h5, p5⟩ := importPositions_grows code (attributePositions code
    (variablePositions st.m_pythonKeywords code
      (functionPositions code (classPositions code (k, [])))))
  obtain ⟨e6, h6, p6⟩ := fromImportPositions_grows code (importPositions code
    (attributePositions code (variablePositions st.m_pythonKeywords code
      (functionPositions code (classPositions code (k, []))))))
  rw [h6, h5, h4, h3, h2, h1]
  dsimp only
  have r0 : RankOrdered k ∧ ∀ r ∈ k, kindRank r.type ≤ 0 := by
    have := rankOrdered_append [] k 0 List.Pairwise.nil (by simp)
      (fun r hr => by rw [hkp r hr]; rfl)
    simpa using this
  have r1 := rankOrdered_append k e1 1 r0.1 (fun r hr => le_trans (r0.2 r hr) (by decide))
    (fun r hr => by rw [p1 r hr]; rfl)
  have r2 := rankOrdered_append _ e2 2 r1.1 (fun r hr => le_trans (r1.2 r hr) (by decide))
    (fun r hr => by rw [p2 r hr]; rfl)
  have r3 := rankOrdered_append _ e3 3 r2.1 (fun r hr => le_trans (r2.2 r hr) (by decide))
    (fun r hr => by rw [p3 r hr]; rfl)
  have r4 := rankOrdered_append _ e4 3 r3.1 r3.2 (fun r hr => by rw [p4 r hr]; rfl)
  have r5 := rankOrdered_append _ e5 4 r4.1 (fun r hr => le_trans (r4.2 r hr) (by decide))
    (fun r hr => by rw [p5 r hr]; rfl)
  exact rankOrdered_append _ e6 4 r5.1 r5.2 (fun r hr => by rw [p6 r hr]; rfl)

theorem extractSymbols_symbolsInfo (st : QPythonExtracter) (code : QString) (h : code ≠ []) :
    ∃ st5, (extractSymbols st code).state.m_symbolsInfo =
      (extractSymbolPositions st5 code).m_symbolsInfo := by
  unfold extractSymbols
  have hne : code.isEmpty = false := by
    cases code with
    | nil => exact absurd rfl h
    | cons c cs => rfl
  simp only [hne]
  exact ⟨_, rfl⟩

theorem rankOrdered_index (l : List SymbolInfo) (hl : RankOrdered l) (i j : Nat)
    (a b : SymbolInfo) (ha : l.get? i = some a) (hb : l.get? j = some b)
    (hlt : kindRank a.type < kindRank b.type) : i < j := by
  by_contra hij
  have hji : j ≤ i := Nat.le_of_not_lt hij
  rcases Nat.lt_or_eq_of_le hji with hlt2 | heq
  · have := (List.pairwise_iff_get.1 hl)
    obtain ⟨hj, hbj⟩ := List.get?_eq_some.1 hb
    obtain ⟨hi, hai⟩ := List.get?_eq_some.1 ha
    have h2 := this ⟨j, hj⟩ ⟨i, hi⟩ hlt2
    rw [hbj, hai] at h2
    omega
  · subst heq
    rw [ha] at hb
    cases hb
    omega

/-! ## Lemmas: string order and sorting -/

theorem qstrLt_cotrans : ∀ (c a b : QString), qstrLt c a = true →
    qstrLt b a = true ∨ qstrLt c b = true := by
  intro c
  induction c with
  | nil =>
    intro a b h
    cases a with
    | nil => simp [qstrLt] at h
    | cons x xs =>
      cases b with
      | nil => left; simp [qstrLt]
      | cons y ys => right; simp [qstrLt]
  | cons z zs ih =>
    intro a b h
    cases a with
    | nil => simp [qstrLt] at h
    | cons x xs =>
      cases b with
      | nil => left; simp [qstrLt]
      | cons y ys =>
        simp only [qstrLt] at h ⊢
        by_cases h1 : z.toNat < x.toNat
        · by_cases h2 : y.toNat < x.toNat
          · left; simp [h2]
          · by_cases h3 : z.toNat < y.toNat
            · right; simp [h3]
            · have hxy : x.toNat = y.toNat := by omega
              have : ¬ x.toNat < y.toNat := by omega
              exfalso; omega
        · by_cases h1b : x.toNat < z.toNat
          · simp [h1, h1b] at h
          · simp only [h1, h1b, if_false] at h
            have hzx : z.toNat = x.toNat := by omega
            by_cases h2 : y.toNat < x.toNat
            · left; simp [h2]
            · by_cases h3 : z.toNat < y.toNat
              · right; simp [h3]
              · have hxy : ¬ x.toNat < y.toNat := by omega
                have hyz : ¬ y.toNat < z.toNat := by omega
                simp only [h2, hxy, h3, hyz, if_false]
                exact ih xs ys h

theorem qstrLt_irrefl : ∀ (a : QString), qstrLt a a = false := by
  intro a
  induction a with
  | nil => rfl
  | cons x xs ih => simp [qstrLt, ih]

theorem qstrLt_asymm : ∀ (a b : QString), qstrLt a b = true → qstrLt b a = false := by
  intro a
  induction a with
  | nil =>
    intro b _
    cases b <;> simp [qstrLt]
  | cons x xs ih =>
    intro b h
    cases b with
    | nil => simp [qstrLt] at h
    | cons y ys =>
      simp only [qstrLt] at h ⊢
      by_cases h1 : x.toNat < y.toNat
      · have : ¬ y.toNat < x.toNat := by omega
        simp [this, h1]
      · by_cases h2 : y.toNat < x.toNat
        · simp [h1, h2] at h
        · simp only [h1, h2, if_false] at h ⊢
          exact ih ys h

theorem qstrLe_total (a b : QString) : qstrLe a b = true ∨ qstrLe b a = true := by
  unfold qstrLe
  by_cases h : qstrLt b a = true
  · right
    rw [qstrLt_asymm b a h]
    rfl
  · left
    simpa using h

theorem qstrLe_trans (a b c : QString) (hab : qstrLe a b = true) (hbc : qstrLe b c = true) :
    qstrLe a c = true := by
  unfold qstrLe at *
  by_contra h
  have hca : qstrLt c a = true := by simpa using h
  rcases qstrLt_cotrans c a b hca with h2 | h2
  · simp [h2] at hab
  · simp [h2] at hbc

theorem ciLe_total (fold : Char → Char) (a b : QString) :
    ciLe fold a b = true ∨ ciLe fold b a = true :=
  qstrLe_total (a.map fold) (b.map fold)

theorem ciLe_trans (fold : Char → Char) (a b c : QString) (hab : ciLe fold a b = true)
    (hbc : ciLe fold b c = true) : ciLe fold a c = true :=
  qstrLe_trans (a.map fold) (b.map fold) (c.map fold) hab hbc

theorem sortInsert_perm (le : QString → QString → Bool) (x : QString) :
    ∀ l : List QString, (sortInsert le x l).Perm (x :: l) := by
  intro l
  induction l with
  | nil => exact List.Perm.refl _
  | cons y ys ih =>
    simp only [sortInsert]
    split_ifs
    · exact List.Perm.refl _
    · exact (List.Perm.cons y ih).trans (List.Perm.swap x y ys)

theorem sortBy_perm (le : QString → QString → Bool) :
    ∀ l : List QString, (sortBy le l).Perm l := by
  intro l
  induction l with
  | nil => exact List.Perm.refl _
  | cons x xs ih =>
    simp only [sortBy]
    exact (sortInsert_perm le x (sortBy le xs)).trans (List.Perm.cons x ih)

theorem sortInsert_sorted (le : QString → QString → Bool)
    (htot : ∀ a b, le a b = true ∨ le b a = true)
    (htr : ∀ a b c, le a b = true → le b c = true → le a c = true) (x : QString) :
    ∀ l : List QString, List.Pairwise (fun a b => le a b = true) l →
      List.Pairwise (fun a b => le a b = true) (sortInsert le x l) := by
  intro l
  induction l with
  | nil =>
    intro _
    simp [sortInsert]
  | cons y ys ih =>
    intro hl
    simp only [sortInsert]
    rw [List.pairwise_cons] at hl
    split_ifs with hxy
    · rw [List.pairwise_cons]
      refine ⟨?_, List.pairwise_cons.2 hl⟩
      intro b hb
      rcases List.mem_cons.1 hb with h | h
      · rw [h]; exact hxy
      · exact htr x y b hxy (hl.1 b h)
    · rw [List.pairwise_cons]
      refine ⟨?_, ih hl.2⟩
      intro b hb
      have hb2 := (sortInsert_perm le x ys).subset hb
      rcases List.mem_cons.1 hb2 with h | h
      · rw [h]
        rcases htot x y with h3 | h3
        · exact absurd h3 hxy
        · exact h3
      · exact hl.1 b h

theorem sortBy_sorted (le : QString → QString → Bool)
    (htot : ∀ a b, le a b = true ∨ le b a = true)
    (htr : ∀ a b c, le a b = true → le b c = true → le a c = true) :
    ∀ l : List QString, List.Pairwise (fun a b => le a b = true) (sortBy le l) := by
  intro l
  induction l with
  | nil => exact List.Pairwise.nil
  | cons x xs ih =>
    simp only [sortBy]
    exact sortInsert_sorted le htot htr x _ ih

/-! ## Lemmas: `toStdMap` keeps one value per key -/

theorem char_toNat_inj (a b : Char) (h : a.toNat = b.toNat) : a = b := by
  apply Char.ext
  unfold Char.toNat at h
  exact UInt32.ext (by simpa [UInt32.toNat] using h)

theorem qstrLt_trans (a b c : QString) (hab : qstrLt a b = true) (hbc : qstrLt b c = true) :
    qstrLt a c = true := by
  rcases qstrLt_cotrans a b c hab with h | h
  · rw [qstrLt_asymm b c hbc] at h
    exact absurd h (by simp)
  · exact h

theorem qstrLt_trichotomy : ∀ (a b : QString), qstrLt a b = false → qstrLt b a = false →
    a = b := by
  intro a
  induction a with
  | nil =>
    intro b h1 h2
    cases b with
    | nil => rfl
    | cons y ys => simp [qstrLt] at h1
  | cons x xs ih =>
    intro b h1 h2
    cases b with
    | nil => simp [qstrLt] at h2
    | cons y ys =>
      simp only [qstrLt] at h1 h2
      by_cases hxy : x.toNat < y.toNat
      · simp [hxy] at h1
      · by_cases hyx : y.toNat < x.toNat
        · simp [hyx] at h2
        · simp only [hxy, hyx, if_false] at h1 h2
          have hc : x = y := char_toNat_inj x y (by omega)
          rw [hc, ih ys h1 h2]

theorem mem_stdMapInsert : ∀ (m : Entries) (p x : QString × QString),
    x ∈ stdMapInsert m p → x ∈ m ∨ x = p := by
  intro m
  induction m with
  | nil =>
    intro p x hx
    right
    simpa [stdMapInsert] using hx
  | cons q t ih =>
    intro p x hx
    simp only [stdMapInsert] at hx
    split_ifs at hx
    · left; exact hx
    · rcases List.mem_cons.1 hx with h | h
      · right; exact h
      · left; exact h
    · rcases List.mem_cons.1 hx with h | h
      · left; rw [h]; exact List.mem_cons_self q t
      · rcases ih p x h with h2 | h2
        · left; exact List.mem_cons_of_mem q h2
        · right; exact h2

theorem stdMapInsert_strictKeys : ∀ (m : Entries) (p : QString × QString),
    StrictKeys m → StrictKeys (stdMapInsert m p) := by
  intro m
  induction m with
  | nil =>
    intro p _
    simp [stdMapInsert, StrictKeys]
  | cons q t ih =>
    intro p hm
    have hm2 := List.pairwise_cons.1 hm
    simp only [stdMapInsert]
    by_cases heq : (p.1 == q.1) = true
    · simp only [heq, if_true]
      exact hm
    · simp only [heq, if_false]
      by_cases hlt : qstrLt p.1 q.1 = true
      · simp only [hlt, if_true]
        refine List.pairwise_cons.2 ⟨?_, hm⟩
        intro b hb
        rcases List.mem_cons.1 hb with h | h
        · rw [h]; exact hlt
        · exact qstrLt_trans p.1 q.1 b.1 hlt (hm2.1 b h)
      · simp only [hlt, if_false]
        refine List.pairwise_cons.2 ⟨?_, ih p hm2.2⟩
        intro b hb
        rcases mem_stdMapInsert t p b hb with h | h
        · exact hm2.1 b h
        · rw [h]
          by_contra hqp
          have e : p.1 = q.1 := qstrLt_trichotomy p.1 q.1 (by simpa using hlt) (by simpa using hqp)
          exact heq (by simp [e])

theorem toStdMap_strictKeys (m : Entries) : StrictKeys (toStdMap m) := by
  unfold toStdMap
  induction m with
  | nil => exact List.Pairwise.nil
  | cons p t ih =>
    rw [List.foldr_cons]
    exact stdMapInsert_strictKeys _ p ih

theorem strictKeys_filter_length (name : QString) : ∀ (m : Entries), StrictKeys m →
    (m.filter (fun p => p.1 == name)).length ≤ 1 := by
  intro m
  induction m with
  | nil => intro _; simp
  | cons q t ih =>
    intro hm
    have hm2 := List.pairwise_cons.1 hm
    by_cases hq : (q.1 == name) = true
    · have hnone : t.filter (fun p => p.1 == name) = [] := by
        rw [List.filter_eq_nil_iff]
        intro b hb hbn
        have h1 := hm2.1 b hb
        have e1 : q.1 = name := by simpa using hq
        have e2 : b.1 = name := by simpa using hbn
        rw [e1, e2, qstrLt_irrefl] at h1
        exact absurd h1 (by simp)
      simp [List.filter_cons, hq, hnone]
    · simp only [List.filter_cons, hq]
      exact ih hm2.2

/-- In every state the lookup loop of `getObjectMembers` finds at most one
member for a name. -/
theorem membersOfKey_length_le_one (st : QPythonExtracter) (name : QString) :
    (membersOfKey st name).length ≤ 1 := by
  unfold membersOfKey
  rw [List.length_map]
  exact strictKeys_filter_length name _ (toStdMap_strictKeys st.m_classMembers)

/-! ## Lemmas: dotted completion -/

theorem bucketMembers_foldl (fold : Char → Char) (p : QString) :
    ∀ (items s c o : List QString),
      items.foldl
        (fun (acc : List QString × List QString × List QString) item =>
          if ciStartsWith fold item p then (acc.1 ++ [item], acc.2.1, acc.2.2)
          else if ciContains fold item p then (acc.1, acc.2.1 ++ [item], acc.2.2)
          else (acc.1, acc.2.1, acc.2.2 ++ [item]))
        (s, c, o) =
      (s ++ items.filter (fun m => ciStartsWith fold m p),
       c ++ items.filter (fun m => ciContains fold m p && !ciStartsWith fold m p),
       o ++ items.filter (fun m => !ciContains fold m p && !ciStartsWith fold m p)) := by
  intro items
  induction items with
  | nil => intro s c o; simp
  | cons x xs ih =>
    intro s c o
    rw [List.foldl_cons]
    by_cases h1 : ciStartsWith fold x p = true
    · simp only [h1, if_true]
      rw [ih]
      simp [List.filter_cons, h1]
    · by_cases h2 : ciContains fold x p = true
      · simp only [h1, h2, if_true, if_false]
        rw [ih]
        simp [List.filter_cons, h1, h2]
      · simp only [h1, h2, if_false]
        rw [ih]
        simp [List.filter_cons, h1, h2]

theorem bucketMembers_eq (fold : Char → Char) (p : QString) (items : List QString) :
    bucketMembers fold p items =
      (items.filter (fun m => ciStartsWith fold m p),
       items.filter (fun m => ciContains fold m p && !ciStartsWith fold m p),
       items.filter (fun m => !ciContains fold m p && !ciStartsWith fold m p)) := by
  unfold bucketMembers
  rw [bucketMembers_foldl]
  simp

theorem lastIndexOfDotAux_none : ∀ (p : List Char) (i : Nat), '.' ∉ p →
    lastIndexOfDotAux p i = none := by
  intro p
  induction p with
  | nil => intro i _; rfl
  | cons x xs ih =>
    intro i h
    have hx : x ≠ '.' := fun e => h (e ▸ List.mem_cons_self x xs)
    have hxs : '.' ∉ xs := fun e => h (List.mem_cons_of_mem x e)
    simp [lastIndexOfDotAux, ih (i + 1) hxs, hx]

theorem lastIndexOfDotAux_append : ∀ (obj p : List Char) (i : Nat), '.' ∉ p →
    lastIndexOfDotAux (obj ++ '.' :: p) i = some (i + obj.length) := by
  intro obj
  induction obj with
  | nil =>
    intro p i h
    simp [lastIndexOfDotAux, lastIndexOfDotAux_none p (i + 1) h]
  | cons x xs ih =>
    intro p i h
    have e : i + 1 + xs.length = i + (xs.length + 1) := by omega
    have ih2 := ih p (i + 1) h
    rw [e] at ih2
    show (match lastIndexOfDotAux (xs ++ '.' :: p) (i + 1) with
      | some j => some j
      | none => if (x == '.') = true then some i else none) = some (i + (xs.length + 1))
    rw [ih2]

theorem splitPath_dotted_model (fold : Char → Char) (c : QPythonCompleter) (obj p : QString)
    (hobj : obj ≠ []) (hp : '.' ∉ p) :
    (splitPath fold c (obj ++ '.' :: p)).1.m_model = dottedCompletionList fold c obj p := by
  unfold splitPath
  have hany : (obj ++ '.' :: p).any (fun ch => ch == '.') = true := by
    simp
  have hlast : lastIndexOfDot (obj ++ '.' :: p) = some obj.length := by
    unfold lastIndexOfDot
    rw [lastIndexOfDotAux_append obj p 0 hp]
    simp
  have hlen : 0 < obj.length := List.length_pos.2 hobj
  have htake : (obj ++ '.' :: p).take obj.length = obj := by simp
  have hdrop : (obj ++ '.' :: p).drop (obj.length + 1) = p := by
    rw [← List.drop_drop]
    simp
  simp only [hany, hlast, Bool.not_true, Bool.false_eq_true, if_false, gt_iff_lt, hlen, if_true,
    htake, hdrop]

theorem dottedCompletionList_eq (fold : Char → Char) (c : QPythonCompleter)
    (obj p : QString) :
    dottedCompletionList fold c obj p =
      rankMembers fold p (if p = [] then resolveMembers c obj
        else removeAll (resolveMembers c obj) p) := by
  unfold dottedCompletionList
  cases hex : c.m_extracter with
  | none =>
    have hres : resolveMembers c obj = [] := by
      unfold resolveMembers
      rw [hex]
    simp [hres, removeAll]
  | some ex =>
    cases p with
    | nil => simp
    | cons x xs => simp

theorem removeAll_eq_withoutExact (l : List QString) (p : QString) :
    removeAll l p = withoutExact l p := by
  unfold removeAll withoutExact
  congr 1
  funext x
  by_cases h : x = p
  · simp [h]
  · simp [h]

theorem mem_ranked (fold : Char → Char) (p x : QString) (l : List QString) :
    x ∈ ciSort fold (l.filter (fun m => ciStartsWith fold m p)) ++
        ciSort fold (l.filter (fun m => ciContains fold m p && !ciStartsWith fold m p)) ++
        ciSort fold (l.filter (fun m => !ciContains fold m p && !ciStartsWith fold m p)) ↔
      x ∈ l := by
  unfold ciSort
  simp only [List.mem_append, (sortBy_perm (ciLe fold) _).mem_iff, List.mem_filter]
  cases ciStartsWith fold x p <;> cases ciContains fold x p <;> simp

/-! ## Lemmas: the end of a class body -/

theorem indexOfAux_some (ch : Char) : ∀ (l : List Char) (i p : Nat),
    indexOfAux ch l i = some p → i ≤ p ∧ p < i + l.length ∧ l.get? (p - i) = some ch := by
  intro l
  induction l with
  | nil => intro i p h; simp [indexOfAux] at h
  | cons c cs ih =>
    intro i p h
    simp only [indexOfAux] at h
    by_cases hc : (c == ch) = true
    · simp only [hc, if_true, Option.some.injEq] at h
      subst h
      have : c = ch := by simpa using hc
      simp [this]
    · simp only [hc, if_false] at h
      obtain ⟨h1, h2, h3⟩ := ih (i + 1) p h
      refine ⟨by omega, by simp only [List.length_cons]; omega, ?_⟩
      have e : p - i = (p - (i + 1)) + 1 := by omega
      rw [e, List.get?_cons_succ]
      exact h3

theorem indexOf_some (code : QString) (ch : Char) (start p : Nat)
    (h : indexOf code ch start = some p) :
    start ≤ p ∧ p < code.length ∧ code.get? p = some ch := by
  unfold indexOf at h
  obtain ⟨h1, h2, h3⟩ := indexOfAux_some ch (code.drop start) start p h
  rw [List.get?_eq_getElem?, List.getElem?_drop] at h3
  have e : start + (p - start) = p := by omega
  rw [e, ← List.get?_eq_getElem?] at h3
  refine ⟨h1, ?_, h3⟩
  obtain ⟨hlt, _⟩ := List.get?_eq_some.1 h3
  exact hlt

theorem countSpaces_at_newline (code : QString) (nl : Nat)
    (h : code.get? nl = some '\n') : countSpaces (code.drop nl) = 0 := by
  obtain ⟨hlt, hget⟩ := List.get?_eq_some.1 h
  have hd : code.drop nl = code.get ⟨nl, hlt⟩ :: code.drop (nl + 1) :=
    (List.drop_eq_getElem_cons hlt)
  rw [hd, hget]
  simp [countSpaces, List.takeWhile]

theorem findClassEndLoop_isSome (code : QString) (indentLevel : Nat) :
    ∀ (fuel pos : Nat), pos ≤ code.length → code.length < fuel + pos →
      ∃ e, findClassEndLoop code indentLevel fuel pos = some e := by
  intro fuel
  induction fuel with
  | zero =>
    intro pos h1 h2
    omega
  | succ n ih =>
    intro pos h1 h2
    have step : ∃ e, (match indexOf code '\n' pos with
        | none => some code.length
        | some p => findClassEndLoop code indentLevel n (p + 1)) = some e := by
      cases hi : indexOf code '\n' pos with
      | none => exact ⟨_, rfl⟩
      | some p =>
        obtain ⟨a, b, _⟩ := indexOf_some code '\n' pos p hi
        exact ih (p + 1) (by omega) (by omega)
    simp only [findClassEndLoop]
    split_ifs
    · exact step
    · exact ⟨_, rfl⟩
    · exact step
    · exact ⟨_, rfl⟩

theorem findClassEndRun_isSome (code : QString) (startPos : Nat) :
    ∃ e, findClassEndRun code startPos = some e := by
  unfold findClassEndRun
  cases hi : indexOf code '\n' startPos with
  | none => exact ⟨_, rfl⟩
  | some nl =>
    obtain ⟨_, b, _⟩ := indexOf_some code '\n' startPos nl hi
    exact findClassEndLoop_isSome code _ (code.length + 1) (nl + 1) (by omega) (by omega)

theorem findClassEndLoop_unterminated (code : QString) (startPos k : Nat)
    (h : ∀ q, LineStartAfter code startPos q → ¬ DedentedLine code k q) :
    ∀ (fuel pos : Nat), pos ≤ code.length → code.length < fuel + pos →
      LineStartAfter code startPos pos →
      findClassEndLoop code 0 fuel pos = some code.length := by
  intro fuel
  induction fuel with
  | zero =>
    intro pos h1 h2 _
    omega
  | succ n ih =>
    intro pos h1 h2 hls
    have next : ∀ p, indexOf code '\n' pos = some p →
        findClassEndLoop code 0 n (p + 1) = some code.length := by
      intro p hp
      obtain ⟨a, b, c⟩ := indexOf_some code '\n' pos p hp
      obtain ⟨nl, hnl1, _, hnl3⟩ := hls
      exact ih (p + 1) (by omega) (by omega) ⟨p, by omega, c, rfl⟩
    have step : (match indexOf code '\n' pos with
        | none => some code.length
        | some p => findClassEndLoop code 0 n (p + 1)) = some code.length := by
      cases hi : indexOf code '\n' pos with
      | none => rfl
      | some p => exact next p hi
    simp only [findClassEndLoop]
    by_cases hpos : pos < code.length
    · simp only [hpos, if_true]
      by_cases hblank : (decide (pos + countSpaces (code.drop pos) ≥ code.length)
          || code.get? (pos + countSpaces (code.drop pos)) == some '\n'
          || code.get? (pos + countSpaces (code.drop pos)) == some '#') = true
      · simp only [hblank, if_true]
        exact step
      · simp only [hblank, if_false]
        by_cases hind : countSpaces (code.drop pos) ≤ 0
        · exfalso
          apply h pos hls
          simp only [Bool.or_eq_true, decide_eq_true_eq, beq_iff_eq, not_or] at hblank
          exact ⟨by omega, hblank.1.2, hblank.2, by omega⟩
        · simp only [hind, if_false]
          exact step
    · simp only [hpos, if_false]

theorem findClassEndRun_unterminated (code : QString) (startPos k : Nat)
    (h : ∀ q, LineStartAfter code startPos q → ¬ DedentedLine code k q) :
    findClassEndRun code startPos = some code.length := by
  unfold findClassEndRun
  cases hi : indexOf code '\n' startPos with
  | none => rfl
  | some nl =>
    obtain ⟨a, b, c⟩ := indexOf_some code '\n' startPos nl hi
    simp only [countSpaces_at_newline code nl c]
    exact findClassEndLoop_unterminated code startPos k h (code.length + 1) (nl + 1)
      (by omega) (by omega) ⟨nl, a, c, rfl⟩

/-! ## Claims -/

set_option maxRecDepth 200000 in
/-- C1 (the code departs from the claim): after `extractSymbols` on
`class Foo:` with a method `bar`, followed by `x = Foo()`, the object-type map
sends `x` to `Foo`, the class-members map records `__init__` and `bar` for
`Foo` and nothing for `x`, yet `getObjectMembers("x")` is `[bar]` only, as is
`getObjectMembers("Foo")`: `toStdMap()` keeps one value per key, so `__init__`
is lost. -/
theorem getObjectMembers_typed_object_loses_members :
    qmapValue (extractSymbols QPythonExtracter.new
        "class Foo:\n    def bar(self):\n        pass\nx = Foo()\n".toList).state.m_objectTypes
        "x".toList = "Foo".toList ∧
    (((extractSymbols QPythonExtracter.new
        "class Foo:\n    def bar(self):\n        pass\nx = Foo()\n".toList).state.m_classMembers.filter
        (fun e => e.1 == "Foo".toList)).map (fun e => e.2)) = ["__init__".toList, "bar".toList] ∧
    ((extractSymbols QPythonExtracter.new
        "class Foo:\n    def bar(self):\n        pass\nx = Foo()\n".toList).state.m_classMembers.filter
        (fun e => e.1 == "x".toList)) = [] ∧
    getObjectMembers (extractSymbols QPythonExtracter.new
        "class Foo:\n    def bar(self):\n        pass\nx = Foo()\n".toList).state "x".toList
      = ["bar".toList] ∧
    getObjectMembers (extractSymbols QPythonExtracter.new
        "class Foo:\n    def bar(self):\n        pass\nx = Foo()\n".toList).state "Foo".toList
      = ["bar".toList] := by
  decide

set_option maxRecDepth 200000 in
/-- C2 (the code departs from the claim): after `extractSymbols` on a class `B`
with a method `foo` that assigns `self.y` and no `def __init__`, the class
header pattern matches `B` and the class-members map holds `(B, __init__)`, but
`getObjectMembers("B")` is `[foo]` and does not contain `__init__`. -/
theorem getObjectMembers_class_without_init :
    (globalMatch classRegex "class B:\n    def foo(self):\n        self.y = 1\n".toList).map
        (fun m => m.captured 1) = ["B".toList] ∧
    (("B".toList, "__init__".toList) ∈ (extractSymbols QPythonExtracter.new
        "class B:\n    def foo(self):\n        self.y = 1\n".toList).state.m_classMembers) ∧
    getObjectMembers (extractSymbols QPythonExtracter.new
        "class B:\n    def foo(self):\n        self.y = 1\n".toList).state "B".toList
      = ["foo".toList] := by
  decide

set_option maxRecDepth 200000 in
/-- C3 (the code departs from the claim): on the text of the end-to-end
scenario the class-members map records `x` and `__init__` for `A`, but
`getObjectMembers("a")` is `[__init__]`, and `splitPath("a.")` sets the model
to `[__init__]`: `x` is in neither. -/
theorem endToEnd_dotted_completion_misses_attribute :
    (("A".toList, "x".toList) ∈ (extractSymbols QPythonExtracter.new
        "class A:\n    def __init__(self):\n        self.x = 1\n\na = A()\nprint(a.".toList).state.m_classMembers) ∧
    getObjectMembers (extractSymbols QPythonExtracter.new
        "class A:\n    def __init__(self):\n        self.x = 1\n\na = A()\nprint(a.".toList).state
        "a".toList = ["__init__".toList] ∧
    (splitPath asciiFold
        { m_extracter := some (extractSymbols QPythonExtracter.new
            "class A:\n    def __init__(self):\n        self.x = 1\n\na = A()\nprint(a.".toList).state,
          m_model := [], m_builtinSymbols := [], m_userSymbols := [],
          m_currentCompletionObject := [], m_currentCompletionList := [],
          m_specialCompletions := [], completionPrefix := "a.".toList, popupVisible := false }
        "a.".toList).1.m_model = ["__init__".toList] := by
  decide

/-- C4: for an object expression `obj` (non-empty) and a member prefix `p`
(without a dot), `splitPath(obj.p)` sets the model as follows, `M` being the
member list looked up for `obj` and `M'` being `M` with every element exactly
equal to `p` removed: for a non-empty `p` the model is `S ++ C ++ O` with `S`
the elements of `M'` starting with `p`, `C` those containing but not starting
with `p`, `O` the rest (all case-insensitive), each sorted case-insensitively;
`p` itself is not in the model, whose elements are those of `M` other than
`p`; for an empty `p` the model is `M` sorted case-insensitively.  The sort
yields a sorted permutation, prefix `low` over `lower, flow, glower` gives
`lower, flow, glower`, and so it does over `low, lower, flow, low, glower`. -/
theorem splitPath_dotted_ranking (fold : Char → Char) (c : QPythonCompleter) (obj p : QString)
    (hobj : obj ≠ []) (hp : '.' ∉ p) :
    (p ≠ [] →
      (splitPath fold c (obj ++ '.' :: p)).1.m_model =
        ciSort fold ((withoutExact (resolveMembers c obj) p).filter
            (fun m => ciStartsWith fold m p)) ++
        ciSort fold ((withoutExact (resolveMembers c obj) p).filter
            (fun m => ciContains fold m p && !ciStartsWith fold m p)) ++
        ciSort fold ((withoutExact (resolveMembers c obj) p).filter
            (fun m => !ciContains fold m p && !ciStartsWith fold m p)) ∧
      p ∉ (splitPath fold c (obj ++ '.' :: p)).1.m_model ∧
      ∀ x, x ∈ (splitPath fold c (obj ++ '.' :: p)).1.m_model ↔
        x ∈ resolveMembers c obj ∧ x ≠ p) ∧
    (p = [] →
      (splitPath fold c (obj ++ '.' :: p)).1.m_model = ciSort fold (resolveMembers c obj)) ∧
    (∀ l : List QString, List.Pairwise (fun a b => ciLe fold a b = true) (ciSort fold l) ∧
      (ciSort fold l).Perm l) ∧
    rankMembers asciiFold "low".toList
        (removeAll ["lower".toList, "flow".toList, "glower".toList] "low".toList) =
      ["lower".toList, "flow".toList, "glower".toList] ∧
    rankMembers asciiFold "low".toList
        (removeAll ["low".toList, "lower".toList, "flow".toList, "low".toList,
          "glower".toList] "low".toList) =
      ["lower".toList, "flow".toList, "glower".toList] := by
  rw [splitPath_dotted_model fold c obj p hobj hp, dottedCompletionList_eq]
  refine ⟨?_, ?_, ?_, by decide, by decide⟩
  · intro hne
    have hmodel : rankMembers fold p (if p = [] then resolveMembers c obj
          else removeAll (resolveMembers c obj) p) =
        ciSort fold ((withoutExact (resolveMembers c obj) p).filter
            (fun m => ciStartsWith fold m p)) ++
        ciSort fold ((withoutExact (resolveMembers c obj) p).filter
            (fun m => ciContains fold m p && !ciStartsWith fold m p)) ++
        ciSort fold ((withoutExact (resolveMembers c obj) p).filter
            (fun m => !ciContains fold m p && !ciStartsWith fold m p)) := by
      rw [if_neg hne, removeAll_eq_withoutExact]
      cases p with
      | nil => exact absurd rfl hne
      | cons x xs =>
        simp only [rankMembers, bucketMembers_eq, List.isEmpty_cons, Bool.not_false, if_true]
    have hmem : ∀ x, x ∈ rankMembers fold p (if p = [] then resolveMembers c obj
          else removeAll (resolveMembers c obj) p) ↔ x ∈ resolveMembers c obj ∧ x ≠ p := by
      intro x
      rw [hmodel, mem_ranked]
      unfold withoutExact
      rw [List.mem_filter]
      simp
    exact ⟨hmodel, fun h => ((hmem p).1 h).2 rfl, hmem⟩
  · intro he
    subst he
    simp [rankMembers]
  · intro l
    exact ⟨sortBy_sorted (ciLe fold) (ciLe_total fold) (ciLe_trans fold) l,
      sortBy_perm (ciLe fold) l⟩

set_option maxRecDepth 200000 in
/-- Witness of C4: the dotted completions `"abc".up` and `"abc".upper` with an
extractor that has seen no text; the members are the built-in ones of a string
literal, and the member `upper`, equal to the second prefix, is removed. -/
theorem splitPath_dotted_ranking_witness :
    ("\"abc\"".toList ≠ [] ∧ '.' ∉ "up".toList ∧ '.' ∉ "upper".toList) ∧
    (splitPath asciiFold
        { m_extracter := some QPythonExtracter.new,
          m_model := [], m_builtinSymbols := [], m_userSymbols := [],
          m_currentCompletionObject := [], m_currentCompletionList := [],
          m_specialCompletions := [], completionPrefix := [], popupVisible := false }
        ("\"abc\"".toList ++ '.' :: "up".toList)).1.m_model =
      ["upper", "find", "join", "lower", "replace", "split", "strip"].map String.toList ∧
    "upper".toList ∈ resolveMembers
        { m_extracter := some QPythonExtracter.new,
          m_model := [], m_builtinSymbols := [], m_userSymbols := [],
          m_currentCompletionObject := [], m_currentCompletionList := [],
          m_specialCompletions := [], completionPrefix := [], popupVisible := false }
        "\"abc\"".toList ∧
    "upper".toList ∉ (splitPath asciiFold
        { m_extracter := some QPythonExtracter.new,
          m_model := [], m_builtinSymbols := [], m_userSymbols := [],
          m_currentCompletionObject := [], m_currentCompletionList := [],
          m_specialCompletions := [], completionPrefix := [], popupVisible := false }
        ("\"abc\"".toList ++ '.' :: "upper".toList)).1.m_model ∧
    (splitPath asciiFold
        { m_extracter := some QPythonExtracter.new,
          m_model := [], m_builtinSymbols := [], m_userSymbols := [],
          m_currentCompletionObject := [], m_currentCompletionList := [],
          m_specialCompletions := [], completionPrefix := [], popupVisible := false }
        ("\"abc\"".toList ++ '.' :: "upper".toList)).1.m_model =
      ["find", "join", "lower", "replace", "split", "strip"].map String.toList := by
  refine ⟨⟨by decide, by decide, by decide⟩, ?_, by decide, ?_, ?_⟩
  · have h := ((splitPath_dotted_ranking asciiFold
      { m_extracter := some QPythonExtracter.new,
        m_model := [], m_builtinSymbols := [], m_userSymbols := [],
        m_currentCompletionObject := [], m_currentCompletionList := [],
        m_specialCompletions := [], completionPrefix := [], popupVisible := false }
      "\"abc\"".toList "up".toList (by decide) (by decide)).1 (by decide)).1
    rw [h]
    decide
  · exact ((splitPath_dotted_ranking asciiFold
      { m_extracter := some QPythonExtracter.new,
        m_model := [], m_builtinSymbols := [], m_userSymbols := [],
        m_currentCompletionObject := [], m_currentCompletionList := [],
        m_specialCompletions := [], completionPrefix := [], popupVisible := false }
      "\"abc\"".toList "upper".toList (by decide) (by decide)).1 (by decide)).2.1
  · have h := ((splitPath_dotted_ranking asciiFold
      { m_extracter := some QPythonExtracter.new,
        m_model := [], m_builtinSymbols := [], m_userSymbols := [],
        m_currentCompletionObject := [], m_currentCompletionList := [],
        m_specialCompletions := [], completionPrefix := [], popupVisible := false }
      "\"abc\"".toList "upper".toList (by decide) (by decide)).1 (by decide)).1
    rw [h]
    decide

/-- C5: when some record of the position list occupies `(line, column)`,
`getSymbolInfoAtPosition` returns the first such record of the list: the list
splits as `pre ++ r :: post` where `r` occupies the position, no record of
`pre` does, and `r` is the result. -/
theorem getSymbolInfoAtPosition_first_match (st : QPythonExtracter) (line column : Int)
    (h : ∃ r ∈ st.m_symbolsInfo, Occupies r line column) :
    ∃ pre r post, st.m_symbolsInfo = pre ++ r :: post ∧ Occupies r line column ∧
      (∀ x ∈ pre, ¬ Occupies x line column) ∧
      getSymbolInfoAtPosition st line column = r :=
  scanSymbolInfo_first line column st.m_symbolsInfo h

/-- Witness of C5: two records on line 1 cover column 2; the query has a match. -/
theorem getSymbolInfoAtPosition_first_match_witness :
    ∃ pre r post,
      [({ name := "def".toList, type := SymbolType.Keyword, line := 1, column := 1,
          length := 3, scope := [], parameters := [] } : SymbolInfo),
       { name := "de".toList, type := SymbolType.Variable, line := 1, column := 1,
         length := 2, scope := [], parameters := [] }] = pre ++ r :: post ∧
      Occupies r 1 2 ∧ (∀ x ∈ pre, ¬ Occupies x 1 2) ∧
      getSymbolInfoAtPosition
        { m_symbols := [], m_pythonKeywords := pythonKeywords, m_objectTypes := [],
          m_classMembers := [],
          m_symbolsInfo :=
            [{ name := "def".toList, type := SymbolType.Keyword, line := 1, column := 1,
               length := 3, scope := [], parameters := [] },
             { name := "de".toList, type := SymbolType.Variable, line := 1, column := 1,
               length := 2, scope := [], parameters := [] }],
          m_functionParameters := [] } 1 2 = r :=
  getSymbolInfoAtPosition_first_match
    { m_symbols := [], m_pythonKeywords := pythonKeywords, m_objectTypes := [],
      m_classMembers := [],
      m_symbolsInfo :=
        [{ name := "def".toList, type := SymbolType.Keyword, line := 1, column := 1,
           length := 3, scope := [], parameters := [] },
         { name := "de".toList, type := SymbolType.Variable, line := 1, column := 1,
           length := 2, scope := [], parameters := [] }],
      m_functionParameters := [] } 1 2
    ⟨_, List.mem_cons_self _ _, by unfold Occupies; decide⟩

/-- C6: when no record of the position list occupies `(line, column)`,
`getSymbolInfoAtPosition` returns the default record: kind `Other`, line,
column and length 0, empty name, scope and parameters.  The function is total. -/
theorem getSymbolInfoAtPosition_no_match (st : QPythonExtracter) (line column : Int)
    (h : ∀ r ∈ st.m_symbolsInfo, ¬ Occupies r line column) :
    (getSymbolInfoAtPosition st line column).type = SymbolType.Other ∧
    (getSymbolInfoAtPosition st line column).line = 0 ∧
    (getSymbolInfoAtPosition st line column).column = 0 ∧
    (getSymbolInfoAtPosition st line column).length = 0 ∧
    (getSymbolInfoAtPosition st line column).name = [] ∧
    (getSymbolInfoAtPosition st line column).scope = [] ∧
    (getSymbolInfoAtPosition st line column).parameters = [] := by
  unfold getSymbolInfoAtPosition
  rw [scanSymbolInfo_none line column st.m_symbolsInfo h]
  exact ⟨rfl, rfl, rfl, rfl, rfl, rfl, rfl⟩

/-- Witness of C6: a query on line 2 against one record of line 1. -/
theorem getSymbolInfoAtPosition_no_match_witness :
    (getSymbolInfoAtPosition
      { m_symbols := [], m_pythonKeywords := pythonKeywords, m_objectTypes := [],
        m_classMembers := [],
        m_symbolsInfo :=
          [{ name := "def".toList, type := SymbolType.Keyword, line := 1, column := 1,
             length := 3, scope := [], parameters := [] }],
        m_functionParameters := [] } 2 1).type = SymbolType.Other :=
  (getSymbolInfoAtPosition_no_match
    { m_symbols := [], m_pythonKeywords := pythonKeywords, m_objectTypes := [],
      m_classMembers := [],
      m_symbolsInfo :=
        [{ name := "def".toList, type := SymbolType.Keyword, line := 1, column := 1,
           length := 3, scope := [], parameters := [] }],
      m_functionParameters := [] } 2 1
    (by
      intro r hr
      rw [List.mem_singleton] at hr
      subst hr
      unfold Occupies
      decide)).1

/-- C7: for a non-empty text the position list left by `extractSymbols` is in
recording order: a record of an earlier kind (keyword, class, function,
variable, import, in this order) stands at a smaller index than any record of
a later kind; and no record has the kind `Other`. -/
theorem symbolsInfo_ordered_by_kind (st : QPythonExtracter) (code : QString)
    (h : code ≠ []) :
    (∀ (i j : Nat) (a b : SymbolInfo),
      (extractSymbols st code).state.m_symbolsInfo.get? i = some a →
      (extractSymbols st code).state.m_symbolsInfo.get? j = some b →
      kindRank a.type < kindRank b.type → i < j) ∧
    (∀ r ∈ (extractSymbols st code).state.m_symbolsInfo, r.type ≠ SymbolType.Other) := by
  obtain ⟨st5, hst⟩ := extractSymbols_symbolsInfo st code h
  rw [hst]
  obtain ⟨hord, hle⟩ := extractSymbolPositions_ranked st5 code
  refine ⟨fun i j a b ha hb hlt => rankOrdered_index _ hord i j a b ha hb hlt, ?_⟩
  intro r hr hother
  have := hle r hr
  rw [hother] at this
  simp [kindRank] at this

set_option maxRecDepth 200000 in
/-- Witness of C7: the text `import os` followed by `x = 1`; the variable `x`
of line 2 is recorded before the import `os` of line 1. -/
theorem symbolsInfo_ordered_by_kind_witness :
    "import os\nx = 1".toList ≠ [] ∧
    ((extractSymbols QPythonExtracter.new "import os\nx = 1".toList).state.m_symbolsInfo.map
        (fun r => (r.name, r.type)) =
      [("import".toList, SymbolType.Keyword), ("x".toList, SymbolType.Variable),
       ("os".toList, SymbolType.Import)]) ∧
    (∀ (i j : Nat) (a b : SymbolInfo),
      (extractSymbols QPythonExtracter.new
        "import os\nx = 1".toList).state.m_symbolsInfo.get? i = some a →
      (extractSymbols QPythonExtracter.new
        "import os\nx = 1".toList).state.m_symbolsInfo.get? j = some b →
      kindRank a.type < kindRank b.type → i < j) :=
  ⟨by decide, by decide,
    (symbolsInfo_ordered_by_kind QPythonExtracter.new "import os\nx = 1".toList (by decide)).1⟩

set_option maxRecDepth 200000 in
/-- C8 (the code departs from the claim): in the text with the header
`class A:` indented by four spaces, a body line indented by eight and then the
line `y = 2` indented by four, the class header pattern matches at offset 4,
the header line has four leading spaces, the body line at offset 13 is
indented deeper, and offset 27 starts a later line that is non-blank, is not a
comment and has four (at most four) leading spaces; the text has 37
characters.  `findClassEnd` returns 37, not 27: its
indent level is counted from the line feed that ends the header and is 0. -/
theorem findClassEnd_indented_header :
    (globalMatch classRegex "    class A:\n        x = 1\n    y = 2\n".toList).map
        (fun m => m.start) = [4] ∧
    headerIndent "    class A:\n        x = 1\n    y = 2\n".toList 4 = 4 ∧
    ¬ DedentedLine "    class A:\n        x = 1\n    y = 2\n".toList 4 13 ∧
    LineStartAfter "    class A:\n        x = 1\n    y = 2\n".toList 4 27 ∧
    DedentedLine "    class A:\n        x = 1\n    y = 2\n".toList 4 27 ∧
    "    class A:\n        x = 1\n    y = 2\n".toList.length = 37 ∧
    findClassEndRun "    class A:\n        x = 1\n    y = 2\n".toList 4 = some 37 ∧
    findClassEnd "    class A:\n        x = 1\n    y = 2\n".toList 4 = 37 := by
  refine ⟨by decide, by decide, ?_, ⟨26, by decide, by decide, rfl⟩, ?_, by decide, by decide,
    by decide⟩
  · unfold DedentedLine
    decide
  · unfold DedentedLine
    decide

/-- C9: if no line after the header line is non-blank, not a comment and
indented by at most `k` spaces (for any `k`, in particular the indentation of
the header), `findClassEnd` returns the length of the text, and its loop ends
within its bound. -/
theorem findClassEnd_unterminated (code : QString) (startPos k : Nat)
    (h : ∀ q, LineStartAfter code startPos q → ¬ DedentedLine code k q) :
    findClassEndRun code startPos = some code.length ∧
    findClassEnd code startPos = code.length := by
  have hrun := findClassEndRun_unterminated code startPos k h
  refine ⟨hrun, ?_⟩
  unfold findClassEnd
  rw [hrun]
  rfl

set_option maxRecDepth 200000 in
/-- Witness of C9: a class at offset 0 whose two body lines are indented; the
header has no leading space and the end of the class is the end of the text. -/
theorem findClassEnd_unterminated_witness :
    headerIndent "class A:\n  x = 1\n  y = 2".toList 0 = 0 ∧
    findClassEnd "class A:\n  x = 1\n  y = 2".toList 0 = 24 := by
  refine ⟨by decide, ?_⟩
  have hw := (findClassEnd_unterminated "class A:\n  x = 1\n  y = 2".toList 0 0 (by
    intro q hq
    obtain ⟨nl, _, hnl, hqe⟩ := hq
    subst hqe
    have hlt : nl < 24 := (List.get?_eq_some.1 hnl).1
    unfold DedentedLine
    interval_cases nl <;> first
      | (exfalso; revert hnl; decide)
      | decide)).2
  rw [hw]
  decide

theorem extractSymbols_symbols (st : QPythonExtracter) (code : QString) (h : code ≠ []) :
    ∃ l, (extractSymbols st code).symbols = qSort l ∧
      (extractSymbols st code).state.m_symbols = qSort l := by
  unfold extractSymbols
  have hne : code.isEmpty = false := by
    cases code with
    | nil => exact absurd rfl h
    | cons c cs => rfl
  simp only [hne]
  exact ⟨_, rfl, rfl⟩

set_option maxRecDepth 200000 in
/-- C10, the claim as stated fails: on the one-character text `x` the returned
sequence is not sorted case-insensitively; it has `True` right before `and`. -/
theorem extractSymbols_not_caseInsensitive_sorted :
    ¬ ∀ (i : Nat) (a b : QString),
        (extractSymbols QPythonExtracter.new "x".toList).symbols.get? i = some a →
        (extractSymbols QPythonExtracter.new "x".toList).symbols.get? (i + 1) = some b →
        ciLe asciiFold a b = true := by
  intro hall
  have h := hall 2 "True".toList "and".toList (by decide) (by decide)
  revert h
  decide

/-- C10 as amended: for a non-empty text the sequence returned by
`extractSymbols`, which is also the one `symbols()` returns afterwards, is
sorted case-sensitively, by code unit: every entry is `<=` every later entry
(so every name starting with an upper-case letter comes before every name
starting with a lower-case letter). -/
theorem extractSymbols_sorted_caseSensitive (st : QPythonExtracter) (code : QString)
    (h : code ≠ []) :
    List.Pairwise (fun a b => qstrLe a b = true) (extractSymbols st code).symbols ∧
    symbols (extractSymbols st code).state = (extractSymbols st code).symbols := by
  obtain ⟨l, h1, h2⟩ := extractSymbols_symbols st code h
  unfold symbols
  rw [h1, h2]
  exact ⟨sortBy_sorted qstrLe qstrLe_total qstrLe_trans l, rfl⟩

set_option maxRecDepth 200000 in
/-- Witness of C10 as amended: on the text `x` the sequence starts with the
capitalised keywords `False`, `None`, `True`, followed by `and`. -/
theorem extractSymbols_sorted_caseSensitive_witness :
    "x".toList ≠ [] ∧
    (extractSymbols QPythonExtracter.new "x".toList).symbols.take 4 =
      ["False".toList, "None".toList, "True".toList, "and".toList] ∧
    List.Pairwise (fun a b => qstrLe a b = true)
      (extractSymbols QPythonExtracter.new "x".toList).symbols :=
  ⟨by decide, by decide,
    (extractSymbols_sorted_caseSensitive QPythonExtracter.new "x".toList (by decide)).1⟩

/-! ## Lemmas: the matcher against the declarative reading of patterns -/

theorem starLoop_sound (p : Char → Bool) (k : MatchState → Option MatchState)
    (caps : List (Nat × Capture)) (res : MatchState) :
    ∀ (rest : List Char) (prev : Option Char) (pos : Nat),
      starLoop p k caps prev pos rest = some res →
      ∃ e, StarReaches p ⟨prev, pos, rest, caps⟩ e ∧ k e = some res := by
  intro rest
  induction rest with
  | nil =>
    intro prev pos h
    simp only [starLoop] at h
    exact ⟨_, ⟨[], by simp, by simp, by simp, rfl⟩, h⟩
  | cons c cs ih =>
    intro prev pos h
    simp only [starLoop] at h
    have stay : k ⟨prev, pos, c :: cs, caps⟩ = some res →
        ∃ e, StarReaches p ⟨prev, pos, c :: cs, caps⟩ e ∧ k e = some res :=
      fun hk => ⟨_, ⟨[], by simp, by simp, by simp, rfl⟩, hk⟩
    by_cases hp : p c = true
    · simp only [hp, if_true] at h
      cases hrec : starLoop p k caps (some c) (pos + 1) cs with
      | none =>
        rw [hrec] at h
        exact stay h
      | some r =>
        rw [hrec] at h
        have hr : r = res := by simpa using h
        rw [hr] at hrec
        obtain ⟨e, ⟨consumed, hall, hrest, hpos, hcaps⟩, hk⟩ := ih (some c) (pos + 1) hrec
        dsimp only at hrest hpos hcaps
        refine ⟨e, ⟨c :: consumed, ?_, ?_, ?_, hcaps⟩, hk⟩
        · intro x hx
          rcases List.mem_cons.1 hx with h1 | h1
          · rw [h1]; exact hp
          · exact hall x h1
        · show c :: cs = c :: consumed ++ e.rest
          rw [hrest]
          rfl
        · show e.pos = pos + (c :: consumed).length
          rw [hpos, List.length_cons]
          omega
    · simp only [hp, if_false] at h
      exact stay h

theorem Rx.run_sound : ∀ (r : Rx) (k : MatchState → Option MatchState) (s res : MatchState),
    r.run k s = some res → ∃ e, r.Reaches s e ∧ k e = some res := by
  intro r
  induction r with
  | chr p =>
    intro k s res h
    simp only [Rx.run] at h
    cases hr : s.rest with
    | nil => rw [hr] at h; simp at h
    | cons c cs =>
      rw [hr] at h
      by_cases hp : p c = true
      · simp only [hp, if_true] at h
        exact ⟨_, ⟨c, cs, hr, hp, rfl⟩, h⟩
      · simp [hp] at h
  | star p =>
    intro k s res h
    simp only [Rx.run] at h
    exact starLoop_sound p k s.caps res s.rest s.prev s.pos h
  | seq a b iha ihb =>
    intro k s res h
    simp only [Rx.run] at h
    obtain ⟨mid, hmid, hb⟩ := iha (b.run k) s res h
    obtain ⟨e, he, hk⟩ := ihb k mid res hb
    exact ⟨e, ⟨mid, hmid, he⟩, hk⟩
  | opt a iha =>
    intro k s res h
    simp only [Rx.run] at h
    cases hr : a.run k s with
    | none =>
      rw [hr] at h
      exact ⟨s, Or.inr rfl, h⟩
    | some r =>
      rw [hr] at h
      have e1 : r = res := by simpa using h
      rw [e1] at hr
      obtain ⟨e, he, hk⟩ := iha k s res hr
      exact ⟨e, Or.inl he, hk⟩
  | cap i a iha =>
    intro k s res h
    simp only [Rx.run] at h
    obtain ⟨e1, he1, hk⟩ := iha _ s res h
    exact ⟨_, ⟨e1, he1, rfl⟩, hk⟩
  | bol =>
    intro k s res h
    simp only [Rx.run] at h
    cases hp : s.prev with
    | none =>
      rw [hp] at h
      exact ⟨s, rfl, h⟩
    | some c =>
      rw [hp] at h
      by_cases hc : (c == '\n' && !s.rest.isEmpty) = true
      · simp only [hc, if_true] at h
        exact ⟨s, rfl, h⟩
      · simp [hc] at h
  | wordB =>
    intro k s res h
    simp only [Rx.run] at h
    by_cases hc : (isWordOpt s.prev != isWordOpt s.rest.head?) = true
    · simp only [hc, if_true] at h
      exact ⟨s, rfl, h⟩
    · simp [hc] at h
  | notAhead a _ =>
    intro k s res h
    simp only [Rx.run] at h
    cases hr : a.run some s with
    | none =>
      rw [hr] at h
      exact ⟨s, rfl, h⟩
    | some r =>
      rw [hr] at h
      simp at h
  | eps =>
    intro k s res h
    simp only [Rx.run] at h
    exact ⟨s, rfl, h⟩

theorem Rx.reaches_consumes : ∀ (r : Rx) (s e : MatchState), r.Reaches s e →
    ∃ consumed : List Char, s.rest = consumed ++ e.rest ∧ e.pos = s.pos + consumed.length ∧
      r.minLen ≤ consumed.length := by
  intro r
  induction r with
  | chr p =>
    intro s e h
    obtain ⟨c, cs, hr, _, he⟩ := h
    subst he
    exact ⟨[c], by simpa using hr, by simp, by simp [Rx.minLen]⟩
  | star p =>
    intro s e h
    obtain ⟨consumed, _, hr, hp, _⟩ := h
    exact ⟨consumed, hr, hp, by simp [Rx.minLen]⟩
  | seq a b iha ihb =>
    intro s e h
    obtain ⟨mid, h1, h2⟩ := h
    obtain ⟨c1, hr1, hp1, hm1⟩ := iha s mid h1
    obtain ⟨c2, hr2, hp2, hm2⟩ := ihb mid e h2
    refine ⟨c1 ++ c2, ?_, ?_, ?_⟩
    · rw [hr1, hr2, List.append_assoc]
    · rw [hp2, hp1, List.length_append]; omega
    · simp only [Rx.minLen, List.length_append]; omega
  | opt a iha =>
    intro s e h
    rcases h with h | h
    · obtain ⟨c1, hr1, hp1, _⟩ := iha s e h
      exact ⟨c1, hr1, hp1, by simp [Rx.minLen]⟩
    · subst h
      exact ⟨[], by simp, by simp, by simp [Rx.minLen]⟩
  | cap i a iha =>
    intro s e h
    obtain ⟨e1, h1, he⟩ := h
    obtain ⟨c1, hr1, hp1, hm1⟩ := iha s e1 h1
    subst he
    exact ⟨c1, hr1, hp1, by simpa [Rx.minLen] using hm1⟩
  | bol => intro s e h; cases h; exact ⟨[], by simp, by simp, by simp [Rx.minLen]⟩
  | wordB => intro s e h; cases h; exact ⟨[], by simp, by simp, by simp [Rx.minLen]⟩
  | notAhead a _ => intro s e h; cases h; exact ⟨[], by simp, by simp, by simp [Rx.minLen]⟩
  | eps => intro s e h; cases h; exact ⟨[], by simp, by simp, by simp [Rx.minLen]⟩

theorem Rx.reaches_caps : ∀ (r : Rx) (s e : MatchState), r.Reaches s e →
    ∃ new : List (Nat × Capture), e.caps = new ++ s.caps := by
  intro r
  induction r with
  | chr p =>
    intro s e h
    obtain ⟨c, cs, _, _, he⟩ := h
    subst he
    exact ⟨[], rfl⟩
  | star p =>
    intro s e h
    obtain ⟨_, _, _, _, hc⟩ := h
    exact ⟨[], hc⟩
  | seq a b iha ihb =>
    intro s e h
    obtain ⟨mid, h1, h2⟩ := h
    obtain ⟨n1, e1⟩ := iha s mid h1
    obtain ⟨n2, e2⟩ := ihb mid e h2
    exact ⟨n2 ++ n1, by rw [e2, e1, List.append_assoc]⟩
  | opt a iha =>
    intro s e h
    rcases h with h | h
    · exact iha s e h
    · subst h; exact ⟨[], rfl⟩
  | cap i a iha =>
    intro s e h
    obtain ⟨e1, h1, he⟩ := h
    obtain ⟨n1, hn1⟩ := iha s e1 h1
    subst he
    exact ⟨(i, ⟨s.pos, s.rest.take (e1.pos - s.pos)⟩) :: n1, by simp [hn1]⟩
  | bol => intro s e h; cases h; exact ⟨[], rfl⟩
  | wordB => intro s e h; cases h; exact ⟨[], rfl⟩
  | notAhead a _ => intro s e h; cases h; exact ⟨[], rfl⟩
  | eps => intro s e h; cases h; exact ⟨[], rfl⟩

theorem Rx.reaches_take (r : Rx) (s e : MatchState) (h : r.Reaches s e) :
    ∃ consumed : List Char, s.rest = consumed ++ e.rest ∧ e.pos = s.pos + consumed.length ∧
      r.minLen ≤ consumed.length ∧ s.rest.take (e.pos - s.pos) = consumed := by
  obtain ⟨consumed, hr, hp, hm⟩ := Rx.reaches_consumes r s e h
  refine ⟨consumed, hr, hp, hm, ?_⟩
  have e1 : e.pos - s.pos = consumed.length := by omega
  rw [e1, hr]
  simp

theorem Rx.reaches_capsAtLeast (b : Nat → Nat) : ∀ (r : Rx) (s e : MatchState),
    r.capsAtLeast b = true → r.Reaches s e →
    (∀ c ∈ s.caps, b c.1 ≤ c.2.text.length) → ∀ c ∈ e.caps, b c.1 ≤ c.2.text.length := by
  intro r
  induction r with
  | chr p =>
    intro s e _ h hs
    obtain ⟨c, cs, _, _, he⟩ := h
    subst he
    exact hs
  | star p =>
    intro s e _ h hs
    obtain ⟨_, _, _, _, hc⟩ := h
    rw [hc]
    exact hs
  | seq a c iha ihc =>
    intro s e hb h hs
    simp only [Rx.capsAtLeast, Bool.and_eq_true] at hb
    obtain ⟨mid, h1, h2⟩ := h
    exact ihc mid e hb.2 h2 (iha s mid hb.1 h1 hs)
  | opt a iha =>
    intro s e hb h hs
    simp only [Rx.capsAtLeast] at hb
    rcases h with h | h
    · exact iha s e hb h hs
    · subst h; exact hs
  | cap i a iha =>
    intro s e hb h hs
    simp only [Rx.capsAtLeast, Bool.and_eq_true, decide_eq_true_eq] at hb
    obtain ⟨e1, h1, he⟩ := h
    obtain ⟨consumed, _, _, hm, ht⟩ := Rx.reaches_take a s e1 h1
    subst he
    intro c hc
    rcases List.mem_cons.1 hc with h2 | h2
    · subst h2
      show b i ≤ (s.rest.take (e1.pos - s.pos)).length
      rw [ht]
      omega
    · exact iha s e1 hb.2 h1 hs c h2
  | bol => intro s e _ h hs; cases h; exact hs
  | wordB => intro s e _ h hs; cases h; exact hs
  | notAhead a _ => intro s e _ h hs; cases h; exact hs
  | eps => intro s e _ h hs; cases h; exact hs

theorem Rx.reaches_alwaysCaptures (i : Nat) : ∀ (r : Rx) (s e : MatchState),
    r.alwaysCaptures i = true → r.Reaches s e → ∃ c, (i, c) ∈ e.caps := by
  intro r
  induction r with
  | chr p => intro s e hb; simp [Rx.alwaysCaptures] at hb
  | star p => intro s e hb; simp [Rx.alwaysCaptures] at hb
  | seq a c iha ihc =>
    intro s e hb h
    simp only [Rx.alwaysCaptures, Bool.or_eq_true] at hb
    obtain ⟨mid, h1, h2⟩ := h
    rcases hb with hb | hb
    · obtain ⟨x, hx⟩ := iha s mid hb h1
      obtain ⟨new, hn⟩ := Rx.reaches_caps c mid e h2
      exact ⟨x, by rw [hn]; exact List.mem_append_right new hx⟩
    · exact ihc mid e hb h2
  | opt a _ => intro s e hb; simp [Rx.alwaysCaptures] at hb
  | cap j a iha =>
    intro s e hb h
    simp only [Rx.alwaysCaptures, Bool.or_eq_true, beq_iff_eq] at hb
    obtain ⟨e1, h1, he⟩ := h
    subst he
    rcases hb with hb | hb
    · subst hb
      exact ⟨_, List.mem_cons_self _ _⟩
    · obtain ⟨x, hx⟩ := iha s e1 hb h1
      exact ⟨x, List.mem_cons_of_mem _ hx⟩
  | bol => intro s e hb; simp [Rx.alwaysCaptures] at hb
  | wordB => intro s e hb; simp [Rx.alwaysCaptures] at hb
  | notAhead a _ => intro s e hb; simp [Rx.alwaysCaptures] at hb
  | eps => intro s e hb; simp [Rx.alwaysCaptures] at hb

theorem Rx.matchAt_sound (r : Rx) (prev : Option Char) (pos : Nat) (rest : List Char)
    (m : RxMatch) (h : r.matchAt prev pos rest = some m) :
    ∃ e, r.Reaches ⟨prev, pos, rest, []⟩ e ∧ m = ⟨pos, e.pos, e.caps⟩ := by
  unfold Rx.matchAt at h
  cases hr : r.run some ⟨prev, pos, rest, []⟩ with
  | none => rw [hr] at h; simp at h
  | some res =>
    rw [hr] at h
    obtain ⟨e, he, hk⟩ := Rx.run_sound r some _ res hr
    have e1 : e = res := by simpa using hk
    subst e1
    exact ⟨e, he, by simpa using h.symm⟩

theorem globalMatchAux_mem (r : Rx) (m : RxMatch) : ∀ (rest : List Char) (skip : Nat)
    (prev : Option Char) (pos : Nat), m ∈ globalMatchAux r skip prev pos rest →
    ∃ (q : Option Char) (pre tail : List Char), rest = pre ++ tail ∧
      r.matchAt q (pos + pre.length) tail = some m := by
  intro rest
  induction rest with
  | nil =>
    intro skip prev pos h
    simp only [globalMatchAux] at h
    by_cases hs : skip = 0
    · simp only [hs, if_true] at h
      cases hm : r.matchAt prev pos [] with
      | none => rw [hm] at h; simp at h
      | some x =>
        rw [hm] at h
        have e1 : m = x := by simpa using h
        subst e1
        exact ⟨prev, [], [], rfl, by simpa using hm⟩
    · simp [hs] at h
  | cons c cs ih =>
    intro skip prev pos h
    have shift : (∃ (q : Option Char) (pre tail : List Char), cs = pre ++ tail ∧
        r.matchAt q (pos + 1 + pre.length) tail = some m) →
        ∃ (q : Option Char) (pre tail : List Char), c :: cs = pre ++ tail ∧
          r.matchAt q (pos + pre.length) tail = some m := by
      rintro ⟨q, pre, tail, h1, h2⟩
      refine ⟨q, c :: pre, tail, by rw [h1]; rfl, ?_⟩
      have e1 : pos + (c :: pre).length = pos + 1 + pre.length := by
        simp only [List.length_cons]; omega
      rw [e1]
      exact h2
    cases skip with
    | zero =>
      simp only [globalMatchAux] at h
      cases hm : r.matchAt prev pos (c :: cs) with
      | none =>
        rw [hm] at h
        exact shift (ih 0 (some c) (pos + 1) h)
      | some x =>
        rw [hm] at h
        rcases List.mem_cons.1 h with h1 | h1
        · subst h1
          exact ⟨prev, [], c :: cs, rfl, by simpa using hm⟩
        · exact shift (ih _ (some c) (pos + 1) h1)
    | succ n =>
      simp only [globalMatchAux] at h
      exact shift (ih n (some c) (pos + 1) h)

theorem globalMatch_reaches (r : Rx) (code : QString) (m : RxMatch)
    (h : m ∈ globalMatch r code) :
    ∃ (q : Option Char) (pre tail : List Char) (e : MatchState), code = pre ++ tail ∧
      r.Reaches ⟨q, pre.length, tail, []⟩ e ∧ m = ⟨pre.length, e.pos, e.caps⟩ := by
  unfold globalMatch at h
  obtain ⟨q, pre, tail, h1, h2⟩ := globalMatchAux_mem r m code 0 none 0 h
  rw [Nat.zero_add] at h2
  obtain ⟨e, he, hm⟩ := Rx.matchAt_sound r q pre.length tail m h2
  exact ⟨q, pre, tail, e, h1, he, hm⟩

theorem captured_length (b : Nat → Nat) (m : RxMatch) (i : Nat)
    (hb : ∀ c ∈ m.caps, b c.1 ≤ c.2.text.length) (hi : ∃ c, (i, c) ∈ m.caps) :
    b i ≤ (m.captured i).length := by
  unfold RxMatch.captured
  cases hf : m.caps.find? (fun c => c.1 == i) with
  | none =>
    obtain ⟨c, hc⟩ := hi
    have := List.find?_eq_none.1 hf (i, c) hc
    simp at this
  | some x =>
    have hx := List.find?_some hf
    have hmem := List.mem_of_find?_eq_some hf
    have e1 : x.1 = i := by simpa using hx
    have := hb x hmem
    rw [e1] at this
    exact this

theorem globalMatch_captured_length (b : Nat → Nat) (r : Rx) (i : Nat) (code : QString)
    (m : RxMatch) (hb : r.capsAtLeast b = true) (hi : r.alwaysCaptures i = true)
    (h : m ∈ globalMatch r code) : b i ≤ (m.captured i).length := by
  obtain ⟨q, pre, tail, e, _, he, hm⟩ := globalMatch_reaches r code m h
  subst hm
  apply captured_length b
  · exact Rx.reaches_capsAtLeast b r _ e hb he (by simp)
  · exact Rx.reaches_alwaysCaptures i r _ e hi he

theorem objRegex_captures_nonempty (code : QString) (m : RxMatch)
    (h : m ∈ globalMatch objRegex code) : m.captured 1 ≠ [] ∧ m.captured 2 ≠ [] := by
  have h1 := globalMatch_captured_length (fun _ => 1) objRegex 1 code m rfl rfl h
  have h2 := globalMatch_captured_length (fun _ => 1) objRegex 2 code m rfl rfl h
  constructor
  · intro e; rw [e] at h1; simp at h1
  · intro e; rw [e] at h2; simp at h2

theorem classRegex_capture_nonempty (code : QString) (m : RxMatch)
    (h : m ∈ globalMatch classRegex code) : m.captured 1 ≠ [] := by
  have h1 := globalMatch_captured_length (fun _ => 1) classRegex 1 code m rfl rfl h
  intro e; rw [e] at h1; simp at h1

/-! ## Lemmas: the symbol list in closed form -/

theorem foldl_append_flatMap {α : Type} (g : α → List QString) :
    ∀ (ms : List α) (acc0 : List QString),
      ms.foldl (fun acc m => acc ++ g m) acc0 = acc0 ++ ms.flatMap g := by
  intro ms
  induction ms with
  | nil => intro acc0; simp
  | cons m t ih =>
    intro acc0
    rw [List.foldl_cons, ih, List.flatMap_cons, List.append_assoc]

theorem foldl_snd_flatMap {α β : Type} (g : α → List QString)
    (f : β × List QString → α → β × List QString)
    (hf : ∀ acc m, (f acc m).2 = acc.2 ++ g m) :
    ∀ (ms : List α) (acc0 : β × List QString),
      (ms.foldl f acc0).2 = acc0.2 ++ ms.flatMap g := by
  intro ms
  induction ms with
  | nil => intro acc0; simp
  | cons m t ih =>
    intro acc0
    rw [List.foldl_cons, ih, hf, List.flatMap_cons, List.append_assoc]

theorem foldl_keeps {α β γ : Type} (proj : β → γ) (f : β → α → β)
    (hf : ∀ acc m, proj (f acc m) = proj acc) :
    ∀ (ms : List α) (acc0 : β), proj (ms.foldl f acc0) = proj acc0 := by
  intro ms
  induction ms with
  | nil => intro acc0; rfl
  | cons m t ih =>
    intro acc0
    rw [List.foldl_cons, ih, hf]

theorem extractClassMembers_keywords (st : QPythonExtracter) (className classCode : QString)
    (members : List QString) :
    (extractClassMembers st className classCode members).1.m_pythonKeywords =
      st.m_pythonKeywords := by
  unfold extractClassMembers
  dsimp only
  have h1 : ∀ (ms : List RxMatch) (acc0 : QPythonExtracter × List QString),
      (ms.foldl (fun (acc : QPythonExtracter × List QString) m =>
        if (!startsWith (m.captured 1) ['_'] || m.captured 1 == initName) = true then
          ({ acc.1 with
              m_classMembers := mmInsert acc.1.m_classMembers className (m.captured 1),
              m_functionParameters :=
                qmapSet acc.1.m_functionParameters (className ++ ['.'] ++ m.captured 1)
                  (trimmed (m.captured 2)) },
           acc.2 ++ [m.captured 1])
        else acc) acc0).1.m_pythonKeywords = acc0.1.m_pythonKeywords := by
    intro ms acc0
    refine foldl_keeps (fun x : QPythonExtracter × List QString => x.1.m_pythonKeywords) _ ?_ ms acc0
    intro acc m
    dsimp only
    split_ifs <;> rfl
  have h2 : ∀ (ms : List RxMatch) (acc0 : QPythonExtracter × List QString),
      (ms.foldl (fun (acc : QPythonExtracter × List QString) m =>
        if (!startsWith (m.captured 1) ['_']) = true then
          ({ acc.1 with m_classMembers := mmInsert acc.1.m_classMembers className (m.captured 1) },
           acc.2 ++ [m.captured 1])
        else acc) acc0).1.m_pythonKeywords = acc0.1.m_pythonKeywords := by
    intro ms acc0
    refine foldl_keeps (fun x : QPythonExtracter × List QString => x.1.m_pythonKeywords) _ ?_ ms acc0
    intro acc m
    dsimp only
    split_ifs <;> rfl
  split_ifs
  · dsimp only
    rw [h2, h1]
  · rw [h2, h1]

theorem extractClasses_keywords (st : QPythonExtracter) (code : QString)
    (symbols : List QString) :
    (extractClasses st code symbols).1.m_pythonKeywords = st.m_pythonKeywords := by
  unfold extractClasses
  refine foldl_keeps (fun x : QPythonExtracter × List QString => x.1.m_pythonKeywords) _ ?_ _
    (st, symbols)
  intro acc m
  dsimp only
  split_ifs
  · exact extractClassMembers_keywords _ _ _ _
  · rfl
  · rfl

theorem extractClasses_symbols (st : QPythonExtracter) (code : QString)
    (symbols : List QString) :
    (extractClasses st code symbols).2 = symbols ++ classSymbols code := by
  unfold extractClasses classSymbols
  refine foldl_snd_flatMap _ _ ?_ _ (st, symbols)
  intro acc m
  dsimp only
  split_ifs <;> simp

theorem extractFunctions_keywords (st : QPythonExtracter) (code : QString)
    (symbols : List QString) :
    (extractFunctions st code symbols).1.m_pythonKeywords = st.m_pythonKeywords := by
  unfold extractFunctions
  refine foldl_keeps (fun x : QPythonExtracter × List QString => x.1.m_pythonKeywords) _ ?_ _
    (st, symbols)
  intro acc m
  dsimp only
  split_ifs <;> rfl

theorem extractFunctions_symbols (st : QPythonExtracter) (code : QString)
    (symbols : List QString) :
    (extractFunctions st code symbols).2 = symbols ++ functionSymbols code := by
  unfold extractFunctions functionSymbols
  refine foldl_snd_flatMap _ _ ?_ _ (st, symbols)
  intro acc m
  dsimp only
  split_ifs <;> simp

theorem extractVariables_symbols (st : QPythonExtracter) (code : QString)
    (symbols : List QString) :
    extractVariables st code symbols =
      symbols ++ variableSymbols st.m_pythonKeywords code ++ attributeSymbols code := by
  unfold extractVariables variableSymbols attributeSymbols
  dsimp only
  rw [← foldl_append_flatMap, ← foldl_append_flatMap]
  congr 1
  · funext acc m
    split_ifs <;> simp
  · congr 1
    funext acc m
    split_ifs <;> simp

theorem extractImports_symbols (code : QString) (symbols : List QString) :
    extractImports code symbols = symbols ++ importSymbols code ++ fromImportSymbols code := by
  unfold extractImports importSymbols fromImportSymbols
  dsimp only
  rw [← foldl_append_flatMap, ← foldl_append_flatMap]
  congr 1
  funext acc m
  split_ifs <;> simp

theorem extractSymbols_collected (st : QPythonExtracter) (code : QString) (h : code ≠ []) :
    (extractSymbols st code).symbols =
      qSort (removeDuplicates (collectedSymbols st.m_pythonKeywords code)) := by
  unfold extractSymbols
  have hne : code.isEmpty = false := by
    cases code with
    | nil => exact absurd rfl h
    | cons c cs => rfl
  simp only [hne]
  rw [extractImports_symbols, extractVariables_symbols, extractFunctions_symbols,
    extractClasses_symbols, extractFunctions_keywords, extractClasses_keywords]
  rfl

theorem extractObjectTypes_keywords (st : QPythonExtracter) (code : QString) :
    (extractObjectTypes st code).m_pythonKeywords = st.m_pythonKeywords := by
  unfold extractObjectTypes
  dsimp only
  rw [foldl_keeps (fun x : QPythonExtracter => x.m_pythonKeywords) _ ?_ _ _]
  · rw [foldl_keeps (fun x : QPythonExtracter => x.m_pythonKeywords) _ ?_ _ _]
    · rw [foldl_keeps (fun x : QPythonExtracter => x.m_pythonKeywords) _ ?_ _ _]
      intro acc m
      dsimp only
      split_ifs <;> rfl
    · intro acc m
      dsimp only
      split_ifs <;> rfl
  · intro acc m
    dsimp only
    split_ifs <;> rfl

theorem extractSymbols_keywords (st : QPythonExtracter) (code : QString) :
    (extractSymbols st code).state.m_pythonKeywords = st.m_pythonKeywords := by
  unfold extractSymbols
  cases code with
  | nil => rfl
  | cons c cs =>
    show (extractSymbolPositions (extractObjectTypes _ (c :: cs)) (c :: cs)).m_pythonKeywords = _
    have e1 : ∀ s : QPythonExtracter,
        (extractSymbolPositions s (c :: cs)).m_pythonKeywords = s.m_pythonKeywords := fun _ => rfl
    rw [e1, extractObjectTypes_keywords, extractFunctions_keywords, extractClasses_keywords]

/-! ## Lemmas: duplicates and membership in the symbol list -/

theorem qContains_iff (l : List QString) (s : QString) : qContains l s = true ↔ s ∈ l := by
  unfold qContains
  rw [List.any_eq_true]
  constructor
  · rintro ⟨x, hx, he⟩
    have : x = s := by simpa using he
    exact this ▸ hx
  · intro h
    exact ⟨s, h, by simp⟩

theorem mem_removeDuplicatesAux (x : QString) : ∀ (l seen : List QString),
    x ∈ removeDuplicatesAux seen l ↔ x ∈ l ∧ x ∉ seen := by
  intro l
  induction l with
  | nil => intro seen; simp [removeDuplicatesAux]
  | cons y ys ih =>
    intro seen
    simp only [removeDuplicatesAux]
    by_cases hy : qContains seen y = true
    · rw [if_pos hy, ih seen]
      have hys := (qContains_iff seen y).1 hy
      constructor
      · rintro ⟨h1, h2⟩
        exact ⟨List.mem_cons_of_mem y h1, h2⟩
      · rintro ⟨h1, h2⟩
        rcases List.mem_cons.1 h1 with h | h
        · exact absurd (h ▸ hys) h2
        · exact ⟨h, h2⟩
    · rw [if_neg hy]
      have hys : y ∉ seen := fun h => hy ((qContains_iff seen y).2 h)
      rw [List.mem_cons, ih (y :: seen)]
      constructor
      · rintro (h | ⟨h1, h2⟩)
        · rw [h]; exact ⟨List.mem_cons_self y ys, hys⟩
        · exact ⟨List.mem_cons_of_mem y h1, fun h => h2 (List.mem_cons_of_mem y h)⟩
      · rintro ⟨h1, h2⟩
        by_cases hxy : x = y
        · left; exact hxy
        · right
          rcases List.mem_cons.1 h1 with h | h
          · exact absurd h hxy
          · refine ⟨h, ?_⟩
            intro h3
            rcases List.mem_cons.1 h3 with h4 | h4
            · exact hxy h4
            · exact h2 h4

theorem nodup_removeDuplicatesAux : ∀ (l seen : List QString),
    (removeDuplicatesAux seen l).Nodup := by
  intro l
  induction l with
  | nil => intro seen; simp [removeDuplicatesAux]
  | cons y ys ih =>
    intro seen
    simp only [removeDuplicatesAux]
    split_ifs
    · exact ih seen
    · rw [List.nodup_cons]
      refine ⟨?_, ih (y :: seen)⟩
      intro h
      have := ((mem_removeDuplicatesAux y ys (y :: seen)).1 h).2
      exact this (List.mem_cons_self y seen)

theorem mem_removeDuplicates (x : QString) (l : List QString) :
    x ∈ removeDuplicates l ↔ x ∈ l := by
  unfold removeDuplicates
  rw [mem_removeDuplicatesAux]
  simp

theorem extractSymbols_mem (st : QPythonExtracter) (code : QString) (h : code ≠ [])
    (x : QString) :
    x ∈ (extractSymbols st code).symbols ↔ x ∈ collectedSymbols st.m_pythonKeywords code := by
  rw [extractSymbols_collected st code h]
  unfold qSort
  rw [(sortBy_perm qstrLe _).mem_iff, mem_removeDuplicates]

theorem extractSymbols_nodup (st : QPythonExtracter) (code : QString) (h : code ≠ []) :
    (extractSymbols st code).symbols.Nodup := by
  rw [extractSymbols_collected st code h]
  unfold qSort
  rw [(sortBy_perm qstrLe _).nodup_iff]
  exact nodup_removeDuplicatesAux _ []

theorem extractSymbols_empty (st : QPythonExtracter) :
    (extractSymbols st []).symbols = [] := rfl

theorem flatMap_filter_mem {α : Type} (ms : List α) (cond : α → Bool) (name : α → QString)
    (x : QString) :
    x ∈ ms.flatMap (fun m => if cond m then [name m] else []) ↔
      ∃ m ∈ ms, cond m = true ∧ name m = x := by
  rw [List.mem_flatMap]
  constructor
  · rintro ⟨m, hm, hx⟩
    by_cases hc : cond m = true
    · simp only [hc, if_true, List.mem_singleton] at hx
      exact ⟨m, hm, hc, hx.symm⟩
    · simp [hc] at hx
  · rintro ⟨m, hm, hc, hx⟩
    exact ⟨m, hm, by simp [hc, hx]⟩

theorem pythonKeywords_no_underscore :
    ∀ k ∈ pythonKeywords, startsWith k ['_'] = false := by
  decide

theorem underscore_symbol_is_import (st : QPythonExtracter) (code n : QString)
    (hst : st.m_pythonKeywords = pythonKeywords) (hu : startsWith n ['_'] = true)
    (hn : n ∈ (extractSymbols st code).symbols) :
    n ∈ importSymbols code ∨ n ∈ fromImportSymbols code := by
  by_cases hcode : code = []
  · subst hcode
    rw [extractSymbols_empty] at hn
    exact absurd hn (List.not_mem_nil n)
  · rw [extractSymbols_mem st code hcode, hst] at hn
    unfold collectedSymbols at hn
    simp only [List.mem_append] at hn
    rcases hn with (((((hk | hc) | hf) | hv) | ha) | hi) | hfi
    · have := pythonKeywords_no_underscore n hk
      rw [hu] at this
      exact absurd this (by simp)
    · unfold classSymbols at hc
      obtain ⟨m, _, hcnd, hname⟩ := (flatMap_filter_mem _ _ _ n).1 hc
      rw [hname, hu] at hcnd
      simp at hcnd
    · unfold functionSymbols at hf
      obtain ⟨m, _, hcnd, hname⟩ := (flatMap_filter_mem _ _ _ n).1 hf
      rw [hname, hu] at hcnd
      simp at hcnd
    · unfold variableSymbols at hv
      obtain ⟨m, _, hcnd, hname⟩ := (flatMap_filter_mem _ _ _ n).1 hv
      rw [hname, hu] at hcnd
      simp at hcnd
    · unfold attributeSymbols at ha
      obtain ⟨m, _, hcnd, hname⟩ := (flatMap_filter_mem _ _ _ n).1 ha
      rw [hname, hu] at hcnd
      simp at hcnd
    · exact Or.inl hi
    · exact Or.inr hfi

/-! ## Lemmas: the object-type map -/

theorem qmapValue_cons_eq (x v0 : QString) (t : Entries) :
    qmapValue ((x, v0) :: t) x = v0 := by
  simp [qmapValue]

theorem qmapValue_cons_ne (k0 v0 x : QString) (t : Entries) (h : k0 ≠ x) :
    qmapValue ((k0, v0) :: t) x = qmapValue t x := by
  have hb : ((k0, v0).1 == x) = false := by simpa using h
  unfold qmapValue
  rw [List.find?_cons, hb]

theorem qmapValue_qmapSet (k v x : QString) : ∀ (m : Entries),
    qmapValue (qmapSet m k v) x = if x = k then v else qmapValue m x := by
  intro m
  induction m with
  | nil =>
    simp only [qmapSet]
    by_cases hx : x = k
    · subst hx
      rw [qmapValue_cons_eq, if_pos rfl]
    · rw [qmapValue_cons_ne k v x [] (fun e => hx e.symm), if_neg hx]
  | cons p t ih =>
    obtain ⟨k0, v0⟩ := p
    simp only [qmapSet]
    by_cases h1 : (k == k0) = true
    · have e1 : k = k0 := by simpa using h1
      subst e1
      rw [if_pos h1]
      by_cases hx : x = k
      · subst hx
        rw [qmapValue_cons_eq, if_pos rfl]
      · rw [qmapValue_cons_ne k v x t (fun e => hx e.symm), if_neg hx,
          qmapValue_cons_ne k v0 x t (fun e => hx e.symm)]
    · have e1 : ¬ k = k0 := by simpa using h1
      rw [if_neg h1]
      by_cases h2 : qstrLt k k0 = true
      · rw [if_pos h2]
        by_cases hx : x = k
        · subst hx
          rw [qmapValue_cons_eq, if_pos rfl]
        · rw [qmapValue_cons_ne k v x _ (fun e => hx e.symm), if_neg hx]
      · rw [if_neg h2]
        by_cases hx0 : k0 = x
        · subst hx0
          rw [qmapValue_cons_eq, qmapValue_cons_eq, if_neg (fun e => e1 e.symm)]
        · rw [qmapValue_cons_ne k0 v0 x _ hx0, qmapValue_cons_ne k0 v0 x _ hx0]
          exact ih

theorem objectTypes_fold (x : QString) : ∀ (ms : List RxMatch) (st : QPythonExtracter),
    (∀ m ∈ ms, m.captured 1 ≠ [] ∧ m.captured 2 ≠ []) →
    qmapValue (ms.foldl
      (fun (acc : QPythonExtracter) m =>
        if (!(m.captured 1).isEmpty && !(m.captured 2).isEmpty) = true then
          { acc with m_objectTypes := qmapSet acc.m_objectTypes (m.captured 1) (m.captured 2) }
        else acc) st).m_objectTypes x =
    (match (ms.filter (fun m => m.captured 1 == x)).getLast? with
      | some m => m.captured 2
      | none => qmapValue st.m_objectTypes x) := by
  intro ms
  induction ms using List.reverseRecOn with
  | nil => intro st _; rfl
  | append_singleton t m ih =>
    intro st hne
    have hm := hne m (List.mem_append_right t (List.mem_singleton_self m))
    have ht : ∀ a ∈ t, a.captured 1 ≠ [] ∧ a.captured 2 ≠ [] :=
      fun a ha => hne a (List.mem_append_left [m] ha)
    have hcond : (!(m.captured 1).isEmpty && !(m.captured 2).isEmpty) = true := by
      have h1 : (m.captured 1).isEmpty = false := by
        cases hc : m.captured 1 with
        | nil => exact absurd hc hm.1
        | cons a b => rfl
      have h2 : (m.captured 2).isEmpty = false := by
        cases hc : m.captured 2 with
        | nil => exact absurd hc hm.2
        | cons a b => rfl
      rw [h1, h2]
      rfl
    rw [List.foldl_append, List.foldl_cons, List.foldl_nil, if_pos hcond]
    dsimp only
    rw [qmapValue_qmapSet, List.filter_append]
    by_cases hx : x = m.captured 1
    · have hb : (m.captured 1 == x) = true := by simp [hx]
      have hf : [m].filter (fun m => m.captured 1 == x) = [m] := by simp [hb]
      rw [hf, List.getLast?_append, if_pos hx]
      rfl
    · have hb : (m.captured 1 == x) = false := by
        simpa using fun e => hx e.symm
      have hf : [m].filter (fun m => m.captured 1 == x) = [] := by simp [hb]
      rw [hf, List.append_nil, if_neg hx]
      exact ih st ht

theorem extractObjectTypes_objectTypes (st : QPythonExtracter) (code : QString) :
    (extractObjectTypes st code).m_objectTypes =
      ((globalMatch objRegex code).foldl
        (fun (acc : QPythonExtracter) m =>
          if (!(m.captured 1).isEmpty && !(m.captured 2).isEmpty) = true then
            { acc with
                m_objectTypes := qmapSet acc.m_objectTypes (m.captured 1) (m.captured 2) }
          else acc) st).m_objectTypes := by
  unfold extractObjectTypes
  dsimp only
  rw [foldl_keeps (fun x : QPythonExtracter => x.m_objectTypes) _ ?_ _ _]
  · rw [foldl_keeps (fun x : QPythonExtracter => x.m_objectTypes) _ ?_ _ _]
    intro acc m
    dsimp only
    split_ifs <;> rfl
  · intro acc m
    dsimp only
    split_ifs <;> rfl

theorem extractSymbols_objectTypes (st : QPythonExtracter) (code : QString) (h : code ≠ [])
    (x : QString) :
    qmapValue (extractSymbols st code).state.m_objectTypes x =
      (match ((globalMatch objRegex code).filter (fun m => m.captured 1 == x)).getLast? with
        | some m => m.captured 2
        | none => []) := by
  unfold extractSymbols
  have hne : code.isEmpty = false := by
    cases code with
    | nil => exact absurd rfl h
    | cons c cs => rfl
  simp only [hne]
  show qmapValue (extractSymbolPositions (extractObjectTypes _ code) code).m_objectTypes x = _
  have e1 : ∀ s : QPythonExtracter,
      (extractSymbolPositions s code).m_objectTypes = s.m_objectTypes := fun _ => rfl
  rw [e1, extractObjectTypes_objectTypes,
    objectTypes_fold x _ _ (fun m hm => objRegex_captures_nonempty code m hm)]
  have e2 : ∀ (s : QPythonExtracter) (l : List QString),
      (extractFunctions s code l).1.m_objectTypes = s.m_objectTypes := by
    intro s l
    unfold extractFunctions
    refine foldl_keeps (fun x : QPythonExtracter × List QString => x.1.m_objectTypes) _ ?_ _ _
    intro acc m
    dsimp only
    split_ifs <;> rfl
  have e3 : ∀ (s : QPythonExtracter) (cn cc : QString) (l : List QString),
      (extractClassMembers s cn cc l).1.m_objectTypes = s.m_objectTypes := by
    intro s cn cc l
    unfold extractClassMembers
    dsimp only
    have k1 : ∀ (ms : List RxMatch) (acc0 : QPythonExtracter × List QString),
        (ms.foldl (fun (acc : QPythonExtracter × List QString) m =>
          if (!startsWith (m.captured 1) ['_'] || m.captured 1 == initName) = true then
            ({ acc.1 with
                m_classMembers := mmInsert acc.1.m_classMembers cn (m.captured 1),
                m_functionParameters :=
                  qmapSet acc.1.m_functionParameters (cn ++ ['.'] ++ m.captured 1)
                    (trimmed (m.captured 2)) },
             acc.2 ++ [m.captured 1])
          else acc) acc0).1.m_objectTypes = acc0.1.m_objectTypes := by
      intro ms acc0
      refine foldl_keeps (fun x : QPythonExtracter × List QString => x.1.m_objectTypes) _ ?_ ms
        acc0
      intro acc m
      dsimp only
      split_ifs <;> rfl
    have k2 : ∀ (ms : List RxMatch) (acc0 : QPythonExtracter × List QString),
        (ms.foldl (fun (acc : QPythonExtracter × List QString) m =>
          if (!startsWith (m.captured 1) ['_']) = true then
            ({ acc.1 with m_classMembers := mmInsert acc.1.m_classMembers cn (m.captured 1) },
             acc.2 ++ [m.captured 1])
          else acc) acc0).1.m_objectTypes = acc0.1.m_objectTypes := by
      intro ms acc0
      refine foldl_keeps (fun x : QPythonExtracter × List QString => x.1.m_objectTypes) _ ?_ ms
        acc0
      intro acc m
      dsimp only
      split_ifs <;> rfl
    split_ifs
    · dsimp only
      rw [k2, k1]
    · rw [k2, k1]
  have e4 : ∀ (s : QPythonExtracter) (l : List QString),
      (extractClasses s code l).1.m_objectTypes = s.m_objectTypes := by
    intro s l
    unfold extractClasses
    refine foldl_keeps (fun x : QPythonExtracter × List QString => x.1.m_objectTypes) _ ?_ _ _
    intro acc m
    dsimp only
    split_ifs
    · exact e3 _ _ _ _
    · rfl
    · rfl
  rw [e2, e4]
  rfl

/-! ## Lemmas: the fallback of `getObjectMembers` -/

theorem mem_toStdMap (x : QString × QString) : ∀ (m : Entries), x ∈ toStdMap m → x ∈ m := by
  intro m
  unfold toStdMap
  induction m with
  | nil => intro h; exact h
  | cons p t ih =>
    intro h
    rw [List.foldr_cons] at h
    rcases mem_stdMapInsert _ p x h with h1 | h1
    · exact List.mem_cons_of_mem p (ih h1)
    · rw [h1]; exact List.mem_cons_self p t

theorem membersOfKey_nil (st : QPythonExtracter) (name : QString)
    (h : ∀ v, (name, v) ∉ st.m_classMembers) : membersOfKey st name = [] := by
  unfold membersOfKey
  rw [List.map_eq_nil_iff, List.filter_eq_nil_iff]
  intro p hp hk
  have e1 : p.1 = name := by simpa using hk
  apply h p.2
  rw [← e1]
  exact mem_toStdMap p _ hp

theorem getObjectMembers_fallback (st : QPythonExtracter) (n : QString)
    (h1 : ∀ v, (n, v) ∉ st.m_classMembers)
    (h2 : qmapValue st.m_objectTypes n ≠ [] →
      ∀ v, (qmapValue st.m_objectTypes n, v) ∉ st.m_classMembers) :
    getObjectMembers st n = removeDuplicates (builtinMembers n) := by
  unfold getObjectMembers
  dsimp only
  rw [membersOfKey_nil st n h1]
  by_cases ht : qmapValue st.m_objectTypes n = []
  · simp [ht]
  · have hm := membersOfKey_nil st _ (h2 ht)
    have hne : (qmapValue st.m_objectTypes n).isEmpty = false := by
      cases hc : qmapValue st.m_objectTypes n with
      | nil => exact absurd hc ht
      | cons a b => rfl
    simp [hne, hm]

/-! ## Lemmas: where the records come from -/

theorem foldl_grows_from {α β : Type} (g : β → List SymbolInfo) (Q : α → SymbolInfo → Prop)
    (f : β → α → β)
    (hf : ∀ acc m, ∃ ex, g (f acc m) = g acc ++ ex ∧ ∀ r ∈ ex, Q m r) :
    ∀ (ms : List α) (acc0 : β),
      ∃ ex, g (ms.foldl f acc0) = g acc0 ++ ex ∧ ∀ r ∈ ex, ∃ m ∈ ms, Q m r := by
  intro ms
  induction ms with
  | nil =>
    intro acc0
    exact ⟨[], by simp, by simp⟩
  | cons m t ih =>
    intro acc0
    obtain ⟨ex1, h1, hp1⟩ := hf acc0 m
    obtain ⟨ex2, h2, hp2⟩ := ih (f acc0 m)
    refine ⟨ex1 ++ ex2, ?_, ?_⟩
    · rw [List.foldl_cons, h2, h1, List.append_assoc]
    · intro r hr
      rcases List.mem_append.1 hr with h | h
      · exact ⟨m, List.mem_cons_self m t, hp1 r h⟩
      · obtain ⟨x, hx, hq⟩ := hp2 r h
        exact ⟨x, List.mem_cons_of_mem m hx, hq⟩

theorem keywordPositions_origin (code : QString) (infos : List SymbolInfo) (keyword : QString) :
    ∃ ex, keywordPositions code infos keyword = infos ++ ex ∧
      ∀ r ∈ ex, RecordOrigin code r := by
  unfold keywordPositions
  refine foldl_grows (fun x : List SymbolInfo => x) (fun r => RecordOrigin code r) _ ?_ _ _
  intro acc m
  refine ⟨_, rfl, ?_⟩
  intro r hr
  rw [List.mem_singleton] at hr
  subst hr
  exact Or.inl ⟨Or.inl rfl, rfl⟩

theorem keywordFold_origin (code : QString) (keywords : List QString) :
    ∀ r ∈ keywords.foldl (keywordPositions code) [], RecordOrigin code r := by
  obtain ⟨ex, h, hp⟩ := foldl_grows (fun x : List SymbolInfo => x)
    (fun r => RecordOrigin code r) (keywordPositions code)
    (fun acc m => keywordPositions_origin code acc m) keywords []
  have e1 : keywords.foldl (keywordPositions code) [] = ex := by simpa using h
  rw [e1]
  exact hp

theorem classPositions_origin (code : QString) (acc0 : PosAcc) :
    ∃ ex, (classPositions code acc0).1 = acc0.1 ++ ex ∧ ∀ r ∈ ex, RecordOrigin code r := by
  unfold classPositions
  refine foldl_grows (fun x : PosAcc => x.1) (fun r => RecordOrigin code r) _ ?_ _ _
  intro acc m
  dsimp only
  split_ifs
  · exact ⟨[], (List.append_nil _).symm, fun r hr => absurd hr (List.not_mem_nil r)⟩
  · refine ⟨_, rfl, ?_⟩
    intro r hr
    rw [List.mem_singleton] at hr
    subst hr
    exact Or.inl ⟨Or.inr (Or.inl rfl), rfl⟩

theorem functionPositions_origin (code : QString) (acc0 : PosAcc) :
    ∃ ex, (functionPositions code acc0).1 = acc0.1 ++ ex ∧
      ∀ r ∈ ex, ∃ m ∈ globalMatch funcRegex code, r = functionRecord code m := by
  unfold functionPositions
  refine foldl_grows_from (fun x : PosAcc => x.1) (fun m r => r = functionRecord code m) _ ?_ _ _
  intro acc m
  dsimp only
  split_ifs <;> first
    | exact ⟨[], (List.append_nil _).symm, fun r hr => absurd hr (List.not_mem_nil r)⟩
    | exact ⟨_, rfl, fun r hr => by rw [List.mem_singleton] at hr; rw [hr]; rfl⟩

theorem variablePositions_origin (keywords : List QString) (code : QString) (acc0 : PosAcc) :
    ∃ ex, (variablePositions keywords code acc0).1 = acc0.1 ++ ex ∧
      ∀ r ∈ ex, ∃ m ∈ globalMatch varRegex code, r = variableRecord code m := by
  unfold variablePositions
  refine foldl_grows_from (fun x : PosAcc => x.1) (fun m r => r = variableRecord code m) _ ?_ _ _
  intro acc m
  dsimp only
  split_ifs <;> first
    | exact ⟨[], (List.append_nil _).symm, fun r hr => absurd hr (List.not_mem_nil r)⟩
    | exact ⟨_, rfl, fun r hr => by rw [List.mem_singleton] at hr; rw [hr]; rfl⟩

theorem attributePositions_origin (code : QString) (acc0 : PosAcc) :
    ∃ ex, (attributePositions code acc0).1 = acc0.1 ++ ex ∧
      ∀ r ∈ ex, ∃ m ∈ globalMatch attrRegex code, r = variableRecord code m := by
  unfold attributePositions
  refine foldl_grows_from (fun x : PosAcc => x.1) (fun m r => r = variableRecord code m) _ ?_ _ _
  intro acc m
  dsimp only
  split_ifs <;> first
    | exact ⟨[], (List.append_nil _).symm, fun r hr => absurd hr (List.not_mem_nil r)⟩
    | exact ⟨_, rfl, fun r hr => by rw [List.mem_singleton] at hr; rw [hr]; rfl⟩

theorem importPositions_origin (code : QString) (acc0 : PosAcc) :
    ∃ ex, (importPositions code acc0).1 = acc0.1 ++ ex ∧ ∀ r ∈ ex, RecordOrigin code r := by
  unfold importPositions
  refine foldl_grows (fun x : PosAcc => x.1) (fun r => RecordOrigin code r) _ ?_ _ _
  intro acc m
  dsimp only
  split_ifs
  · exact ⟨[], (List.append_nil _).symm, fun r hr => absurd hr (List.not_mem_nil r)⟩
  · refine ⟨_, rfl, ?_⟩
    intro r hr
    rw [List.mem_singleton] at hr
    subst hr
    exact Or.inl ⟨Or.inr (Or.inr rfl), rfl⟩

theorem fromImportPositions_origin (code : QString) (acc0 : PosAcc) :
    ∃ ex, (fromImportPositions code acc0).1 = acc0.1 ++ ex ∧
      ∀ r ∈ ex, RecordOrigin code r := by
  unfold fromImportPositions
  refine foldl_grows (fun x : PosAcc => x.1) (fun r => RecordOrigin code r) _ ?_ _ _
  intro acc m
  dsimp only
  split_ifs <;> first
    | exact ⟨[], (List.append_nil _).symm, fun r hr => absurd hr (List.not_mem_nil r)⟩
    | exact ⟨_, rfl, fun r hr => by
        rw [List.mem_singleton] at hr; rw [hr]; exact Or.inl ⟨Or.inr (Or.inr rfl), rfl⟩⟩

theorem extractSymbolPositions_origin (st : QPythonExtracter) (code : QString) :
    ∀ r ∈ (extractSymbolPositions st code).m_symbolsInfo, RecordOrigin code r := by
  unfold extractSymbolPositions
  dsimp only
  have h0 := keywordFold_origin code st.m_pythonKeywords
  generalize st.m_pythonKeywords.foldl (keywordPositions code) [] = k at h0
  obtain ⟨e1, h1, p1⟩ := classPositions_origin code (k, [])
  obtain ⟨e2, h2, p2⟩ := functionPositions_origin code (classPositions code (k, []))
  obtain ⟨e3, h3, p3⟩ := variablePositions_origin st.m_pythonKeywords code
    (functionPositions code (classPositions code (k, [])))
  obtain ⟨e4, h4, p4⟩ := attributePositions_origin code
    (variablePositions st.m_pythonKeywords code
      (functionPositions code (classPositions code (k, []))))
  obtain ⟨e5, h5, p5⟩ := importPositions_origin code (attributePositions code
    (variablePositions st.m_pythonKeywords code
      (functionPositions code (classPositions code (k, [])))))
  obtain ⟨e6, h6, p6⟩ := fromImportPositions_origin code (importPositions code
    (attributePositions code (variablePositions st.m_pythonKeywords code
      (functionPositions code (classPositions code (k, []))))))
  rw [h6, h5, h4, h3, h2, h1]
  dsimp only
  intro r hr
  simp only [List.mem_append] at hr
  rcases hr with (((((h | h) | h) | h) | h) | h) | h
  · exact h0 r h
  · exact p1 r h
  · exact Or.inr (Or.inl (p2 r h))
  · exact Or.inr (Or.inr (Or.inl (p3 r h)))
  · exact Or.inr (Or.inr (Or.inr (p4 r h)))
  · exact p5 r h
  · exact p6 r h

theorem extractSymbols_origin (st : QPythonExtracter) (code : QString) (h : code ≠ []) :
    ∀ r ∈ (extractSymbols st code).state.m_symbolsInfo, RecordOrigin code r := by
  obtain ⟨st5, hst⟩ := extractSymbols_symbolsInfo st code h
  rw [hst]
  exact extractSymbolPositions_origin st5 code

/-! ## Lemmas: captures are pieces of the text -/

theorem drop_of_drop_append (code consumed rest : List Char) (pos : Nat)
    (h : code.drop pos = consumed ++ rest) : code.drop (pos + consumed.length) = rest := by
  rw [← List.drop_drop, h]
  simp

theorem Rx.reaches_rest (code : QString) (r : Rx) (s e : MatchState) (h : r.Reaches s e)
    (hs : s.rest = code.drop s.pos) : e.rest = code.drop e.pos := by
  obtain ⟨consumed, hr, hp, _⟩ := Rx.reaches_consumes r s e h
  rw [hp]
  rw [hr] at hs
  exact (drop_of_drop_append code consumed e.rest s.pos hs.symm).symm

theorem Rx.reaches_captureInText (code : QString) : ∀ (r : Rx) (s e : MatchState),
    r.Reaches s e → s.rest = code.drop s.pos →
    (∀ c ∈ s.caps, CaptureInText code c.2) → ∀ c ∈ e.caps, CaptureInText code c.2 := by
  intro r
  induction r with
  | chr p =>
    intro s e h _ hs
    obtain ⟨c, cs, _, _, he⟩ := h
    subst he
    exact hs
  | star p =>
    intro s e h _ hs
    obtain ⟨_, _, _, _, hc⟩ := h
    rw [hc]
    exact hs
  | seq a b iha ihb =>
    intro s e h hrest hs
    obtain ⟨mid, h1, h2⟩ := h
    exact ihb mid e h2 (Rx.reaches_rest code a s mid h1 hrest) (iha s mid h1 hrest hs)
  | opt a iha =>
    intro s e h hrest hs
    rcases h with h | h
    · exact iha s e h hrest hs
    · subst h; exact hs
  | cap i a iha =>
    intro s e h hrest hs
    obtain ⟨e1, h1, he⟩ := h
    obtain ⟨consumed, hr, _, _, ht⟩ := Rx.reaches_take a s e1 h1
    subst he
    intro c hc
    rcases List.mem_cons.1 hc with h2 | h2
    · subst h2
      show (code.drop s.pos).take (s.rest.take (e1.pos - s.pos)).length =
        s.rest.take (e1.pos - s.pos)
      rw [ht, ← hrest, hr]
      simp
    · exact iha s e1 h1 hrest hs c h2
  | bol => intro s e h _ hs; cases h; exact hs
  | wordB => intro s e h _ hs; cases h; exact hs
  | notAhead a _ => intro s e h _ hs; cases h; exact hs
  | eps => intro s e h _ hs; cases h; exact hs

theorem globalMatch_captureInText (r : Rx) (code : QString) (m : RxMatch)
    (h : m ∈ globalMatch r code) : ∀ c ∈ m.caps, CaptureInText code c.2 := by
  obtain ⟨q, pre, tail, e, hcode, he, hm⟩ := globalMatch_reaches r code m h
  subst hm
  refine Rx.reaches_captureInText code r _ e he ?_ (by simp)
  show tail = code.drop pre.length
  rw [hcode]
  simp

theorem captured_in_text (r : Rx) (code : QString) (m : RxMatch) (i : Nat)
    (h : m ∈ globalMatch r code) :
    (code.drop (m.capturedStart i)).take (m.captured i).length = m.captured i := by
  unfold RxMatch.capturedStart RxMatch.captured
  cases hf : m.caps.find? (fun c => c.1 == i) with
  | none => simp
  | some x =>
    exact globalMatch_captureInText r code m h x (List.mem_of_find?_eq_some hf)

/-! ## Lemmas: the class of a position -/

theorem globalMatchAux_start (r : Rx) (m : RxMatch) (rest : List Char) (skip : Nat)
    (prev : Option Char) (pos : Nat) (h : m ∈ globalMatchAux r skip prev pos rest) :
    pos ≤ m.start := by
  obtain ⟨q, pre, tail, _, hm⟩ := globalMatchAux_mem r m rest skip prev pos h
  obtain ⟨e, _, he⟩ := Rx.matchAt_sound r q _ tail m hm
  rw [he]
  show pos ≤ pos + pre.length
  omega

theorem globalMatchAux_sorted (r : Rx) : ∀ (rest : List Char) (skip : Nat)
    (prev : Option Char) (pos : Nat),
    List.Pairwise (fun a b : RxMatch => a.start < b.start)
      (globalMatchAux r skip prev pos rest) := by
  intro rest
  induction rest with
  | nil =>
    intro skip prev pos
    simp only [globalMatchAux]
    split_ifs
    · cases r.matchAt prev pos [] <;> simp
    · exact List.Pairwise.nil
  | cons c cs ih =>
    intro skip prev pos
    cases skip with
    | zero =>
      simp only [globalMatchAux]
      cases hm : r.matchAt prev pos (c :: cs) with
      | none => exact ih 0 (some c) (pos + 1)
      | some x =>
        dsimp only
        rw [List.pairwise_cons]
        refine ⟨?_, ih _ (some c) (pos + 1)⟩
        intro b hb
        have h1 := globalMatchAux_start r b cs _ (some c) (pos + 1) hb
        obtain ⟨e, _, he⟩ := Rx.matchAt_sound r prev pos (c :: cs) x hm
        rw [he]
        show pos < b.start
        omega
    | succ n =>
      simp only [globalMatchAux]
      exact ih n (some c) (pos + 1)

theorem globalMatch_sorted (r : Rx) (code : QString) :
    List.Pairwise (fun a b : RxMatch => a.start < b.start) (globalMatch r code) :=
  globalMatchAux_sorted r code 0 none 0

theorem lastHeader_fold (f : QString × Option Nat → RxMatch → QString × Option Nat)
    (hnone : ∀ acc m, acc.2 = none → f acc m = (m.captured 1, some m.start))
    (hsome : ∀ acc m p, acc.2 = some p → p < m.start → f acc m = (m.captured 1, some m.start)) :
    ∀ (ms : List RxMatch),
    List.Pairwise (fun a b : RxMatch => a.start < b.start) ms →
    ms.foldl f ([], none) =
    (match ms.getLast? with
      | some l => (l.captured 1, some l.start)
      | none => ([], none)) := by
  intro ms
  induction ms using List.reverseRecOn with
  | nil => intro _; rfl
  | append_singleton t m ih =>
    intro hp
    rw [List.pairwise_append] at hp
    rw [List.foldl_append, List.foldl_cons, List.foldl_nil, ih hp.1]
    have hl : (t ++ [m]).getLast? = some m := by simp
    rw [hl]
    cases ht : t.getLast? with
    | none => exact hnone _ m rfl
    | some l =>
      have hmem : l ∈ t := List.mem_of_getLast?_eq_some ht
      have hlt := hp.2.2 l hmem m (List.mem_singleton_self m)
      exact hsome _ m l.start rfl hlt

theorem findClassForPosition_eq (code : QString) (position : Nat) :
    findClassForPosition code position =
      (match (globalMatch classRegex (code.take position)).getLast? with
        | some l => if position < findClassEnd code l.start then l.captured 1 else []
        | none => []) := by
  unfold findClassForPosition
  dsimp only
  rw [lastHeader_fold _ ?_ ?_ _ (globalMatch_sorted classRegex (code.take position))]
  · cases hl : (globalMatch classRegex (code.take position)).getLast? with
    | none => rfl
    | some l =>
      dsimp only
      have hmem := List.mem_of_getLast?_eq_some hl
      have hne := classRegex_capture_nonempty _ l hmem
      have he : (l.captured 1).isEmpty = false := by
        cases hc : l.captured 1 with
        | nil => exact absurd hc hne
        | cons a b => rfl
      rw [he]
      rfl
  · intro acc m h
    dsimp only
    rw [h]
  · intro acc m p h hlt
    dsimp only
    rw [h]
    dsimp only
    rw [if_pos hlt]

theorem findClassForPosition_ne_nil (code : QString) (position : Nat) :
    findClassForPosition code position ≠ [] ↔
      ∃ l, (globalMatch classRegex (code.take position)).getLast? = some l ∧
        position < findClassEnd code l.start := by
  rw [findClassForPosition_eq]
  cases hl : (globalMatch classRegex (code.take position)).getLast? with
  | none => simp
  | some l =>
    have hne := classRegex_capture_nonempty _ l (List.mem_of_getLast?_eq_some hl)
    dsimp only
    constructor
    · intro h
      refine ⟨l, rfl, ?_⟩
      by_contra hlt
      rw [if_neg hlt] at h
      exact h rfl
    · rintro ⟨l2, h2, hlt⟩
      have e1 : l2 = l := by
        have := Option.some.inj h2
        exact this.symm
      subst e1
      rw [if_pos hlt]
      exact hne

/-! ## Lemmas: the shape of a function header -/

theorem funcRegex_header (code : QString) (m : RxMatch) (h : m ∈ globalMatch funcRegex code) :
    ∃ (ws rest : List Char), (∀ c ∈ ws, isSpaceRx c = true) ∧
      code.drop (m.capturedStart 1) = m.captured 1 ++ ws ++ '(' :: m.captured 2 ++ ')' :: rest ∧
      ')' ∉ m.captured 2 ∧ m.captured 1 ≠ [] := by
  obtain ⟨q, pre, tail, e, hcode, he, hm⟩ := globalMatch_reaches funcRegex code m h
  have he2 : ∃ s1 : MatchState, (Rx.str "def".toList).Reaches ⟨q, pre.length, tail, []⟩ s1 ∧
      ∃ s2 : MatchState, rxSpaces1.Reaches s1 s2 ∧
      ∃ s3 : MatchState, (∃ e1 : MatchState, rxIdent.Reaches s2 e1 ∧ s3 = ⟨e1.prev, e1.pos, e1.rest,
          (1, ⟨s2.pos, s2.rest.take (e1.pos - s2.pos)⟩) :: e1.caps⟩) ∧
      ∃ s4 : MatchState, StarReaches isSpaceRx s3 s4 ∧
      ∃ s5 : MatchState, (∃ (c : Char) (cs : List Char), s4.rest = c :: cs ∧ (c == '(') = true ∧
          s5 = ⟨some c, s4.pos + 1, cs, s4.caps⟩) ∧
      ∃ s6 : MatchState, (∃ e2 : MatchState, StarReaches isNotRParen s5 e2 ∧ s6 = ⟨e2.prev, e2.pos, e2.rest,
          (2, ⟨s5.pos, s5.rest.take (e2.pos - s5.pos)⟩) :: e2.caps⟩) ∧
      ∃ (c2 : Char) (cs2 : List Char), s6.rest = c2 :: cs2 ∧ (c2 == ')') = true ∧
          e = ⟨some c2, s6.pos + 1, cs2, s6.caps⟩ := he
  obtain ⟨s1, h1, s2, h2, s3, ⟨e1, hid, hs3⟩, s4, hsp, s5, ⟨c, cs, hr4, hc, hs5⟩,
    s6, ⟨e2, hst, hs6⟩, c2, cs2, hr6, hc2, hse⟩ := he2
  have hrest0 : (⟨q, pre.length, tail, []⟩ : MatchState).rest =
      code.drop (⟨q, pre.length, tail, []⟩ : MatchState).pos := by
    show tail = code.drop pre.length
    rw [hcode]; simp
  have hrest1 := Rx.reaches_rest code _ _ s1 h1 hrest0
  have hrest2 := Rx.reaches_rest code _ _ s2 h2 hrest1
  obtain ⟨con1, hr2, _, hmin, htake⟩ := Rx.reaches_take rxIdent s2 e1 hid
  obtain ⟨ws, hws, hr3, _, hcap4⟩ := hsp
  obtain ⟨con2, hnp, hr5, hp5, hcap5⟩ := hst
  have hc' : c = '(' := by simpa using hc
  have hc2' : c2 = ')' := by simpa using hc2
  subst hc' hc2'
  have ecaps : e.caps = (2, ⟨s5.pos, con2⟩) :: (1, ⟨s2.pos, con1⟩) :: e1.caps := by
    rw [hse, hs6]
    dsimp only
    rw [hcap5, hs5]
    dsimp only
    rw [hcap4, hs3]
    dsimp only
    rw [htake]
    have e3 : e2.pos - (s4.pos + 1) = con2.length := by
      rw [hp5, hs5]
      dsimp only
      omega
    have e4 : cs.take (e2.pos - (s4.pos + 1)) = con2 := by
      have : cs = con2 ++ e2.rest := by
        rw [hs5] at hr5
        exact hr5
      rw [e3, this]
      simp
    rw [e4]
  have hcap1 : m.captured 1 = con1 := by
    rw [hm]
    unfold RxMatch.captured
    dsimp only
    rw [ecaps]
    simp [List.find?_cons]
  have hcap2 : m.captured 2 = con2 := by
    rw [hm]
    unfold RxMatch.captured
    dsimp only
    rw [ecaps]
    simp [List.find?_cons]
  have hstart : m.capturedStart 1 = s2.pos := by
    rw [hm]
    unfold RxMatch.capturedStart
    dsimp only
    rw [ecaps]
    simp [List.find?_cons]
  refine ⟨ws, cs2, hws, ?_, ?_, ?_⟩
  · rw [hstart, hcap1, hcap2, ← hrest2, hr2]
    have e5 : e1.rest = ws ++ s4.rest := by
      rw [hs3] at hr3
      exact hr3
    have e6 : cs = con2 ++ ')' :: cs2 := by
      rw [hs5] at hr5
      dsimp only at hr5
      rw [hr5]
      rw [hs6] at hr6
      dsimp only at hr6
      rw [hr6]
    rw [e5, hr4, e6]
    simp
  · rw [hcap2]
    intro hmem
    have := hnp ')' hmem
    simp [isNotRParen] at this
  · rw [hcap1]
    intro e7
    rw [e7] at hmin
    simp [rxIdent, Rx.minLen] at hmin

/-! ## Claims on the symbol list, the object types and the records -/

/-- C11: for a non-empty text, on an extractor holding the keyword list of
`initPythonKeywords`, the sequence returned by `extractSymbols` has no string
twice and contains every one of the 35 keywords. -/
theorem extractSymbols_nodup_with_keywords (st : QPythonExtracter) (code : QString)
    (hst : st.m_pythonKeywords = pythonKeywords) (h : code ≠ []) :
    (extractSymbols st code).symbols.Nodup ∧
    (∀ k ∈ pythonKeywords, k ∈ (extractSymbols st code).symbols) ∧
    pythonKeywords.length = 35 := by
  refine ⟨extractSymbols_nodup st code h, ?_, rfl⟩
  intro k hk
  rw [extractSymbols_mem st code h, hst]
  unfold collectedSymbols
  simp only [List.mem_append]
  exact Or.inl (Or.inl (Or.inl (Or.inl (Or.inl (Or.inl hk)))))

set_option maxRecDepth 200000 in
/-- Witness of C11: the text `import if`, where `if` comes from the keyword
list and from the import; the result has 35 entries, `if` once. -/
theorem extractSymbols_nodup_with_keywords_witness :
    (QPythonExtracter.new.m_pythonKeywords = pythonKeywords ∧ "import if".toList ≠ []) ∧
    (extractSymbols QPythonExtracter.new "import if".toList).symbols.length = 35 ∧
    (extractSymbols QPythonExtracter.new "import if".toList).symbols.Nodup :=
  ⟨⟨rfl, by decide⟩, by decide,
    (extractSymbols_nodup_with_keywords QPythonExtracter.new "import if".toList rfl
      (by decide)).1⟩

set_option maxRecDepth 200000 in
/-- C12, the claim as stated fails: in the text with the class header
`class _Foo:` and the statement `import _Foo`, the name `_Foo` starts with an
underscore, is not `__init__`, is the name of a class header, and is in the
sequence returned by `extractSymbols`. -/
theorem underscore_class_name_imported :
    startsWith "_Foo".toList ['_'] = true ∧ "_Foo".toList ≠ initName ∧
    "_Foo".toList ∈ (globalMatch classRegex "class _Foo:\n    pass\nimport _Foo\n".toList).map
        (fun m => m.captured 1) ∧
    "_Foo".toList ∈
      (extractSymbols QPythonExtracter.new "class _Foo:\n    pass\nimport _Foo\n".toList).symbols := by
  decide

/-- C12 as amended: a name that starts with an underscore, is not `__init__`
and is the name of a class header or of a function header of the text is not
in the sequence returned by `extractSymbols`, unless an import of the text
emits it (it is the name after an `import`, or the alias, else the name, of a
`from ... import`). -/
theorem underscore_header_name_not_symbol (st : QPythonExtracter) (code n : QString)
    (hst : st.m_pythonKeywords = pythonKeywords) (hu : startsWith n ['_'] = true)
    (_hinit : n ≠ initName)
    (_hheader : n ∈ (globalMatch classRegex code).map (fun m => m.captured 1) ∨
      n ∈ (globalMatch funcRegex code).map (fun m => m.captured 1))
    (himport : n ∉ importSymbols code ∧ n ∉ fromImportSymbols code) :
    n ∉ (extractSymbols st code).symbols := by
  intro hn
  rcases underscore_symbol_is_import st code n hst hu hn with h | h
  · exact himport.1 h
  · exact himport.2 h

set_option maxRecDepth 200000 in
/-- Witness of C12 as amended: the class `_Foo` and the function `_bar` of a
text without imports. -/
theorem underscore_header_name_not_symbol_witness :
    "_bar".toList ∉
      (extractSymbols QPythonExtracter.new
        "class _Foo:\n    def _bar(self):\n        pass\n".toList).symbols :=
  underscore_header_name_not_symbol QPythonExtracter.new
    "class _Foo:\n    def _bar(self):\n        pass\n".toList "_bar".toList rfl (by decide)
    (by decide) (Or.inr (by decide)) ⟨by decide, by decide⟩

set_option maxRecDepth 200000 in
/-- C13, the claim as stated fails: the text `def __init__(self):` with a body
has a function header named `__init__`, and `__init__` is not in the sequence
returned by `extractSymbols`. -/
theorem init_function_not_symbol :
    initName ∈ (globalMatch funcRegex "def __init__(self):\n    pass\n".toList).map
        (fun m => m.captured 1) ∧
    initName ∉
      (extractSymbols QPythonExtracter.new "def __init__(self):\n    pass\n".toList).symbols := by
  decide

/-- C13 as amended: for a text that contains a function header
`def __init__(...)`, the function category filters `__init__` out like every
name with a leading underscore: `__init__` is in the sequence returned by
`extractSymbols` only if an import of the text emits it. -/
theorem init_symbol_only_from_import (st : QPythonExtracter) (code : QString)
    (hst : st.m_pythonKeywords = pythonKeywords)
    (_hdef : initName ∈ (globalMatch funcRegex code).map (fun m => m.captured 1))
    (hn : initName ∈ (extractSymbols st code).symbols) :
    initName ∈ importSymbols code ∨ initName ∈ fromImportSymbols code :=
  underscore_symbol_is_import st code initName hst (by decide) hn

set_option maxRecDepth 200000 in
/-- Witness of C13 as amended: a constructor in a text that also has
`from m import __init__`; there `__init__` is in the returned sequence. -/
theorem init_symbol_only_from_import_witness :
    initName ∈ (extractSymbols QPythonExtracter.new
      "def __init__(self):\n    pass\nfrom m import __init__\n".toList).symbols ∧
    (initName ∈ importSymbols "def __init__(self):\n    pass\nfrom m import __init__\n".toList ∨
     initName ∈
      fromImportSymbols "def __init__(self):\n    pass\nfrom m import __init__\n".toList) :=
  ⟨by decide, init_symbol_only_from_import QPythonExtracter.new
    "def __init__(self):\n    pass\nfrom m import __init__\n".toList rfl (by decide)
    (by decide)⟩

set_option maxRecDepth 200000 in
/-- C14 (the code departs from the claim): for the class `_P` whose method
assigns `self._x`, the class header pattern matches `_P`, and
`getObjectMembers("_P")` is `[_x]`: `extractObjectTypes` adds the attributes to
the class-members map without the underscore filter of `extractClassMembers`.
The same assignment in a class `A` puts `(A, _x)` into the map. -/
theorem getObjectMembers_private_attribute :
    (globalMatch classRegex "class _P:\n    def f(self):\n        self._x = 1\n".toList).map
        (fun m => m.captured 1) = ["_P".toList] ∧
    getObjectMembers (extractSymbols QPythonExtracter.new
        "class _P:\n    def f(self):\n        self._x = 1\n".toList).state "_P".toList
      = ["_x".toList] ∧
    (("A".toList, "_x".toList) ∈ (extractSymbols QPythonExtracter.new
        "class A:\n    def f(self):\n        self._x = 1\n".toList).state.m_classMembers) := by
  decide

set_option maxRecDepth 200000 in
/-- C15, the claim as stated fails: the text `self._x = 1` has the attribute
assignment `self._x =`, and `_x` is not in the sequence returned by
`extractSymbols`. -/
theorem underscore_attribute_not_symbol :
    (globalMatch attrRegex "self._x = 1".toList).map (fun m => m.captured 1) = ["_x".toList] ∧
    "_x".toList ∉ (extractSymbols QPythonExtracter.new "self._x = 1".toList).symbols := by
  decide

/-- C15 as amended: for every attribute assignment `self.<name> =` matched in
the text whose name does not start with an underscore, the name is in the
sequence returned by `extractSymbols`; names with a leading underscore are
filtered out on this path too. -/
theorem attribute_symbol_listed (st : QPythonExtracter) (code : QString) (m : RxMatch)
    (hm : m ∈ globalMatch attrRegex code) (hu : startsWith (m.captured 1) ['_'] = false) :
    m.captured 1 ∈ (extractSymbols st code).symbols := by
  have hcode : code ≠ [] := by
    intro e
    subst e
    have : globalMatch attrRegex [] = [] := rfl
    rw [this] at hm
    exact absurd hm (List.not_mem_nil m)
  rw [extractSymbols_mem st code hcode]
  unfold collectedSymbols
  simp only [List.mem_append]
  refine Or.inl (Or.inl (Or.inr ?_))
  unfold attributeSymbols
  exact (flatMap_filter_mem _ _ _ _).2 ⟨m, hm, by simp [hu], rfl⟩

set_option maxRecDepth 200000 in
/-- Witness of C15 as amended: the attribute `x` of `self.x = 1`. -/
theorem attribute_symbol_listed_witness :
    "x".toList ∈ (extractSymbols QPythonExtracter.new "self.x = 1".toList).symbols := by
  have hm : (⟨0, 8, [(1, ⟨5, "x".toList⟩)]⟩ : RxMatch) ∈
      globalMatch attrRegex "self.x = 1".toList := by
    have : globalMatch attrRegex "self.x = 1".toList = [⟨0, 8, [(1, ⟨5, "x".toList⟩)]⟩] := by
      rfl
    rw [this]
    exact List.mem_singleton_self _
  exact attribute_symbol_listed QPythonExtracter.new "self.x = 1".toList _ hm (by decide)

set_option maxRecDepth 200000 in
/-- C16 (the code departs from the claim): on the text
`from os import path as p` the `from` pattern emits the alias `p`, but the
`import` pattern of the first loop of `extractImports` also matches
`import path` inside the statement; no other category names `path`, and yet
both `p` and `path` are in the sequence returned by `extractSymbols`. -/
theorem from_import_alias_keeps_name :
    importSymbols "from os import path as p\n".toList = ["path".toList] ∧
    fromImportSymbols "from os import path as p\n".toList = ["p".toList] ∧
    classSymbols "from os import path as p\n".toList = [] ∧
    functionSymbols "from os import path as p\n".toList = [] ∧
    variableSymbols pythonKeywords "from os import path as p\n".toList = [] ∧
    attributeSymbols "from os import path as p\n".toList = [] ∧
    "p".toList ∈
      (extractSymbols QPythonExtracter.new "from os import path as p\n".toList).symbols ∧
    "path".toList ∈
      (extractSymbols QPythonExtracter.new "from os import path as p\n".toList).symbols := by
  decide

theorem globalMatch_bounds (r : Rx) (code : QString) (m : RxMatch)
    (h : m ∈ globalMatch r code) : m.start + r.minLen ≤ m.stop ∧ m.stop ≤ code.length := by
  obtain ⟨q, pre, tail, e, hcode, he, hm⟩ := globalMatch_reaches r code m h
  obtain ⟨consumed, hr, hp, hmin⟩ := Rx.reaches_consumes r _ e he
  subst hm
  dsimp only at hr hp ⊢
  constructor
  · omega
  · rw [hcode, hr, hp]
    simp only [List.length_append]
    omega

/-- C17: for a non-empty text, `getObjectType(x)` after `extractSymbols` is the
class-like name (group 2) of the last match of the object pattern
`name = ClassLikeName (` whose name (group 1) is `x`, and the empty string when
no match names `x`; no class needs to be known.  Both names of a match are
non-empty. -/
theorem getObjectType_last_match (st : QPythonExtracter) (code x : QString)
    (h : code ≠ []) :
    getObjectType (extractSymbols st code).state x =
      (match ((globalMatch objRegex code).filter (fun m => m.captured 1 == x)).getLast? with
        | some m => m.captured 2
        | none => []) ∧
    (∀ m ∈ globalMatch objRegex code, m.captured 1 ≠ [] ∧ m.captured 2 ≠ []) :=
  ⟨extractSymbols_objectTypes st code h x, fun m hm => objRegex_captures_nonempty code m hm⟩

set_option maxRecDepth 200000 in
/-- Witness of C17: `x` is assigned `Foo()` and then `Bar (1)`, and no class
is defined; the type of `x` is `Bar`, that of `z` is empty. -/
theorem getObjectType_last_match_witness :
    "x = Foo()\nx = Bar (1)\n".toList ≠ [] ∧
    getObjectType (extractSymbols QPythonExtracter.new "x = Foo()\nx = Bar (1)\n".toList).state
      "x".toList = "Bar".toList ∧
    getObjectType (extractSymbols QPythonExtracter.new "x = Foo()\nx = Bar (1)\n".toList).state
      "z".toList = [] ∧
    getObjectType (extractSymbols QPythonExtracter.new "x = Foo()\nx = Bar (1)\n".toList).state
      "x".toList =
      (match ((globalMatch objRegex "x = Foo()\nx = Bar (1)\n".toList).filter
          (fun m => m.captured 1 == "x".toList)).getLast? with
        | some m => m.captured 2
        | none => []) :=
  ⟨by decide, by decide, by decide,
    (getObjectType_last_match QPythonExtracter.new "x = Foo()\nx = Bar (1)\n".toList
      "x".toList (by decide)).1⟩

set_option maxRecDepth 200000 in
/-- C18, the claim as stated fails.  In `class A:` with the body `pass`, the
keyword record of `pass` (offset 13) has an empty scope although the offset
lies between the header of `A` (offset 0) and its end.  In the two-line text
`class A` / `(class B: self.q = 1 ):` the variable record of `q` (offset 23)
has the scope `B` although the only class header of the text, `A` at offset 0,
ends at offset 8. -/
theorem scope_iff_inside_some_class_fails :
    (¬ ∀ r ∈ (extractSymbols QPythonExtracter.new
          "class A:\n    pass\n".toList).state.m_symbolsInfo,
        ∀ p, p < "class A:\n    pass\n".toList.length →
          calculateLineAndColumn "class A:\n    pass\n".toList p = (r.line, r.column) →
          (r.scope ≠ [] ↔ ∃ hd ∈ globalMatch classRegex "class A:\n    pass\n".toList,
            hd.start < p ∧ p < findClassEnd "class A:\n    pass\n".toList hd.start)) ∧
    (¬ ∀ r ∈ (extractSymbols QPythonExtracter.new
          "class A\n(class B: self.q = 1 ):".toList).state.m_symbolsInfo,
        r.type = SymbolType.Variable →
        ∀ p, p < "class A\n(class B: self.q = 1 ):".toList.length →
          calculateLineAndColumn "class A\n(class B: self.q = 1 ):".toList p =
            (r.line, r.column) →
          (r.scope ≠ [] ↔ ∃ hd ∈ globalMatch classRegex "class A\n(class B: self.q = 1 ):".toList,
            hd.start < p ∧
              p < findClassEnd "class A\n(class B: self.q = 1 ):".toList hd.start)) := by
  constructor
  · intro hall
    have h1 := hall
      { name := "pass".toList, type := SymbolType.Keyword, line := 2, column := 5, length := 4,
        scope := [], parameters := [] } (by decide) 13 (by decide) (by decide)
    have hm : globalMatch classRegex "class A:\n    pass\n".toList =
        [⟨0, 8, [(1, ⟨6, "A".toList⟩)]⟩] := by rfl
    have h2 := h1.2 ⟨_, by rw [hm]; exact List.mem_singleton_self _, by decide, by decide⟩
    exact h2 rfl
  · intro hall
    have h1 := hall
      { name := "q".toList, type := SymbolType.Variable, line := 2, column := 16, length := 1,
        scope := "B".toList, parameters := [] } (by decide) rfl 23 (by decide) (by decide)
    have hm : globalMatch classRegex "class A\n(class B: self.q = 1 ):".toList =
        [⟨0, 31, [(1, ⟨6, "A".toList⟩)]⟩] := by rfl
    obtain ⟨hd, hmem, _, hlt⟩ := h1.1 (by decide)
    rw [hm, List.mem_singleton] at hmem
    subst hmem
    revert hlt
    decide

/-- C18 as amended: in the position list left by `extractSymbols` a keyword,
class or import record has an empty scope; a function or variable record has a
name standing at an offset `p` of the text (the offset its line and column are
computed from), and its scope is non-empty if and only if the part of the text
before `p` has a class header and, `l` being the last one, `p` lies before
`findClassEnd` of `l` (and after its start). -/
theorem record_scope (st : QPythonExtracter) (code : QString) (h : code ≠ [])
    (r : SymbolInfo) (hr : r ∈ (extractSymbols st code).state.m_symbolsInfo) :
    ((r.type = SymbolType.Keyword ∨ r.type = SymbolType.Class ∨ r.type = SymbolType.Import) →
      r.scope = []) ∧
    ((r.type = SymbolType.Function ∨ r.type = SymbolType.Variable) →
      ∃ p, (r.line, r.column) = calculateLineAndColumn code p ∧
        (code.drop p).take r.name.length = r.name ∧
        (r.scope ≠ [] ↔ ∃ l, (globalMatch classRegex (code.take p)).getLast? = some l ∧
          l.start < p ∧ p < findClassEnd code l.start)) := by
  have key : ∀ p, findClassForPosition code p ≠ [] ↔
      ∃ l, (globalMatch classRegex (code.take p)).getLast? = some l ∧
        l.start < p ∧ p < findClassEnd code l.start := by
    intro p
    rw [findClassForPosition_ne_nil]
    constructor
    · rintro ⟨l, hl, hlt⟩
      refine ⟨l, hl, ?_, hlt⟩
      have hb := globalMatch_bounds classRegex (code.take p) l (List.mem_of_getLast?_eq_some hl)
      have hmin : 1 ≤ classRegex.minLen := by decide
      have hlen : (code.take p).length ≤ p := by simp
      omega
    · rintro ⟨l, hl, _, hlt⟩
      exact ⟨l, hl, hlt⟩
  rcases extractSymbols_origin st code h r hr with ⟨ht, hs⟩ | ⟨m, hm, he⟩ | ⟨m, hm, he⟩ |
    ⟨m, hm, he⟩
  · refine ⟨fun _ => hs, ?_⟩
    intro hfv
    rcases ht with ht | ht | ht <;> rcases hfv with hfv | hfv <;> rw [ht] at hfv <;> cases hfv
  · subst he
    refine ⟨?_, fun _ => ⟨m.capturedStart 1, rfl, captured_in_text funcRegex code m 1 hm, key _⟩⟩
    intro ht
    rcases ht with ht | ht | ht <;> cases ht
  · subst he
    refine ⟨?_, fun _ => ⟨m.capturedStart 1, rfl, captured_in_text varRegex code m 1 hm, key _⟩⟩
    intro ht
    rcases ht with ht | ht | ht <;> cases ht
  · subst he
    refine ⟨?_, fun _ => ⟨m.capturedStart 1, rfl, captured_in_text attrRegex code m 1 hm, key _⟩⟩
    intro ht
    rcases ht with ht | ht | ht <;> cases ht

set_option maxRecDepth 200000 in
/-- Witness of C18 as amended: the method `f` of class `A`; its record has the
scope `A`. -/
theorem record_scope_witness :
    "class A:\n    def f(self):\n        pass\n".toList ≠ [] ∧
    (∃ p, ((2 : Int), (9 : Int)) =
        calculateLineAndColumn "class A:\n    def f(self):\n        pass\n".toList p ∧
      ("A".toList ≠ [] ↔ ∃ l,
        (globalMatch classRegex
          ("class A:\n    def f(self):\n        pass\n".toList.take p)).getLast? = some l ∧
          l.start < p ∧
          p < findClassEnd "class A:\n    def f(self):\n        pass\n".toList l.start)) := by
  refine ⟨by decide, ?_⟩
  obtain ⟨p, h1, _, h3⟩ := (record_scope QPythonExtracter.new
    "class A:\n    def f(self):\n        pass\n".toList (by decide)
    { name := "f".toList, type := SymbolType.Function, line := 2, column := 9, length := 1,
      scope := "A".toList, parameters := "self".toList } (by decide)).2 (Or.inl rfl)
  exact ⟨p, h1, h3⟩

/-- C19: for a name without an entry in the class-members map and without an
inferred type that has entries there, `getObjectMembers` returns the string
members when the name is `str` or starts with a quote; otherwise the list
members when it is `list` or ends with `]`; otherwise the dictionary members
when it is `dict` or ends with a closing brace; otherwise nothing. -/
theorem getObjectMembers_builtin_fallback (st : QPythonExtracter) (n : QString)
    (h1 : ∀ v, (n, v) ∉ st.m_classMembers)
    (h2 : qmapValue st.m_objectTypes n ≠ [] →
      ∀ v, (qmapValue st.m_objectTypes n, v) ∉ st.m_classMembers) :
    getObjectMembers st n =
      if n = "str".toList ∨ startsWith n ['"'] = true ∨ startsWith n ['\''] = true then
        ["upper", "lower", "strip", "split", "join", "replace", "find"].map String.toList
      else if n = "list".toList ∨ endsWith n [']'] = true then
        ["append", "extend", "insert", "remove", "pop", "clear", "sort", "count"].map
          String.toList
      else if n = "dict".toList ∨ endsWith n ['\x7d'] = true then
        ["keys", "values", "items", "get", "update", "pop", "clear"].map String.toList
      else [] := by
  rw [getObjectMembers_fallback st n h1 h2]
  unfold builtinMembers
  by_cases c1 : n = "str".toList ∨ startsWith n ['"'] = true ∨ startsWith n ['\''] = true
  · have b1 : (n == "str".toList || startsWith n ['"'] || startsWith n ['\'']) = true := by
      simpa [Bool.or_eq_true, or_assoc] using c1
    rw [if_pos b1, if_pos c1]
    decide
  · have b1 : ¬ (n == "str".toList || startsWith n ['"'] || startsWith n ['\'']) = true := by
      simpa [Bool.or_eq_true, or_assoc] using c1
    rw [if_neg b1, if_neg c1]
    by_cases c2 : n = "list".toList ∨ endsWith n [']'] = true
    · have b2 : (n == "list".toList || endsWith n [']']) = true := by
        simpa [Bool.or_eq_true] using c2
      rw [if_pos b2, if_pos c2]
      decide
    · have b2 : ¬ (n == "list".toList || endsWith n [']']) = true := by
        simpa [Bool.or_eq_true] using c2
      rw [if_neg b2, if_neg c2]
      by_cases c3 : n = "dict".toList ∨ endsWith n ['\x7d'] = true
      · have b3 : (n == "dict".toList || endsWith n ['\x7d']) = true := by
          simpa [Bool.or_eq_true] using c3
        rw [if_pos b3, if_pos c3]
        decide
      · have b3 : ¬ (n == "dict".toList || endsWith n ['\x7d']) = true := by
          simpa [Bool.or_eq_true] using c3
        rw [if_neg b3, if_neg c3]
        rfl

set_option maxRecDepth 200000 in
/-- Witness of C19: the list literal `[1, 2]` on a new extractor. -/
theorem getObjectMembers_builtin_fallback_witness :
    getObjectMembers QPythonExtracter.new "[1, 2]".toList =
      ["append", "extend", "insert", "remove", "pop", "clear", "sort", "count"].map
        String.toList := by
  rw [getObjectMembers_builtin_fallback QPythonExtracter.new "[1, 2]".toList
    (fun v hv => absurd hv (List.not_mem_nil _)) (fun hne => absurd rfl hne)]
  decide

set_option maxRecDepth 200000 in
/-- C20, the claim as stated fails: for the header `def f( a )` the text
between the parentheses is ` a ` with its two spaces, and the function record
of `f` has the parameters `a`. -/
theorem function_parameters_are_trimmed :
    ({ name := "f".toList, type := SymbolType.Function, line := 1, column := 5, length := 1,
       scope := [], parameters := "a".toList } : SymbolInfo) ∈
      (extractSymbols QPythonExtracter.new "def f( a )".toList).state.m_symbolsInfo ∧
    "def f( a )".toList.drop 4 = "f".toList ++ '(' :: " a ".toList ++ [')'] ∧
    calculateLineAndColumn "def f( a )".toList 4 = (1, 5) ∧
    "a".toList ≠ " a ".toList := by
  decide

/-- C20 as amended: every function record of the position list stands for a
function header of the text: at the offset `p` of its name the text reads the
name, white space, `(`, a text `P` without `)`, and `)`; the parameters field
is `P` with the white space at both ends removed (`QString::trimmed`), the
rest of `P` character for character. -/
theorem function_record_parameters (st : QPythonExtracter) (code : QString) (h : code ≠ [])
    (r : SymbolInfo) (hr : r ∈ (extractSymbols st code).state.m_symbolsInfo)
    (hf : r.type = SymbolType.Function) :
    ∃ (p : Nat) (P ws rest : List Char),
      (r.line, r.column) = calculateLineAndColumn code p ∧
      code.drop p = r.name ++ ws ++ '(' :: P ++ ')' :: rest ∧
      (∀ c ∈ ws, isSpaceRx c = true) ∧ ')' ∉ P ∧ r.name ≠ [] ∧
      r.parameters = trimmed P := by
  rcases extractSymbols_origin st code h r hr with ⟨ht, _⟩ | ⟨m, hm, he⟩ | ⟨m, _, he⟩ |
    ⟨m, _, he⟩
  · rcases ht with ht | ht | ht <;> rw [ht] at hf <;> cases hf
  · subst he
    obtain ⟨ws, rest, hws, hdrop, hnp, hne⟩ := funcRegex_header code m hm
    exact ⟨m.capturedStart 1, m.captured 2, ws, rest, rfl, hdrop, hws, hnp, hne, rfl⟩
  · subst he; cases hf
  · subst he; cases hf

set_option maxRecDepth 200000 in
/-- Witness of C20 as amended: the record of `def f( a )`. -/
theorem function_record_parameters_witness :
    ∃ (p : Nat) (P ws rest : List Char),
      ((1 : Int), (5 : Int)) = calculateLineAndColumn "def f( a )".toList p ∧
      "def f( a )".toList.drop p = "f".toList ++ ws ++ '(' :: P ++ ')' :: rest ∧
      (∀ c ∈ ws, isSpaceRx c = true) ∧ ')' ∉ P ∧ "f".toList ≠ [] ∧
      "a".toList = trimmed P :=
  function_record_parameters QPythonExtracter.new "def f( a )".toList (by decide)
    { name := "f".toList, type := SymbolType.Function, line := 1, column := 5, length := 1,
      scope := [], parameters := "a".toList } (by decide) rfl

/-! ## Lemmas: lines and columns -/

theorem lastLineLength_append_newline (l : List Char) :
    lastLineLength (l ++ ['\n']) = 0 := by
  simp [lastLineLength]

theorem lastLineLength_append_other (l : List Char) (c : Char) (hc : c ≠ '\n') :
    lastLineLength (l ++ [c]) = lastLineLength l + 1 := by
  simp [lastLineLength, List.takeWhile_cons, hc]

theorem lineColumn_fold : ∀ (l : List Char),
    l.foldl
      (fun (lc : Int × Int) ch => if ch == '\n' then (lc.1 + 1, 1) else (lc.1, lc.2 + 1))
      (1, 1) =
    (((1 + l.count (Char.ofNat 10) : Nat) : Int), ((1 + lastLineLength l : Nat) : Int)) := by
  intro l
  induction l using List.reverseRecOn with
  | nil => rfl
  | append_singleton t c ih =>
    rw [List.foldl_append, List.foldl_cons, List.foldl_nil, ih]
    by_cases hc : c = '\n'
    · subst hc
      rw [lastLineLength_append_newline]
      simp only [beq_self_eq_true, if_true, List.count_append]
      rw [Prod.mk.injEq]
      constructor
      · simp
        omega
      · simp
    · rw [lastLineLength_append_other t c hc]
      have hb : (c == '\n') = false := by simpa using hc
      simp only [hb, List.count_append]
      rw [Prod.mk.injEq]
      constructor
      · have : List.count '\n' [c] = 0 := by
          rw [List.count_eq_zero]
          simpa using fun e => hc e.symm
        rw [this]
        rfl
      · push_cast
        omega

theorem calculateLineAndColumn_eq (text : QString) (p : Nat) :
    calculateLineAndColumn text p =
      (((1 + (text.take p).count (Char.ofNat 10) : Nat) : Int), ((1 + lastLineLength (text.take p) : Nat) : Int)) := by
  unfold calculateLineAndColumn
  exact lineColumn_fold (text.take p)

/-! ## Lemmas: the end of a class lies after its header -/

theorem findClassEndLoop_result (code : QString) (indentLevel : Nat) :
    ∀ (fuel pos e : Nat), findClassEndLoop code indentLevel fuel pos = some e →
      pos ≤ code.length → 1 ≤ pos → code.get? (pos - 1) = some '\n' →
      pos ≤ e ∧ e ≤ code.length ∧ (e = code.length ∨ code.get? (e - 1) = some '\n') := by
  intro fuel
  induction fuel with
  | zero =>
    intro pos e h
    simp [findClassEndLoop] at h
  | succ n ih =>
    intro pos e h hle h1 hnl
    have step : (match indexOf code '\n' pos with
        | none => some code.length
        | some p => findClassEndLoop code indentLevel n (p + 1)) = some e →
        pos ≤ e ∧ e ≤ code.length ∧ (e = code.length ∨ code.get? (e - 1) = some '\n') := by
      intro hs
      cases hi : indexOf code '\n' pos with
      | none =>
        rw [hi] at hs
        have : code.length = e := by simpa using hs
        subst this
        exact ⟨hle, le_refl _, Or.inl rfl⟩
      | some p =>
        rw [hi] at hs
        obtain ⟨a, b, c⟩ := indexOf_some code '\n' pos p hi
        have := ih (p + 1) e hs (by omega) (by omega) (by simpa using c)
        exact ⟨by omega, this.2⟩
    simp only [findClassEndLoop] at h
    split_ifs at h
    · exact step h
    · have : pos = e := by simpa using h
      subst this
      exact ⟨le_refl _, hle, Or.inr hnl⟩
    · exact step h
    · have : code.length = e := by simpa using h
      subst this
      exact ⟨hle, le_refl _, Or.inl rfl⟩

theorem findClassEndRun_result (code : QString) (s e : Nat) (hs : s < code.length)
    (h : findClassEndRun code s = some e) :
    s < e ∧ e ≤ code.length ∧ (e = code.length ∨ code.get? (e - 1) = some '\n') := by
  unfold findClassEndRun at h
  cases hi : indexOf code '\n' s with
  | none =>
    rw [hi] at h
    have : code.length = e := by simpa using h
    subst this
    exact ⟨hs, le_refl _, Or.inl rfl⟩
  | some nl =>
    rw [hi] at h
    obtain ⟨a, b, c⟩ := indexOf_some code '\n' s nl hi
    have := findClassEndLoop_result code _ _ (nl + 1) e h (by omega) (by omega) (by simpa using c)
    exact ⟨by omega, this.2⟩

theorem findClassEnd_after_start (code : QString) (s : Nat) (hs : s < code.length) :
    ∃ e, findClassEndRun code s = some e ∧ findClassEnd code s = e ∧ s < e ∧
      e ≤ code.length ∧ (e = code.length ∨ code.get? (e - 1) = some '\n') := by
  obtain ⟨e, he⟩ := findClassEndRun_isSome code s
  have hr := findClassEndRun_result code s e hs he
  refine ⟨e, he, ?_, hr⟩
  unfold findClassEnd
  rw [he]
  rfl

theorem classMatch_start_lt (code : QString) (m : RxMatch)
    (hm : m ∈ globalMatch classRegex code) : m.start < code.length := by
  have hb := globalMatch_bounds classRegex code m hm
  have hmin : 1 ≤ classRegex.minLen := by decide
  omega

theorem mem_mmInsert (x : QString × QString) (k v : QString) : ∀ (m : Entries),
    x ∈ mmInsert m k v ↔ x = (k, v) ∨ x ∈ m := by
  intro m
  induction m with
  | nil => simp [mmInsert]
  | cons p t ih =>
    obtain ⟨k0, v0⟩ := p
    simp only [mmInsert]
    split_ifs
    · rw [List.mem_cons, ih, List.mem_cons]
      tauto
    · rw [List.mem_cons]

theorem foldl_invariant {α β : Type} (P : β → Prop) (f : β → α → β)
    (hf : ∀ acc m, P acc → P (f acc m)) :
    ∀ (ms : List α) (acc0 : β), P acc0 → P (ms.foldl f acc0) := by
  intro ms
  induction ms with
  | nil => intro acc0 h; exact h
  | cons m t ih =>
    intro acc0 h
    exact ih (f acc0 m) (hf acc0 m h)

theorem extractClassMembers_entries (st : QPythonExtracter) (className classCode : QString) :
    (className, initName) ∈
        (extractClassMembers st className classCode []).1.m_classMembers ∧
    ∀ x ∈ st.m_classMembers,
      x ∈ (extractClassMembers st className classCode []).1.m_classMembers := by
  have key : ∀ (r : QPythonExtracter × List QString),
      r = extractClassMembers st className classCode [] →
      (className, initName) ∈ r.1.m_classMembers ∧
      ∀ x ∈ st.m_classMembers, x ∈ r.1.m_classMembers := by
    intro r hr
    unfold extractClassMembers at hr
    dsimp only at hr
    have inv : ∀ (acc : QPythonExtracter × List QString),
        ((∀ x ∈ acc.2, (className, x) ∈ acc.1.m_classMembers) ∧
          ∀ x ∈ st.m_classMembers, x ∈ acc.1.m_classMembers) →
        ((acc.2.any (fun x => x == initName) = true ∨
            (className, initName) ∈ acc.1.m_classMembers) →
          (className, initName) ∈ acc.1.m_classMembers) := by
      intro acc hinv hor
      rcases hor with h | h
      · rw [List.any_eq_true] at h
        obtain ⟨x, hx, he⟩ := h
        have : x = initName := by simpa using he
        subst this
        exact hinv.1 _ hx
      · exact h
    let P : QPythonExtracter × List QString → Prop := fun acc =>
      (∀ x ∈ acc.2, (className, x) ∈ acc.1.m_classMembers) ∧
        ∀ x ∈ st.m_classMembers, x ∈ acc.1.m_classMembers
    have h1 : ∀ (ms : List RxMatch) (acc0 : QPythonExtracter × List QString), P acc0 →
        P (ms.foldl (fun (acc : QPythonExtracter × List QString) m =>
          if (!startsWith (m.captured 1) ['_'] || m.captured 1 == initName) = true then
            ({ acc.1 with
                m_classMembers := mmInsert acc.1.m_classMembers className (m.captured 1),
                m_functionParameters :=
                  qmapSet acc.1.m_functionParameters (className ++ ['.'] ++ m.captured 1)
                    (trimmed (m.captured 2)) },
             acc.2 ++ [m.captured 1])
          else acc) acc0) := by
      intro ms acc0 h0
      refine foldl_invariant P _ ?_ ms acc0 h0
      intro acc m hP
      dsimp only
      split_ifs
      · refine ⟨?_, ?_⟩
        · intro x hx
          dsimp only at hx ⊢
          rw [mem_mmInsert]
          rcases List.mem_append.1 hx with h | h
          · exact Or.inr (hP.1 x h)
          · rw [List.mem_singleton] at h
            rw [h]
            exact Or.inl rfl
        · intro x hx
          dsimp only
          rw [mem_mmInsert]
          exact Or.inr (hP.2 x hx)
      · exact hP
    have h2 : ∀ (ms : List RxMatch) (acc0 : QPythonExtracter × List QString), P acc0 →
        P (ms.foldl (fun (acc : QPythonExtracter × List QString) m =>
          if (!startsWith (m.captured 1) ['_']) = true then
            ({ acc.1 with
                m_classMembers := mmInsert acc.1.m_classMembers className (m.captured 1) },
             acc.2 ++ [m.captured 1])
          else acc) acc0) := by
      intro ms acc0 h0
      refine foldl_invariant P _ ?_ ms acc0 h0
      intro acc m hP
      dsimp only
      split_ifs
      · refine ⟨?_, ?_⟩
        · intro x hx
          dsimp only at hx ⊢
          rw [mem_mmInsert]
          rcases List.mem_append.1 hx with h | h
          · exact Or.inr (hP.1 x h)
          · rw [List.mem_singleton] at h
            rw [h]
            exact Or.inl rfl
        · intro x hx
          dsimp only
          rw [mem_mmInsert]
          exact Or.inr (hP.2 x hx)
      · exact hP
    have hP0 : P (st, []) := ⟨fun x hx => absurd hx (List.not_mem_nil x), fun x hx => hx⟩
    have hfin := h2 (globalMatch attrRegex classCode) _
      (h1 (globalMatch funcRegex classCode) (st, []) hP0)
    split_ifs at hr with hinit
    · subst hr
      dsimp only
      refine ⟨?_, ?_⟩
      · rw [mem_mmInsert]
        exact Or.inl rfl
      · intro x hx
        rw [mem_mmInsert]
        exact Or.inr (hfin.2 x hx)
    · subst hr
      refine ⟨inv _ hfin (Or.inl ?_), hfin.2⟩
      simpa using hinit
  exact key _ rfl

theorem foldl_establish {α β γ : Type} (g : β → List γ) (f : β → α → β) (t : α → γ)
    (cond : α → Prop)
    (hmono : ∀ acc m x, x ∈ g acc → x ∈ g (f acc m)) :
    ∀ (ms : List α), (∀ acc m, m ∈ ms → cond m → t m ∈ g (f acc m)) →
      ∀ m ∈ ms, cond m → ∀ acc0, t m ∈ g (ms.foldl f acc0) := by
  intro ms
  induction ms with
  | nil => intro _ m hm; exact absurd hm (List.not_mem_nil m)
  | cons a rest ih =>
    intro hest m hm hc acc0
    rw [List.foldl_cons]
    rcases List.mem_cons.1 hm with h | h
    · subst h
      exact foldl_invariant (fun acc => t m ∈ g acc) f (fun acc x hx => hmono acc x _ hx) rest _
        (hest acc0 m (List.mem_cons_self _ _) hc)
    · exact ih (fun acc x hx hcx => hest acc x (List.mem_cons_of_mem _ hx) hcx) m h hc _

theorem extractClasses_unguarded (st : QPythonExtracter) (code : QString)
    (symbols : List QString) :
    extractClasses st code symbols =
      (globalMatch classRegex code).foldl
        (fun (acc : QPythonExtracter × List QString) m =>
          if !startsWith (m.captured 1) ['_'] then
            ((extractClassMembers acc.1 (m.captured 1)
                ((code.drop m.start).take (findClassEnd code m.start - m.start)) []).1,
             acc.2 ++ [m.captured 1])
          else acc)
        (st, symbols) := by
  unfold extractClasses
  refine List.foldl_ext _ _ _ ?_
  intro acc m hm
  dsimp only
  obtain ⟨e, _, he, hlt, _⟩ := findClassEnd_after_start code m.start (classMatch_start_lt code m hm)
  have hgt : findClassEnd code m.start > m.start := by omega
  by_cases hu : (!startsWith (m.captured 1) ['_']) = true
  · rw [if_pos hu, if_pos hu, if_pos hgt]
  · rw [if_neg hu, if_neg hu]

theorem extractClasses_init (st : QPythonExtracter) (code : QString) (symbols : List QString)
    (m : RxMatch) (hm : m ∈ globalMatch classRegex code)
    (hu : startsWith (m.captured 1) ['_'] = false) :
    (m.captured 1, initName) ∈ (extractClasses st code symbols).1.m_classMembers := by
  rw [extractClasses_unguarded]
  refine foldl_establish (fun acc : QPythonExtracter × List QString => acc.1.m_classMembers) _
    (fun m => (m.captured 1, initName)) (fun m => startsWith (m.captured 1) ['_'] = false)
    ?_ (globalMatch classRegex code) ?_ m hm hu (st, symbols)
  · intro acc x y hy
    dsimp only at hy ⊢
    split_ifs
    · exact (extractClassMembers_entries acc.1 _ _).2 y hy
    · exact hy
  · intro acc x _ hx
    dsimp only at hx ⊢
    rw [hx]
    simp only [Bool.not_false, if_true]
    exact (extractClassMembers_entries acc.1 _ _).1

/-! ## Claims on lines, columns and the end of a class -/

/-- C29: for every text and position, `calculateLineAndColumn` yields the line
1 + the number of line feeds among the first min(p, length) characters and
the column 1 + the number of those characters after the last such line feed
(all of them when there is none); position 0 gives (1, 1), and a position
past the end gives the result of the position at the end. -/
theorem calculateLineAndColumn_counts (text : QString) (p k : Nat) :
    calculateLineAndColumn text p =
        (((1 + (text.take (min p text.length)).count '\n' : Nat) : Int),
         ((1 + lastLineLength (text.take (min p text.length)) : Nat) : Int)) ∧
      calculateLineAndColumn text 0 = (1, 1) ∧
      calculateLineAndColumn text (text.length + k) =
        calculateLineAndColumn text text.length := by
  have hmin : text.take (min p text.length) = text.take p := by
    rcases Nat.le_total p text.length with h | h
    · rw [Nat.min_eq_left h]
    · rw [Nat.min_eq_right h, List.take_of_length_le h, List.take_of_length_le (le_refl _)]
  refine ⟨?_, rfl, ?_⟩
  · rw [hmin]
    exact calculateLineAndColumn_eq text p
  · unfold calculateLineAndColumn
    rw [List.take_of_length_le (Nat.le_add_right _ _), List.take_of_length_le (le_refl _)]

/-- C30: for a start offset inside the text, `findClassEnd` returns (its loop
ends within the iterations it is given) an offset e with s < e <= length
that is the length of the text or follows a line feed; hence the guard
`endPos > classPos` of `extractClasses` holds at every class header, the
members of every class whose name has no leading underscore are extracted,
and such a class has the member `__init__`. -/
theorem findClassEnd_past_header (code : QString) (s : Nat) (hs : s < code.length) :
    (∃ e, findClassEndRun code s = some e ∧ findClassEnd code s = e ∧ s < e ∧
        e ≤ code.length ∧ (e = code.length ∨ code.get? (e - 1) = some '\n')) ∧
      (∀ m ∈ globalMatch classRegex code, findClassEnd code m.start > m.start) ∧
      (∀ (st : QPythonExtracter) (symbols : List QString),
        extractClasses st code symbols =
          (globalMatch classRegex code).foldl
            (fun (acc : QPythonExtracter × List QString) m =>
              if !startsWith (m.captured 1) ['_'] then
                ((extractClassMembers acc.1 (m.captured 1)
                    ((code.drop m.start).take (findClassEnd code m.start - m.start)) []).1,
                 acc.2 ++ [m.captured 1])
              else acc)
            (st, symbols) ∧
        ∀ m ∈ globalMatch classRegex code, startsWith (m.captured 1) ['_'] = false →
          (m.captured 1, initName) ∈ (extractClasses st code symbols).1.m_classMembers) := by
  refine ⟨findClassEnd_after_start code s hs, ?_, ?_⟩
  · intro m hm
    obtain ⟨e, _, he, hlt, _⟩ :=
      findClassEnd_after_start code m.start (classMatch_start_lt code m hm)
    omega
  · intro st symbols
    exact ⟨extractClasses_unguarded st code symbols,
      fun m hm hu => extractClasses_init st code symbols m hm hu⟩

set_option maxRecDepth 200000 in
/-- Witness of C30: the class `A` of a two-line text, from offset 0. -/
theorem findClassEnd_past_header_witness :
    0 < ("class A:\n    x = 1\ny = 2\n".toList).length ∧
      ∃ e, findClassEndRun "class A:\n    x = 1\ny = 2\n".toList 0 = some e ∧
        findClassEnd "class A:\n    x = 1\ny = 2\n".toList 0 = e ∧ 0 < e ∧
        e ≤ ("class A:\n    x = 1\ny = 2\n".toList).length ∧
        (e = ("class A:\n    x = 1\ny = 2\n".toList).length ∨
          ("class A:\n    x = 1\ny = 2\n".toList).get? (e - 1) = some '\n') :=
  ⟨by decide, (findClassEnd_past_header "class A:\n    x = 1\ny = 2\n".toList 0 (by decide)).1⟩

/-! ## Lemmas: no pattern matches in a blank text -/

theorem Rx.reaches_consumesOutside (ws : List Char) : ∀ (r : Rx) (s e : MatchState),
    r.consumesOutside ws = true → r.Reaches s e → ∃ c ∈ s.rest, c ∉ ws := by
  intro r
  induction r with
  | chr p =>
    intro s e hb h
    obtain ⟨c, cs, hr, hp, _⟩ := h
    simp only [Rx.consumesOutside, List.all_eq_true] at hb
    refine ⟨c, by rw [hr]; exact List.mem_cons_self _ _, ?_⟩
    intro hc
    have := hb c hc
    rw [hp] at this
    simp at this
  | star p => intro s e hb; simp [Rx.consumesOutside] at hb
  | seq a b iha ihb =>
    intro s e hb h
    simp only [Rx.consumesOutside, Bool.or_eq_true] at hb
    obtain ⟨mid, h1, h2⟩ := h
    rcases hb with hb | hb
    · exact iha s mid hb h1
    · obtain ⟨c, hc, hn⟩ := ihb mid e hb h2
      obtain ⟨consumed, hr, _, _⟩ := Rx.reaches_consumes a s mid h1
      exact ⟨c, by rw [hr]; exact List.mem_append_right _ hc, hn⟩
  | opt a _ => intro s e hb; simp [Rx.consumesOutside] at hb
  | cap i a iha =>
    intro s e hb h
    simp only [Rx.consumesOutside] at hb
    obtain ⟨e1, h1, _⟩ := h
    exact iha s e1 hb h1
  | bol => intro s e hb; simp [Rx.consumesOutside] at hb
  | wordB => intro s e hb; simp [Rx.consumesOutside] at hb
  | notAhead a _ => intro s e hb; simp [Rx.consumesOutside] at hb
  | eps => intro s e hb; simp [Rx.consumesOutside] at hb

theorem globalMatch_blank (ws : List Char) (r : Rx) (code : QString)
    (hr : r.consumesOutside ws = true) (hc : ∀ c ∈ code, c ∈ ws) :
    globalMatch r code = [] := by
  rw [List.eq_nil_iff_forall_not_mem]
  intro m hm
  obtain ⟨q, pre, tail, e, hcode, he, _⟩ := globalMatch_reaches r code m hm
  obtain ⟨c, hmem, hn⟩ := Rx.reaches_consumesOutside ws r _ e hr he
  exact hn (hc c (by rw [hcode]; exact List.mem_append_right _ hmem))

theorem keywordRegex_consumesOutside :
    ∀ kw ∈ pythonKeywords, (keywordRegex kw).consumesOutside blankChars = true := by
  decide

theorem foldl_invariant_mem {α β : Type} (P : β → Prop) (f : β → α → β) :
    ∀ (ms : List α), (∀ acc, ∀ m ∈ ms, P acc → P (f acc m)) →
      ∀ (acc0 : β), P acc0 → P (ms.foldl f acc0) := by
  intro ms
  induction ms with
  | nil => intro _ acc0 h; exact h
  | cons m t ih =>
    intro hf acc0 h
    exact ih (fun acc x hx => hf acc x (List.mem_cons_of_mem _ hx)) (f acc0 m)
      (hf acc0 m (List.mem_cons_self _ _) h)

theorem collectedSymbols_blank (code : QString) (hc : ∀ c ∈ code, c ∈ blankChars) :
    collectedSymbols pythonKeywords code = pythonKeywords := by
  unfold collectedSymbols classSymbols functionSymbols variableSymbols attributeSymbols
    importSymbols fromImportSymbols
  rw [globalMatch_blank blankChars classRegex code rfl hc,
    globalMatch_blank blankChars funcRegex code rfl hc,
    globalMatch_blank blankChars varRegex code rfl hc,
    globalMatch_blank blankChars attrRegex code rfl hc,
    globalMatch_blank blankChars importRegex code rfl hc,
    globalMatch_blank blankChars fromImportRegex code rfl hc]
  simp

theorem extractSymbolPositions_blank (st : QPythonExtracter) (code : QString)
    (hk : st.m_pythonKeywords = pythonKeywords) (hc : ∀ c ∈ code, c ∈ blankChars) :
    (extractSymbolPositions st code).m_symbolsInfo = [] := by
  unfold extractSymbolPositions fromImportPositions importPositions attributePositions
    variablePositions functionPositions classPositions
  dsimp only
  rw [globalMatch_blank blankChars classRegex code rfl hc,
    globalMatch_blank blankChars funcRegex code rfl hc,
    globalMatch_blank blankChars varRegex code rfl hc,
    globalMatch_blank blankChars attrRegex code rfl hc,
    globalMatch_blank blankChars importRegex code rfl hc,
    globalMatch_blank blankChars fromImportRegex code rfl hc]
  simp only [List.foldl_nil]
  rw [hk]
  refine foldl_invariant_mem (fun acc : List SymbolInfo => acc = []) _ pythonKeywords ?_ [] rfl
  intro acc kw hkw hacc
  unfold keywordPositions
  rw [globalMatch_blank blankChars (keywordRegex kw) code
    (keywordRegex_consumesOutside kw hkw) hc]
  exact hacc


theorem isEmpty_false_of_ne (code : QString) (h : code ≠ []) : code.isEmpty = false := by
  cases code with
  | nil => exact absurd rfl h
  | cons c cs => rfl

theorem extractSymbols_state_symbols (st : QPythonExtracter) (code : QString) :
    (extractSymbols st code).state.m_symbols =
      if code.isEmpty then st.m_symbols else (extractSymbols st code).symbols := by
  unfold extractSymbols
  cases code with
  | nil => rfl
  | cons c cs => rfl

theorem extractSymbols_positions (st : QPythonExtracter) (code : QString) (h : code ≠ []) :
    ∃ st5 : QPythonExtracter, st5.m_pythonKeywords = st.m_pythonKeywords ∧
      (extractSymbols st code).state.m_symbolsInfo =
        (extractSymbolPositions st5 code).m_symbolsInfo := by
  unfold extractSymbols
  simp only [isEmpty_false_of_ne code h]
  refine ⟨_, ?_, rfl⟩
  rw [extractObjectTypes_keywords, extractFunctions_keywords, extractClasses_keywords]

/-- The sorted keyword list: what a text without any name yields. -/
theorem qSort_pythonKeywords :
    qSort (removeDuplicates pythonKeywords) =
      ["False", "None", "True", "and", "as", "assert", "async", "await", "break",
       "class", "continue", "def", "del", "elif", "else", "except", "finally", "for",
       "from", "global", "if", "import", "in", "is", "lambda", "nonlocal", "not", "or",
       "pass", "raise", "return", "try", "while", "with", "yield"].map String.toList := by
  decide

/-! ## Lemmas: the rebuilt state does not depend on the state before -/

theorem foldl_rel {α β : Type} (R : β → β → Prop) (f : β → α → β)
    (hf : ∀ a b m, R a b → R (f a m) (f b m)) :
    ∀ (ms : List α) (a b : β), R a b → R (ms.foldl f a) (ms.foldl f b) := by
  intro ms
  induction ms with
  | nil => intro a b h; exact h
  | cons m t ih =>
    intro a b h
    exact ih (f a m) (f b m) (hf a b m h)

theorem extractClassMembers_last_same (className : QString)
    (x y : QPythonExtracter × List QString) (h : SameCore x.1 y.1 ∧ x.2 = y.2) :
    SameCore
        (if (!x.2.any (fun s => s == initName)) = true then
          ({ x.1 with m_classMembers := mmInsert x.1.m_classMembers className initName },
           x.2 ++ [initName])
        else x).1
        (if (!y.2.any (fun s => s == initName)) = true then
          ({ y.1 with m_classMembers := mmInsert y.1.m_classMembers className initName },
           y.2 ++ [initName])
        else y).1 ∧
      (if (!x.2.any (fun s => s == initName)) = true then
          ({ x.1 with m_classMembers := mmInsert x.1.m_classMembers className initName },
           x.2 ++ [initName])
        else x).2 =
        (if (!y.2.any (fun s => s == initName)) = true then
          ({ y.1 with m_classMembers := mmInsert y.1.m_classMembers className initName },
           y.2 ++ [initName])
        else y).2 := by
  obtain ⟨⟨k1, k2, k3, k4⟩, k5⟩ := h
  rw [k5]
  split_ifs
  · refine ⟨⟨k1, k2, ?_, k4⟩, rfl⟩
    show mmInsert _ _ _ = mmInsert _ _ _
    rw [k3]
  · exact ⟨⟨k1, k2, k3, k4⟩, k5⟩

theorem extractClassMembers_same (a b : QPythonExtracter) (className classCode : QString)
    (members : List QString) (h : SameCore a b) :
    SameCore (extractClassMembers a className classCode members).1
      (extractClassMembers b className classCode members).1 := by
  let R : QPythonExtracter × List QString → QPythonExtracter × List QString → Prop :=
    fun x y => SameCore x.1 y.1 ∧ x.2 = y.2
  have key : R (extractClassMembers a className classCode members)
      (extractClassMembers b className classCode members) := by
    unfold extractClassMembers
    dsimp only
    have h1 : ∀ (ms : List RxMatch) (x y : QPythonExtracter × List QString), R x y →
        R (ms.foldl (fun (acc : QPythonExtracter × List QString) m =>
            if (!startsWith (m.captured 1) ['_'] || m.captured 1 == initName) = true then
              ({ acc.1 with
                  m_classMembers := mmInsert acc.1.m_classMembers className (m.captured 1),
                  m_functionParameters :=
                    qmapSet acc.1.m_functionParameters (className ++ ['.'] ++ m.captured 1)
                      (trimmed (m.captured 2)) },
               acc.2 ++ [m.captured 1])
            else acc) x)
          (ms.foldl (fun (acc : QPythonExtracter × List QString) m =>
            if (!startsWith (m.captured 1) ['_'] || m.captured 1 == initName) = true then
              ({ acc.1 with
                  m_classMembers := mmInsert acc.1.m_classMembers className (m.captured 1),
                  m_functionParameters :=
                    qmapSet acc.1.m_functionParameters (className ++ ['.'] ++ m.captured 1)
                      (trimmed (m.captured 2)) },
               acc.2 ++ [m.captured 1])
            else acc) y) := by
      intro ms x y hxy
      refine foldl_rel R _ ?_ ms x y hxy
      intro x y m hxy
      dsimp only
      split_ifs
      · obtain ⟨⟨k1, k2, k3, k4⟩, k5⟩ := hxy
        refine ⟨⟨k1, k2, ?_, k4⟩, ?_⟩
        · show mmInsert x.1.m_classMembers _ _ = mmInsert y.1.m_classMembers _ _
          rw [k3]
        · show x.2 ++ _ = y.2 ++ _
          rw [k5]
      · exact hxy
    have h2 : ∀ (ms : List RxMatch) (x y : QPythonExtracter × List QString), R x y →
        R (ms.foldl (fun (acc : QPythonExtracter × List QString) m =>
            if (!startsWith (m.captured 1) ['_']) = true then
              ({ acc.1 with
                  m_classMembers := mmInsert acc.1.m_classMembers className (m.captured 1) },
               acc.2 ++ [m.captured 1])
            else acc) x)
          (ms.foldl (fun (acc : QPythonExtracter × List QString) m =>
            if (!startsWith (m.captured 1) ['_']) = true then
              ({ acc.1 with
                  m_classMembers := mmInsert acc.1.m_classMembers className (m.captured 1) },
               acc.2 ++ [m.captured 1])
            else acc) y) := by
      intro ms x y hxy
      refine foldl_rel R _ ?_ ms x y hxy
      intro x y m hxy
      dsimp only
      split_ifs
      · obtain ⟨⟨k1, k2, k3, k4⟩, k5⟩ := hxy
        refine ⟨⟨k1, k2, ?_, k4⟩, ?_⟩
        · show mmInsert x.1.m_classMembers _ _ = mmInsert y.1.m_classMembers _ _
          rw [k3]
        · show x.2 ++ _ = y.2 ++ _
          rw [k5]
      · exact hxy
    have hfin := h2 (globalMatch attrRegex classCode) _ _
      (h1 (globalMatch funcRegex classCode) (a, members) (b, members) ⟨h, rfl⟩)
    exact extractClassMembers_last_same className _ _ hfin
  exact key.1

theorem extractClasses_same (a b : QPythonExtracter) (code : QString) (symbols : List QString)
    (h : SameCore a b) :
    SameCore (extractClasses a code symbols).1 (extractClasses b code symbols).1 := by
  unfold extractClasses
  refine foldl_rel
    (fun (x y : QPythonExtracter × List QString) => SameCore x.1 y.1) _ ?_ _ _ _ h
  intro x y m hxy
  dsimp only
  split_ifs
  · exact extractClassMembers_same _ _ _ _ _ hxy
  · exact hxy
  · exact hxy

theorem extractFunctions_same (a b : QPythonExtracter) (code : QString)
    (sa sb : List QString) (h : SameCore a b) :
    SameCore (extractFunctions a code sa).1 (extractFunctions b code sb).1 := by
  unfold extractFunctions
  refine foldl_rel
    (fun (x y : QPythonExtracter × List QString) => SameCore x.1 y.1) _ ?_ _ _ _ h
  intro x y m hxy
  dsimp only
  split_ifs
  · exact hxy
  · exact hxy

theorem extractObjectTypes_same (a b : QPythonExtracter) (code : QString) (h : SameCore a b) :
    SameCore (extractObjectTypes a code) (extractObjectTypes b code) := by
  unfold extractObjectTypes
  dsimp only
  refine foldl_rel SameCore _ ?_ _ _ _ (foldl_rel SameCore _ ?_ _ _ _
    (foldl_rel SameCore _ ?_ _ _ _ h))
  · intro x y m hxy
    obtain ⟨k1, k2, k3, k4⟩ := hxy
    rw [k3]
    split_ifs
    · exact ⟨k1, k2, rfl, k4⟩
    · exact ⟨k1, k2, k3, k4⟩
  · intro x y m hxy
    obtain ⟨k1, k2, k3, k4⟩ := hxy
    split_ifs
    · refine ⟨k1, k2, ?_, k4⟩
      show mmInsert _ _ _ = mmInsert _ _ _
      rw [k3]
    · exact ⟨k1, k2, k3, k4⟩
  · intro x y m hxy
    obtain ⟨k1, k2, k3, k4⟩ := hxy
    split_ifs
    · refine ⟨k1, ?_, k3, k4⟩
      show qmapSet _ _ _ = qmapSet _ _ _
      rw [k2]
    · exact ⟨k1, k2, k3, k4⟩

theorem extractSymbolPositions_same (a b : QPythonExtracter) (code : QString)
    (h : SameCore a b) :
    SameCore (extractSymbolPositions a code) (extractSymbolPositions b code) := by
  obtain ⟨k1, k2, k3, _⟩ := h
  unfold extractSymbolPositions
  dsimp only
  rw [k1]
  exact ⟨rfl, k2, k3, rfl⟩

theorem extractSymbols_same (a b : QPythonExtracter) (code : QString) (h : code ≠ [])
    (hk : a.m_pythonKeywords = b.m_pythonKeywords) :
    (extractSymbols a code).symbols = (extractSymbols b code).symbols ∧
      (extractSymbols a code).state.m_symbols = (extractSymbols b code).state.m_symbols ∧
      SameCore (extractSymbols a code).state (extractSymbols b code).state := by
  have hs : (extractSymbols a code).symbols = (extractSymbols b code).symbols := by
    rw [extractSymbols_collected a code h, extractSymbols_collected b code h, hk]
  refine ⟨hs, ?_, ?_⟩
  · rw [extractSymbols_state_symbols, extractSymbols_state_symbols,
      isEmpty_false_of_ne code h]
    exact hs
  · unfold extractSymbols
    simp only [isEmpty_false_of_ne code h]
    have core : SameCore
        (extractSymbolPositions (extractObjectTypes (extractFunctions (extractClasses
          { a with m_objectTypes := [], m_classMembers := [], m_symbolsInfo := [] } code
          a.m_pythonKeywords).1 code (extractClasses
          { a with m_objectTypes := [], m_classMembers := [], m_symbolsInfo := [] } code
          a.m_pythonKeywords).2).1 code) code)
        (extractSymbolPositions (extractObjectTypes (extractFunctions (extractClasses
          { b with m_objectTypes := [], m_classMembers := [], m_symbolsInfo := [] } code
          b.m_pythonKeywords).1 code (extractClasses
          { b with m_objectTypes := [], m_classMembers := [], m_symbolsInfo := [] } code
          b.m_pythonKeywords).2).1 code) code) := by
      refine extractSymbolPositions_same _ _ code (extractObjectTypes_same _ _ code
        (extractFunctions_same _ _ code _ _ ?_))
      rw [hk]
      exact extractClasses_same _ _ code _ ⟨rfl, rfl, rfl, rfl⟩
    exact core

/-! ## Lemmas: the function-parameters map -/

theorem applyAssignments_append (a b m : Entries) :
    applyAssignments (a ++ b) m = applyAssignments b (applyAssignments a m) := by
  unfold applyAssignments
  rw [List.foldl_append]

theorem foldl_applies {α β : Type} (proj : β → Entries) (g : α → Entries) (f : β → α → β)
    (hf : ∀ acc m, proj (f acc m) = applyAssignments (g m) (proj acc)) :
    ∀ (ms : List α) (acc0 : β),
      proj (ms.foldl f acc0) = applyAssignments (ms.flatMap g) (proj acc0) := by
  intro ms
  induction ms with
  | nil => intro acc0; rfl
  | cons m t ih =>
    intro acc0
    rw [List.foldl_cons, ih, hf, List.flatMap_cons, applyAssignments_append]

theorem extractClassMembers_params (st : QPythonExtracter) (className classCode : QString)
    (members : List QString) :
    (extractClassMembers st className classCode members).1.m_functionParameters =
      applyAssignments (methodAssignments className classCode) st.m_functionParameters := by
  have h1 : ∀ (ms : List RxMatch) (acc0 : QPythonExtracter × List QString),
      (ms.foldl (fun (acc : QPythonExtracter × List QString) m =>
        if (!startsWith (m.captured 1) ['_'] || m.captured 1 == initName) = true then
          ({ acc.1 with
              m_classMembers := mmInsert acc.1.m_classMembers className (m.captured 1),
              m_functionParameters :=
                qmapSet acc.1.m_functionParameters (className ++ ['.'] ++ m.captured 1)
                  (trimmed (m.captured 2)) },
           acc.2 ++ [m.captured 1])
        else acc) acc0).1.m_functionParameters =
      applyAssignments (ms.flatMap (fun m =>
        if (!startsWith (m.captured 1) ['_'] || m.captured 1 == initName) = true then
          [(className ++ ['.'] ++ m.captured 1, trimmed (m.captured 2))]
        else [])) acc0.1.m_functionParameters := by
    intro ms acc0
    refine foldl_applies (fun x : QPythonExtracter × List QString => x.1.m_functionParameters)
      _ _ ?_ ms acc0
    intro acc m
    dsimp only
    split_ifs
    · rfl
    · rfl
  have h2 : ∀ (ms : List RxMatch) (acc0 : QPythonExtracter × List QString),
      (ms.foldl (fun (acc : QPythonExtracter × List QString) m =>
        if (!startsWith (m.captured 1) ['_']) = true then
          ({ acc.1 with
              m_classMembers := mmInsert acc.1.m_classMembers className (m.captured 1) },
           acc.2 ++ [m.captured 1])
        else acc) acc0).1.m_functionParameters = acc0.1.m_functionParameters := by
    intro ms acc0
    refine foldl_keeps (fun x : QPythonExtracter × List QString => x.1.m_functionParameters)
      _ ?_ ms acc0
    intro acc m
    dsimp only
    split_ifs
    · rfl
    · rfl
  unfold extractClassMembers methodAssignments
  dsimp only
  split_ifs
  · exact (h2 _ _).trans (h1 _ _)
  · exact (h2 _ _).trans (h1 _ _)

theorem extractClasses_params (st : QPythonExtracter) (code : QString)
    (symbols : List QString) :
    (extractClasses st code symbols).1.m_functionParameters =
      applyAssignments (classAssignments code) st.m_functionParameters := by
  unfold extractClasses classAssignments
  refine foldl_applies (fun x : QPythonExtracter × List QString => x.1.m_functionParameters)
    _ _ ?_ _ (st, symbols)
  intro acc m
  dsimp only
  split_ifs
  · exact extractClassMembers_params _ _ _ _
  · rfl
  · rfl

theorem extractFunctions_params (st : QPythonExtracter) (code : QString)
    (symbols : List QString) :
    (extractFunctions st code symbols).1.m_functionParameters =
      applyAssignments (functionAssignments code) st.m_functionParameters := by
  unfold extractFunctions functionAssignments
  refine foldl_applies (fun x : QPythonExtracter × List QString => x.1.m_functionParameters)
    _ _ ?_ _ (st, symbols)
  intro acc m
  dsimp only
  split_ifs
  · rfl
  · rfl

theorem extractObjectTypes_params (st : QPythonExtracter) (code : QString) :
    (extractObjectTypes st code).m_functionParameters = st.m_functionParameters := by
  unfold extractObjectTypes
  dsimp only
  rw [foldl_keeps (fun x : QPythonExtracter => x.m_functionParameters),
    foldl_keeps (fun x : QPythonExtracter => x.m_functionParameters),
    foldl_keeps (fun x : QPythonExtracter => x.m_functionParameters)]
  · intro acc m
    dsimp only
    split_ifs <;> rfl
  · intro acc m
    dsimp only
    split_ifs <;> rfl
  · intro acc m
    dsimp only
    split_ifs <;> rfl

theorem extractSymbols_params (st : QPythonExtracter) (code : QString) (h : code ≠ []) :
    (extractSymbols st code).state.m_functionParameters =
      applyAssignments (parameterAssignments code) st.m_functionParameters := by
  unfold extractSymbols parameterAssignments
  simp only [isEmpty_false_of_ne code h]
  show (extractObjectTypes _ code).m_functionParameters = _
  rw [extractObjectTypes_params, extractFunctions_params, extractClasses_params,
    applyAssignments_append]

theorem qmapFind_cons_eq (x v0 : QString) (t : Entries) :
    qmapFind ((x, v0) :: t) x = some v0 := by
  simp [qmapFind]

theorem qmapFind_cons_ne (k0 v0 x : QString) (t : Entries) (h : k0 ≠ x) :
    qmapFind ((k0, v0) :: t) x = qmapFind t x := by
  have hb : ((k0, v0).1 == x) = false := by simpa using h
  unfold qmapFind
  rw [List.find?_cons, hb]

theorem qmapFind_qmapSet (k v x : QString) : ∀ (m : Entries),
    qmapFind (qmapSet m k v) x = if x = k then some v else qmapFind m x := by
  intro m
  induction m with
  | nil =>
    simp only [qmapSet]
    by_cases hx : x = k
    · subst hx
      rw [qmapFind_cons_eq, if_pos rfl]
    · rw [qmapFind_cons_ne k v x [] (fun e => hx e.symm), if_neg hx]
  | cons p t ih =>
    obtain ⟨k0, v0⟩ := p
    simp only [qmapSet]
    by_cases h1 : (k == k0) = true
    · have e1 : k = k0 := by simpa using h1
      subst e1
      rw [if_pos h1]
      by_cases hx : x = k
      · subst hx
        rw [qmapFind_cons_eq, if_pos rfl]
      · rw [qmapFind_cons_ne k v x t (fun e => hx e.symm), if_neg hx,
          qmapFind_cons_ne k v0 x t (fun e => hx e.symm)]
    · have e1 : ¬ k = k0 := by simpa using h1
      rw [if_neg h1]
      by_cases h2 : qstrLt k k0 = true
      · rw [if_pos h2]
        by_cases hx : x = k
        · subst hx
          rw [qmapFind_cons_eq, if_pos rfl]
        · rw [qmapFind_cons_ne k v x _ (fun e => hx e.symm), if_neg hx]
      · rw [if_neg h2]
        by_cases hx0 : k0 = x
        · subst hx0
          rw [qmapFind_cons_eq, qmapFind_cons_eq, if_neg (fun e => e1 e.symm)]
        · rw [qmapFind_cons_ne k0 v0 x _ hx0, qmapFind_cons_ne k0 v0 x _ hx0, ih]

theorem mem_qmapSet (k v : QString) (b : QString × QString) : ∀ (m : Entries),
    b ∈ qmapSet m k v → b = (k, v) ∨ b ∈ m := by
  intro m
  induction m with
  | nil =>
    intro h
    simp only [qmapSet, List.mem_singleton] at h
    exact Or.inl h
  | cons p t ih =>
    obtain ⟨k0, v0⟩ := p
    intro h
    simp only [qmapSet] at h
    split_ifs at h
    · rcases List.mem_cons.1 h with h | h
      · exact Or.inl h
      · exact Or.inr (List.mem_cons_of_mem _ h)
    · rcases List.mem_cons.1 h with h | h
      · exact Or.inl h
      · exact Or.inr h
    · rcases List.mem_cons.1 h with h | h
      · exact Or.inr (by rw [h]; exact List.mem_cons_self _ _)
      · rcases ih h with h | h
        · exact Or.inl h
        · exact Or.inr (List.mem_cons_of_mem _ h)

theorem qmapSet_strictKeys (k v : QString) : ∀ (m : Entries),
    StrictKeys m → StrictKeys (qmapSet m k v) := by
  intro m
  induction m with
  | nil =>
    intro _
    simp [qmapSet, StrictKeys]
  | cons p t ih =>
    obtain ⟨k0, v0⟩ := p
    intro hm
    have hm2 := List.pairwise_cons.1 hm
    simp only [qmapSet]
    by_cases h1 : (k == k0) = true
    · have e1 : k = k0 := by simpa using h1
      subst e1
      rw [if_pos h1]
      exact List.pairwise_cons.2 ⟨fun b hb => hm2.1 b hb, hm2.2⟩
    · have e1 : ¬ k = k0 := by simpa using h1
      rw [if_neg h1]
      by_cases h2 : qstrLt k k0 = true
      · rw [if_pos h2]
        refine List.pairwise_cons.2 ⟨?_, hm⟩
        intro b hb
        rcases List.mem_cons.1 hb with h | h
        · rw [h]; exact h2
        · exact qstrLt_trans k k0 b.1 h2 (hm2.1 b h)
      · rw [if_neg h2]
        refine List.pairwise_cons.2 ⟨?_, ih hm2.2⟩
        intro b hb
        rcases mem_qmapSet k v b t hb with h | h
        · rw [h]
          show qstrLt k0 k = true
          cases h3 : qstrLt k0 k with
          | true => rfl
          | false =>
            exact absurd (qstrLt_trichotomy k k0 (by simpa using h2) h3) e1
        · exact hm2.1 b h

theorem applyAssignments_strictKeys : ∀ (assignments m : Entries),
    StrictKeys m → StrictKeys (applyAssignments assignments m) := by
  intro assignments
  induction assignments with
  | nil => intro m h; exact h
  | cons p t ih =>
    intro m h
    exact ih _ (qmapSet_strictKeys p.1 p.2 m h)

theorem qmapFind_none_of_lt (x : QString) : ∀ (m : Entries),
    (∀ b ∈ m, qstrLt x b.1 = true) → qmapFind m x = none := by
  intro m h
  unfold qmapFind
  rw [Option.map_eq_none', List.find?_eq_none]
  intro b hb
  have := h b hb
  intro he
  have e1 : b.1 = x := by simpa using he
  rw [e1, qstrLt_irrefl] at this
  exact absurd this (by simp)

theorem strictKeys_ext : ∀ (m1 m2 : Entries), StrictKeys m1 → StrictKeys m2 →
    (∀ x, qmapFind m1 x = qmapFind m2 x) → m1 = m2 := by
  intro m1
  induction m1 with
  | nil =>
    intro m2 _ _ h
    cases m2 with
    | nil => rfl
    | cons q t =>
      have := h q.1
      rw [qmapFind_cons_eq] at this
      simp [qmapFind] at this
  | cons p t ih =>
    intro m2 h1 h2 h
    obtain ⟨k1, v1⟩ := p
    cases m2 with
    | nil =>
      have := h k1
      rw [qmapFind_cons_eq] at this
      simp [qmapFind] at this
    | cons q u =>
      obtain ⟨k2, v2⟩ := q
      have p1 := List.pairwise_cons.1 h1
      have p2 := List.pairwise_cons.1 h2
      have hk : k1 = k2 := by
        apply qstrLt_trichotomy
        · cases h3 : qstrLt k1 k2 with
          | false => rfl
          | true =>
            have := h k1
            rw [qmapFind_cons_eq, qmapFind_none_of_lt k1 ((k2, v2) :: u)] at this
            · simp at this
            · intro b hb
              rcases List.mem_cons.1 hb with e | e
              · rw [e]; exact h3
              · exact qstrLt_trans k1 k2 b.1 h3 (p2.1 b e)
        · cases h3 : qstrLt k2 k1 with
          | false => rfl
          | true =>
            have := h k2
            rw [qmapFind_cons_eq, qmapFind_none_of_lt k2 ((k1, v1) :: t)] at this
            · simp at this
            · intro b hb
              rcases List.mem_cons.1 hb with e | e
              · rw [e]; exact h3
              · exact qstrLt_trans k2 k1 b.1 h3 (p1.1 b e)
      subst hk
      have hv : v1 = v2 := by
        have := h k1
        rw [qmapFind_cons_eq, qmapFind_cons_eq] at this
        exact Option.some.inj this
      subst hv
      have ht : t = u := by
        apply ih u p1.2 p2.2
        intro x
        by_cases hx : k1 = x
        · subst hx
          rw [qmapFind_none_of_lt k1 t p1.1, qmapFind_none_of_lt k1 u p2.1]
        · have := h x
          rw [qmapFind_cons_ne k1 v1 x t hx, qmapFind_cons_ne k1 v1 x u hx] at this
          exact this
      rw [ht]

theorem qmapFind_applyAssignments (x : QString) : ∀ (assignments m : Entries),
    qmapFind (applyAssignments assignments m) x =
      (match qmapFind assignments.reverse x with
        | some v => some v
        | none => qmapFind m x) := by
  intro assignments
  induction assignments using List.reverseRecOn with
  | nil => intro m; rfl
  | append_singleton t p ih =>
    intro m
    obtain ⟨k, v⟩ := p
    rw [applyAssignments_append, List.reverse_append]
    show qmapFind (qmapSet (applyAssignments t m) k v) x = _
    rw [qmapFind_qmapSet, ih]
    by_cases hx : x = k
    · subst hx
      rw [if_pos rfl]
      show _ = match qmapFind ((x, v) :: t.reverse) x with
        | some v => some v
        | none => qmapFind m x
      rw [qmapFind_cons_eq]
    · rw [if_neg hx]
      show _ = match qmapFind ((k, v) :: t.reverse) x with
        | some v => some v
        | none => qmapFind m x
      rw [qmapFind_cons_ne k v x _ (fun e => hx e.symm)]

theorem applyAssignments_idempotent (assignments m : Entries) (h : StrictKeys m) :
    applyAssignments assignments (applyAssignments assignments m) =
      applyAssignments assignments m := by
  apply strictKeys_ext
  · exact applyAssignments_strictKeys _ _ (applyAssignments_strictKeys _ _ h)
  · exact applyAssignments_strictKeys _ _ h
  · intro x
    rw [qmapFind_applyAssignments x assignments (applyAssignments assignments m),
      qmapFind_applyAssignments x assignments m]
    cases qmapFind assignments.reverse x with
    | some v => rfl
    | none => rfl

/-! ## Claims on repeated extraction, blank texts and notifications -/

theorem extracter_ext (a b : QPythonExtracter) (h1 : a.m_symbols = b.m_symbols)
    (h2 : SameCore a b) (h3 : a.m_functionParameters = b.m_functionParameters) : a = b := by
  obtain ⟨k1, k2, k3, k4⟩ := h2
  cases a
  cases b
  simp only at h1 k1 k2 k3 k4 h3
  subst h1 k1 k2 k3 k4 h3
  rfl

/-- C21: for every text and every prior state (whose function-parameters map
is a map: its keys increase strictly), a second call of `extractSymbols` on
the same text returns the same symbol sequence as the first and leaves the
state of the first: symbol sequence, position list, object-type map,
class-members map and function-parameters map. -/
theorem extractSymbols_twice (st : QPythonExtracter) (code : QString)
    (h : StrictKeys st.m_functionParameters) :
    (extractSymbols (extractSymbols st code).state code).symbols =
        (extractSymbols st code).symbols ∧
      (extractSymbols (extractSymbols st code).state code).state =
        (extractSymbols st code).state := by
  by_cases hc : code = []
  · subst hc
    exact ⟨rfl, rfl⟩
  · have hk := extractSymbols_keywords st code
    obtain ⟨e1, e2, e3⟩ := extractSymbols_same (extractSymbols st code).state st code hc hk
    refine ⟨e1, extracter_ext _ _ e2 e3 ?_⟩
    rw [extractSymbols_params _ code hc, extractSymbols_params st code hc]
    exact applyAssignments_idempotent _ _ h

/-- Witness of C21: a function definition on a new extractor. -/
theorem extractSymbols_twice_witness :
    StrictKeys QPythonExtracter.new.m_functionParameters ∧
      (extractSymbols (extractSymbols QPythonExtracter.new "def f(a):\n    pass\n".toList).state
          "def f(a):\n    pass\n".toList).state =
        (extractSymbols QPythonExtracter.new "def f(a):\n    pass\n".toList).state :=
  ⟨List.Pairwise.nil,
    (extractSymbols_twice QPythonExtracter.new "def f(a):\n    pass\n".toList
      List.Pairwise.nil).2⟩

set_option maxRecDepth 200000 in
/-- C22, the claim as stated fails: the parameters of the function `f` of a
first text stay in the function-parameters map after a second text without
any function, where a new extractor has none; and after an empty second text
the symbols of the first text stay stored. -/
theorem extractSymbols_keeps_earlier_state :
    (extractSymbols (extractSymbols QPythonExtracter.new "def f(a):\n    pass\n".toList).state
        "x = 1".toList).state.m_functionParameters = [("f".toList, "a".toList)] ∧
      (extractSymbols QPythonExtracter.new "x = 1".toList).state.m_functionParameters = [] ∧
      (extractSymbols (extractSymbols QPythonExtracter.new "x = 1".toList).state
        []).state.m_symbols ≠ (extractSymbols QPythonExtracter.new []).state.m_symbols := by
  decide

/-- C22, amended: after `extractSymbols(t1)` and then `extractSymbols(t2)` with
a non-empty `t2`, the stored symbol sequence, the position list, the
object-type map and the class-members map are those of `extractSymbols(t2)`
on a newly constructed extractor; an empty `t2` leaves the state of the first
call as it is. -/
theorem extractSymbols_replaces_state (st : QPythonExtracter) (t1 t2 : QString)
    (hk : st.m_pythonKeywords = pythonKeywords) (h2 : t2 ≠ []) :
    (extractSymbols (extractSymbols st t1).state t2).state.m_symbols =
        (extractSymbols QPythonExtracter.new t2).state.m_symbols ∧
      (extractSymbols (extractSymbols st t1).state t2).state.m_symbolsInfo =
        (extractSymbols QPythonExtracter.new t2).state.m_symbolsInfo ∧
      (extractSymbols (extractSymbols st t1).state t2).state.m_objectTypes =
        (extractSymbols QPythonExtracter.new t2).state.m_objectTypes ∧
      (extractSymbols (extractSymbols st t1).state t2).state.m_classMembers =
        (extractSymbols QPythonExtracter.new t2).state.m_classMembers ∧
      (extractSymbols (extractSymbols st t1).state []).state = (extractSymbols st t1).state := by
  have hk1 : (extractSymbols st t1).state.m_pythonKeywords =
      QPythonExtracter.new.m_pythonKeywords := by
    rw [extractSymbols_keywords, hk]
    rfl
  obtain ⟨_, e2, _, e4, e5, e6⟩ :=
    extractSymbols_same (extractSymbols st t1).state QPythonExtracter.new t2 h2 hk1
  exact ⟨e2, e6, e4, e5, rfl⟩

/-- Witness of C22: a function definition, then an assignment. -/
theorem extractSymbols_replaces_state_witness :
    QPythonExtracter.new.m_pythonKeywords = pythonKeywords ∧ "x = 1".toList ≠ [] ∧
      (extractSymbols (extractSymbols QPythonExtracter.new "def f(a):\n    pass\n".toList).state
          "x = 1".toList).state.m_symbolsInfo =
        (extractSymbols QPythonExtracter.new "x = 1".toList).state.m_symbolsInfo :=
  ⟨rfl, by decide,
    (extractSymbols_replaces_state QPythonExtracter.new "def f(a):\n    pass\n".toList
      "x = 1".toList rfl (by decide)).2.1⟩

set_option maxRecDepth 200000 in
/-- C23, the claim as stated fails: on the text of one space a new extractor
returns its 35 keywords, and an empty text after the text `x = 1` leaves the
position list of that text. -/
theorem blank_text_yields_keywords :
    (extractSymbols QPythonExtracter.new [' ']).symbols.length = 35 ∧
      (extractSymbols (extractSymbols QPythonExtracter.new "x = 1".toList).state
        []).state.m_symbolsInfo ≠ [] := by
  decide

/-- C23, amended: on a non-empty text of spaces, tabs and line feeds only,
`extractSymbols` returns the sorted keyword list and leaves an empty position
list; on the empty text it returns the empty sequence and leaves the state,
its position list included, as it was. -/
theorem extractSymbols_blank (st : QPythonExtracter) (code : QString)
    (hk : st.m_pythonKeywords = pythonKeywords) (hc : ∀ c ∈ code, c ∈ blankChars) :
    (code ≠ [] →
        (extractSymbols st code).symbols =
          ["False", "None", "True", "and", "as", "assert", "async", "await", "break",
           "class", "continue", "def", "del", "elif", "else", "except", "finally", "for",
           "from", "global", "if", "import", "in", "is", "lambda", "nonlocal", "not", "or",
           "pass", "raise", "return", "try", "while", "with", "yield"].map String.toList ∧
        (extractSymbols st code).state.m_symbolsInfo = []) ∧
      (extractSymbols st []).symbols = [] ∧ (extractSymbols st []).state = st := by
  refine ⟨?_, rfl, rfl⟩
  intro hne
  constructor
  · rw [extractSymbols_collected st code hne, hk, collectedSymbols_blank code hc]
    exact qSort_pythonKeywords
  · obtain ⟨st5, h5, e5⟩ := extractSymbols_positions st code hne
    rw [e5]
    exact extractSymbolPositions_blank st5 code (h5.trans hk) hc

/-- Witness of C23: a space, a tab and a line feed on a new extractor. -/
theorem extractSymbols_blank_witness :
    QPythonExtracter.new.m_pythonKeywords = pythonKeywords ∧
      (∀ c ∈ " \t\n".toList, c ∈ blankChars) ∧
      (extractSymbols QPythonExtracter.new " \t\n".toList).state.m_symbolsInfo = [] :=
  ⟨rfl, by decide,
    ((extractSymbols_blank QPythonExtracter.new " \t\n".toList rfl (by decide)).1
      (by decide)).2⟩

/-- C24, the claim as stated fails: on the empty text `extractSymbols`
publishes no notification. -/
theorem extractSymbols_empty_emits_nothing :
    (extractSymbols QPythonExtracter.new []).emitted = [] ∧
      (extractSymbols QPythonExtracter.new []).emitted.length ≠ 2 :=
  ⟨rfl, by decide⟩

/-- C24, amended: on a non-empty text one call of `extractSymbols` publishes
exactly two notifications, first `symbolsUpdated` with the new symbol sequence
(the one returned and stored), then `symbolsInfoUpdated` with the new position
list; on the empty text it publishes none. -/
theorem extractSymbols_emitted (st : QPythonExtracter) (code : QString) (h : code ≠ []) :
    (extractSymbols st code).emitted =
        [Signal.symbolsUpdated (extractSymbols st code).symbols,
         Signal.symbolsInfoUpdated (extractSymbols st code).state.m_symbolsInfo] ∧
      (extractSymbols st code).symbols = (extractSymbols st code).state.m_symbols ∧
      (extractSymbols st []).emitted = [] := by
  unfold extractSymbols
  simp only [isEmpty_false_of_ne code h]
  exact ⟨rfl, rfl, rfl⟩

/-- Witness of C24: the text `x` on a new extractor. -/
theorem extractSymbols_emitted_witness :
    ['x'] ≠ [] ∧
      (extractSymbols QPythonExtracter.new ['x']).emitted =
        [Signal.symbolsUpdated (extractSymbols QPythonExtracter.new ['x']).symbols,
         Signal.symbolsInfoUpdated (extractSymbols QPythonExtracter.new ['x']).state.m_symbolsInfo] :=
  ⟨by decide, (extractSymbols_emitted QPythonExtracter.new ['x'] (by decide)).1⟩

/-! ## Lemmas: records lie in the text -/

theorem takeWhile_append_all {α : Type} (p : α → Bool) : ∀ (l1 l2 : List α),
    (∀ x ∈ l1, p x = true) → (l1 ++ l2).takeWhile p = l1 ++ l2.takeWhile p := by
  intro l1
  induction l1 with
  | nil => intro l2 _; rfl
  | cons a t ih =>
    intro l2 h
    rw [List.cons_append, List.takeWhile_cons, h a (List.mem_cons_self _ _)]
    simp only [if_true, List.cons_append]
    rw [ih l2 (fun x hx => h x (List.mem_cons_of_mem _ hx))]

theorem takeWhile_append_stop {α : Type} (p : α → Bool) : ∀ (l1 l2 : List α),
    (∃ x ∈ l1, p x = false) → (l1 ++ l2).takeWhile p = l1.takeWhile p := by
  intro l1
  induction l1 with
  | nil => intro l2 h; obtain ⟨x, hx, _⟩ := h; exact absurd hx (List.not_mem_nil x)
  | cons a t ih =>
    intro l2 h
    rw [List.cons_append, List.takeWhile_cons, List.takeWhile_cons]
    by_cases ha : p a = true
    · rw [ha]
      simp only [if_true]
      obtain ⟨x, hx, hpx⟩ := h
      rcases List.mem_cons.1 hx with e | e
      · rw [e, ha] at hpx
        exact absurd hpx (by simp)
      · rw [ih l2 ⟨x, e, hpx⟩]
    · have hf : p a = false := by simpa using ha
      rw [hf]
      simp

theorem lastLineLength_cons_newline (l : List Char) :
    lastLineLength ('\n' :: l) = lastLineLength l := by
  unfold lastLineLength
  rw [List.reverse_cons]
  by_cases h : ∃ x ∈ l.reverse, (x != '\n') = false
  · rw [takeWhile_append_stop _ _ _ h]
  · have hall : ∀ x ∈ l.reverse, (x != '\n') = true := by
      intro x hx
      cases hb : (x != '\n') with
      | true => rfl
      | false => exact absurd ⟨x, hx, hb⟩ h
    have e1 := takeWhile_append_all (fun c => c != '\n') l.reverse ['\n'] hall
    have e2 := takeWhile_append_all (fun c => c != '\n') l.reverse [] hall
    rw [List.append_nil] at e2
    rw [e1, e2]
    simp

theorem lastLineLength_cons_first (c : Char) (l : List Char) (hc : c ≠ '\n')
    (hl : l.count '\n' = 0) : lastLineLength (c :: l) = l.length + 1 := by
  unfold lastLineLength
  rw [List.count_eq_zero] at hl
  have hall : ∀ x ∈ (c :: l).reverse, (x != '\n') = true := by
    intro x hx
    rw [List.mem_reverse] at hx
    rcases List.mem_cons.1 hx with e | e
    · rw [e]; simpa using hc
    · have : x ≠ '\n' := fun e2 => hl (e2 ▸ e)
      simpa using this
  have := takeWhile_append_all (fun x => x != '\n') (c :: l).reverse [] hall
  rw [List.append_nil] at this
  rw [this]
  simp

theorem lastLineLength_cons_later (c : Char) (l : List Char)
    (hl : l.count '\n' ≠ 0) : lastLineLength (c :: l) = lastLineLength l := by
  unfold lastLineLength
  rw [List.reverse_cons]
  apply congrArg
  apply takeWhile_append_stop
  have : '\n' ∈ l := by
    by_contra hn
    exact hl (List.count_eq_zero.2 hn)
  exact ⟨'\n', List.mem_reverse.2 this, by simp⟩

theorem offsetOfLineColumn_inverse : ∀ (text : List Char) (p : Nat), p ≤ text.length →
    offsetOfLineColumn text ((text.take p).count '\n') (lastLineLength (text.take p)) = p := by
  intro text
  induction text with
  | nil =>
    intro p hp
    have : p = 0 := by simpa using hp
    subst this
    rfl
  | cons c cs ih =>
    intro p hp
    cases p with
    | zero => rfl
    | succ q =>
      have hq : q ≤ cs.length := by simpa using hp
      rw [List.take_succ_cons]
      by_cases hc : c = '\n'
      · subst hc
        rw [lastLineLength_cons_newline, List.count_cons_self]
        simp only [offsetOfLineColumn, beq_self_eq_true, if_true]
        rw [ih q hq]
        omega
      · have hcount : (c :: cs.take q).count '\n' = (cs.take q).count '\n' := by
          rw [List.count_cons_of_ne (fun e => hc e.symm)]
        rw [hcount]
        by_cases hl : (cs.take q).count '\n' = 0
        · rw [hl, lastLineLength_cons_first c _ hc hl]
          simp only [offsetOfLineColumn, List.length_take]
          omega
        · rw [lastLineLength_cons_later c _ hl]
          obtain ⟨k, hk⟩ := Nat.exists_eq_succ_of_ne_zero hl
          have hb : (c == '\n') = false := by simpa using hc
          have e1 := ih q hq
          rw [hk] at e1 ⊢
          simp only [offsetOfLineColumn, hb]
          simp only [Nat.succ_eq_add_one] at e1
          rw [e1]
          simp
          omega

theorem recordOfGroup_inText (rx : Rx) (code : QString) (m : RxMatch) (g : Nat)
    (r : SymbolInfo) (hm : m ∈ globalMatch rx code) (hne : m.captured g ≠ [])
    (hr : RecordOfGroup code m g r) : RecordInText code r := by
  obtain ⟨h1, h2, h3, h4⟩ := hr
  have hin := captured_in_text rx code m g hm
  have hp : m.capturedStart g ≤ code.length := by
    by_contra hgt
    rw [List.drop_eq_nil_of_le (by omega)] at hin
    exact hne (by simpa using hin.symm)
  have hlc := calculateLineAndColumn_eq code (m.capturedStart g)
  have hinv := offsetOfLineColumn_inverse code (m.capturedStart g) hp
  rw [hlc] at h2 h3
  have hlen : 1 ≤ (m.captured g).length := by
    cases hcap : m.captured g with
    | nil => exact absurd hcap hne
    | cons a t => simp
  have el : (r.line - 1).toNat = (code.take (m.capturedStart g)).count '\n' := by
    rw [h2]
    simp
  have ec : (r.column - 1).toNat = lastLineLength (code.take (m.capturedStart g)) := by
    rw [h3]
    simp
  unfold RxMatch.capturedLength at h4
  refine ⟨?_, ?_, ?_, ?_, ?_, ?_⟩
  · rw [h2]; dsimp only; omega
  · rw [h3]; dsimp only; omega
  · rw [h4, h1]
  · rw [h4]; omega
  · rw [el, ec, hinv, hlc, h2, h3]
  · rw [el, ec, hinv, h4, h1]
    simpa using hin

theorem str_reaches : ∀ (kw : List Char) (s e : MatchState), (Rx.str kw).Reaches s e →
    s.rest = kw ++ e.rest ∧ e.pos = s.pos + kw.length ∧ e.caps = s.caps := by
  intro kw
  induction kw with
  | nil =>
    intro s e h
    have : e = s := h
    subst this
    exact ⟨rfl, rfl, rfl⟩
  | cons c cs ih =>
    intro s e h
    have h2 : ∃ mid : MatchState, (Rx.chr (fun x => x == c)).Reaches s mid ∧
        (Rx.str cs).Reaches mid e := h
    obtain ⟨mid, ⟨a, as, hr, hp, hmid⟩, hrest⟩ := h2
    obtain ⟨k1, k2, k3⟩ := ih mid e hrest
    subst hmid
    have ea : a = c := by simpa using hp
    subst ea
    dsimp only at k1 k2 k3
    refine ⟨?_, ?_, ?_⟩
    · rw [hr, k1]; rfl
    · rw [k2, List.length_cons]; omega
    · exact k3

theorem keywordRegex_captured (kw code : QString) (m : RxMatch)
    (hm : m ∈ globalMatch (keywordRegex kw) code) : m.captured 1 = kw := by
  obtain ⟨q, pre, tail, e, _, he, hme⟩ := globalMatch_reaches (keywordRegex kw) code m hm
  have he2 : ∃ s1 : MatchState, s1 = ⟨q, pre.length, tail, []⟩ ∧
      ∃ s2 : MatchState, (∃ e1 : MatchState, (Rx.str kw).Reaches s1 e1 ∧
        s2 = ⟨e1.prev, e1.pos, e1.rest,
          (1, ⟨s1.pos, s1.rest.take (e1.pos - s1.pos)⟩) :: e1.caps⟩) ∧ e = s2 := he
  obtain ⟨s1, hs1, s2, ⟨e1, hstr, hs2⟩, hes⟩ := he2
  obtain ⟨k1, k2, k3⟩ := str_reaches kw s1 e1 hstr
  subst hes hs2 hme
  unfold RxMatch.captured
  simp only [List.find?_cons, beq_self_eq_true]
  rw [k2, k1]
  simp

theorem group_nonempty (rx : Rx) (g : Nat) (code : QString) (m : RxMatch)
    (hb : rx.capsAtLeast (fun i => if i = g then 1 else 0) = true)
    (hi : rx.alwaysCaptures g = true)
    (hm : m ∈ globalMatch rx code) : m.captured g ≠ [] := by
  have h1 := globalMatch_captured_length (fun i => if i = g then 1 else 0) rx g code m hb hi hm
  intro e
  rw [e] at h1
  simp at h1

theorem keywordPositions_inText (code : QString) (infos : List SymbolInfo) (keyword : QString)
    (hk : keyword ≠ []) (hinfos : ∀ r ∈ infos, RecordInText code r) :
    ∀ r ∈ keywordPositions code infos keyword, RecordInText code r := by
  obtain ⟨ex, h, hp⟩ : ∃ ex, keywordPositions code infos keyword = infos ++ ex ∧
      ∀ r ∈ ex, ∃ m ∈ globalMatch (keywordRegex keyword) code,
        (r.name = keyword ∧
          r.line = (calculateLineAndColumn code (m.capturedStart 1)).1 ∧
          r.column = (calculateLineAndColumn code (m.capturedStart 1)).2 ∧
          r.length = (m.capturedLength 1 : Int)) := by
    unfold keywordPositions
    refine foldl_grows_from (fun x : List SymbolInfo => x)
      (fun (m : RxMatch) r => r.name = keyword ∧
          r.line = (calculateLineAndColumn code (m.capturedStart 1)).1 ∧
          r.column = (calculateLineAndColumn code (m.capturedStart 1)).2 ∧
          r.length = (m.capturedLength 1 : Int)) _ ?_ _ _
    intro acc m
    refine ⟨_, rfl, ?_⟩
    intro r hr
    rw [List.mem_singleton] at hr
    subst hr
    exact ⟨rfl, rfl, rfl, rfl⟩
  rw [h]
  intro r hr
  rcases List.mem_append.1 hr with h1 | h1
  · exact hinfos r h1
  · obtain ⟨m, hm, k1, k2, k3, k4⟩ := hp r h1
    have hcap := keywordRegex_captured keyword code m hm
    exact recordOfGroup_inText (keywordRegex keyword) code m 1 r hm (by rw [hcap]; exact hk)
      ⟨by rw [hcap]; exact k1, k2, k3, k4⟩

theorem pythonKeywords_nonempty : ∀ kw ∈ pythonKeywords, kw ≠ [] := by
  decide

theorem keywordFold_inText (code : QString) :
    ∀ r ∈ pythonKeywords.foldl (keywordPositions code) [], RecordInText code r := by
  refine foldl_invariant_mem (fun acc : List SymbolInfo => ∀ r ∈ acc, RecordInText code r)
    (keywordPositions code) pythonKeywords ?_ [] ?_
  · intro acc kw hkw hacc
    exact keywordPositions_inText code acc kw (pythonKeywords_nonempty kw hkw) hacc
  · intro r hr
    exact absurd hr (List.not_mem_nil r)

theorem classPositions_inText (code : QString) (acc0 : PosAcc) :
    ∃ ex, (classPositions code acc0).1 = acc0.1 ++ ex ∧ ∀ r ∈ ex, RecordInText code r := by
  obtain ⟨ex, h, hp⟩ : ∃ ex, (classPositions code acc0).1 = acc0.1 ++ ex ∧
      ∀ r ∈ ex, ∃ m ∈ globalMatch classRegex code, RecordOfGroup code m 1 r := by
    unfold classPositions
    refine foldl_grows_from (fun x : PosAcc => x.1) (fun m r => RecordOfGroup code m 1 r)
      _ ?_ _ _
    intro acc m
    dsimp only
    split_ifs <;> first
      | exact ⟨[], (List.append_nil _).symm, fun r hr => absurd hr (List.not_mem_nil r)⟩
      | exact ⟨_, rfl, fun r hr => by
          rw [List.mem_singleton] at hr; rw [hr]; exact ⟨rfl, rfl, rfl, rfl⟩⟩
  refine ⟨ex, h, ?_⟩
  intro r hr
  obtain ⟨m, hm, hrec⟩ := hp r hr
  exact recordOfGroup_inText classRegex code m 1 r hm
    (group_nonempty classRegex 1 code m rfl rfl hm) hrec

theorem functionPositions_inText (code : QString) (acc0 : PosAcc) :
    ∃ ex, (functionPositions code acc0).1 = acc0.1 ++ ex ∧
      ∀ r ∈ ex, RecordInText code r := by
  obtain ⟨ex, h, hp⟩ : ∃ ex, (functionPositions code acc0).1 = acc0.1 ++ ex ∧
      ∀ r ∈ ex, ∃ m ∈ globalMatch funcRegex code, RecordOfGroup code m 1 r := by
    unfold functionPositions
    refine foldl_grows_from (fun x : PosAcc => x.1) (fun m r => RecordOfGroup code m 1 r)
      _ ?_ _ _
    intro acc m
    dsimp only
    split_ifs <;> first
      | exact ⟨[], (List.append_nil _).symm, fun r hr => absurd hr (List.not_mem_nil r)⟩
      | exact ⟨_, rfl, fun r hr => by
          rw [List.mem_singleton] at hr; rw [hr]; exact ⟨rfl, rfl, rfl, rfl⟩⟩
  refine ⟨ex, h, ?_⟩
  intro r hr
  obtain ⟨m, hm, hrec⟩ := hp r hr
  exact recordOfGroup_inText funcRegex code m 1 r hm
    (group_nonempty funcRegex 1 code m rfl rfl hm) hrec

theorem variablePositions_inText (keywords : List QString) (code : QString) (acc0 : PosAcc) :
    ∃ ex, (variablePositions keywords code acc0).1 = acc0.1 ++ ex ∧
      ∀ r ∈ ex, RecordInText code r := by
  obtain ⟨ex, h, hp⟩ : ∃ ex, (variablePositions keywords code acc0).1 = acc0.1 ++ ex ∧
      ∀ r ∈ ex, ∃ m ∈ globalMatch varRegex code, RecordOfGroup code m 1 r := by
    unfold variablePositions
    refine foldl_grows_from (fun x : PosAcc => x.1) (fun m r => RecordOfGroup code m 1 r)
      _ ?_ _ _
    intro acc m
    dsimp only
    split_ifs <;> first
      | exact ⟨[], (List.append_nil _).symm, fun r hr => absurd hr (List.not_mem_nil r)⟩
      | exact ⟨_, rfl, fun r hr => by
          rw [List.mem_singleton] at hr; rw [hr]; exact ⟨rfl, rfl, rfl, rfl⟩⟩
  refine ⟨ex, h, ?_⟩
  intro r hr
  obtain ⟨m, hm, hrec⟩ := hp r hr
  exact recordOfGroup_inText varRegex code m 1 r hm
    (group_nonempty varRegex 1 code m rfl rfl hm) hrec

theorem attributePositions_inText (code : QString) (acc0 : PosAcc) :
    ∃ ex, (attributePositions code acc0).1 = acc0.1 ++ ex ∧
      ∀ r ∈ ex, RecordInText code r := by
  obtain ⟨ex, h, hp⟩ : ∃ ex, (attributePositions code acc0).1 = acc0.1 ++ ex ∧
      ∀ r ∈ ex, ∃ m ∈ globalMatch attrRegex code, RecordOfGroup code m 1 r := by
    unfold attributePositions
    refine foldl_grows_from (fun x : PosAcc => x.1) (fun m r => RecordOfGroup code m 1 r)
      _ ?_ _ _
    intro acc m
    dsimp only
    split_ifs <;> first
      | exact ⟨[], (List.append_nil _).symm, fun r hr => absurd hr (List.not_mem_nil r)⟩
      | exact ⟨_, rfl, fun r hr => by
          rw [List.mem_singleton] at hr; rw [hr]; exact ⟨rfl, rfl, rfl, rfl⟩⟩
  refine ⟨ex, h, ?_⟩
  intro r hr
  obtain ⟨m, hm, hrec⟩ := hp r hr
  exact recordOfGroup_inText attrRegex code m 1 r hm
    (group_nonempty attrRegex 1 code m rfl rfl hm) hrec

theorem importPositions_inText (code : QString) (acc0 : PosAcc) :
    ∃ ex, (importPositions code acc0).1 = acc0.1 ++ ex ∧
      ∀ r ∈ ex, RecordInText code r := by
  obtain ⟨ex, h, hp⟩ : ∃ ex, (importPositions code acc0).1 = acc0.1 ++ ex ∧
      ∀ r ∈ ex, ∃ m ∈ globalMatch importRegex code, RecordOfGroup code m 1 r := by
    unfold importPositions
    refine foldl_grows_from (fun x : PosAcc => x.1) (fun m r => RecordOfGroup code m 1 r)
      _ ?_ _ _
    intro acc m
    dsimp only
    split_ifs <;> first
      | exact ⟨[], (List.append_nil _).symm, fun r hr => absurd hr (List.not_mem_nil r)⟩
      | exact ⟨_, rfl, fun r hr => by
          rw [List.mem_singleton] at hr; rw [hr]; exact ⟨rfl, rfl, rfl, rfl⟩⟩
  refine ⟨ex, h, ?_⟩
  intro r hr
  obtain ⟨m, hm, hrec⟩ := hp r hr
  exact recordOfGroup_inText importRegex code m 1 r hm
    (group_nonempty importRegex 1 code m rfl rfl hm) hrec

theorem fromImportPositions_inText (code : QString) (acc0 : PosAcc) :
    ∃ ex, (fromImportPositions code acc0).1 = acc0.1 ++ ex ∧
      ∀ r ∈ ex, RecordInText code r := by
  obtain ⟨ex, h, hp⟩ : ∃ ex, (fromImportPositions code acc0).1 = acc0.1 ++ ex ∧
      ∀ r ∈ ex, ∃ m ∈ globalMatch fromImportRegex code,
        (m.captured 2 ≠ [] ∧ RecordOfGroup code m 2 r) ∨ RecordOfGroup code m 1 r := by
    unfold fromImportPositions
    refine foldl_grows_from (fun x : PosAcc => x.1)
      (fun m r => (m.captured 2 ≠ [] ∧ RecordOfGroup code m 2 r) ∨ RecordOfGroup code m 1 r)
      _ ?_ _ _
    intro acc m
    dsimp only
    by_cases hg : (decide (m.lastCapturedIndex ≥ 2) && !(m.captured 2).isEmpty) = true
    · rw [if_pos hg]
      have hne : m.captured 2 ≠ [] := by
        rw [Bool.and_eq_true] at hg
        intro e
        rw [e] at hg
        simp at hg
      split_ifs
      · exact ⟨[], (List.append_nil _).symm, fun r hr => absurd hr (List.not_mem_nil r)⟩
      · exact ⟨_, rfl, fun r hr => by
          rw [List.mem_singleton] at hr; rw [hr]; exact Or.inl ⟨hne, rfl, rfl, rfl, rfl⟩⟩
    · rw [if_neg hg]
      split_ifs
      · exact ⟨[], (List.append_nil _).symm, fun r hr => absurd hr (List.not_mem_nil r)⟩
      · exact ⟨_, rfl, fun r hr => by
          rw [List.mem_singleton] at hr; rw [hr]; exact Or.inr ⟨rfl, rfl, rfl, rfl⟩⟩
  refine ⟨ex, h, ?_⟩
  intro r hr
  obtain ⟨m, hm, hrec⟩ := hp r hr
  rcases hrec with ⟨hne, hrec⟩ | hrec
  · exact recordOfGroup_inText fromImportRegex code m 2 r hm hne hrec
  · exact recordOfGroup_inText fromImportRegex code m 1 r hm
      (group_nonempty fromImportRegex 1 code m rfl rfl hm) hrec

theorem extractSymbolPositions_inText (st : QPythonExtracter) (code : QString)
    (hk : st.m_pythonKeywords = pythonKeywords) :
    ∀ r ∈ (extractSymbolPositions st code).m_symbolsInfo, RecordInText code r := by
  unfold extractSymbolPositions
  dsimp only
  rw [hk]
  have h0 := keywordFold_inText code
  generalize pythonKeywords.foldl (keywordPositions code) [] = k at h0
  obtain ⟨e1, h1, p1⟩ := classPositions_inText code (k, [])
  obtain ⟨e2, h2, p2⟩ := functionPositions_inText code (classPositions code (k, []))
  obtain ⟨e3, h3, p3⟩ := variablePositions_inText pythonKeywords code
    (functionPositions code (classPositions code (k, [])))
  obtain ⟨e4, h4, p4⟩ := attributePositions_inText code
    (variablePositions pythonKeywords code
      (functionPositions code (classPositions code (k, []))))
  obtain ⟨e5, h5, p5⟩ := importPositions_inText code (attributePositions code
    (variablePositions pythonKeywords code
      (functionPositions code (classPositions code (k, [])))))
  obtain ⟨e6, h6, p6⟩ := fromImportPositions_inText code (importPositions code
    (attributePositions code (variablePositions pythonKeywords code
      (functionPositions code (classPositions code (k, []))))))
  rw [h6, h5, h4, h3, h2, h1]
  dsimp only
  intro r hr
  simp only [List.mem_append] at hr
  rcases hr with (((((h | h) | h) | h) | h) | h) | h
  · exact h0 r h
  · exact p1 r h
  · exact p2 r h
  · exact p3 r h
  · exact p4 r h
  · exact p5 r h
  · exact p6 r h

/-! ## Claim on the records of the position list -/

/-- C28: for every non-empty text and every record of the position list built
by `extractSymbols`, line and column are at least 1, the length is the length
of the name and at least 1, and the characters of the text that start at that
column of that line, as many as the length, are the name. -/
theorem symbolsInfo_records_in_text (st : QPythonExtracter) (code : QString)
    (hk : st.m_pythonKeywords = pythonKeywords) (h : code ≠ []) :
    ∀ r ∈ (extractSymbols st code).state.m_symbolsInfo,
      1 ≤ r.line ∧ 1 ≤ r.column ∧ r.length = (r.name.length : Int) ∧ 1 ≤ r.length ∧
        calculateLineAndColumn code
            (offsetOfLineColumn code (r.line - 1).toNat (r.column - 1).toNat) =
          (r.line, r.column) ∧
        (code.drop (offsetOfLineColumn code (r.line - 1).toNat (r.column - 1).toNat)).take
            r.length.toNat = r.name := by
  obtain ⟨st5, h5, e5⟩ := extractSymbols_positions st code h
  rw [e5]
  exact extractSymbolPositions_inText st5 code (h5.trans hk)

set_option maxRecDepth 200000 in
/-- Witness of C28: the record of `y` on the second line of a two-line text. -/
theorem symbolsInfo_records_in_text_witness :
    QPythonExtracter.new.m_pythonKeywords = pythonKeywords ∧ "x = 1\n  y = 2".toList ≠ [] ∧
      ({ name := ['y'], type := SymbolType.Variable, line := 2, column := 3, length := 1,
         scope := [], parameters := [] } : SymbolInfo) ∈
        (extractSymbols QPythonExtracter.new "x = 1\n  y = 2".toList).state.m_symbolsInfo ∧
      ("x = 1\n  y = 2".toList.drop
        (offsetOfLineColumn "x = 1\n  y = 2".toList ((2 : Int) - 1).toNat
          ((3 : Int) - 1).toNat)).take (1 : Int).toNat = ['y'] :=
  ⟨rfl, by decide, by decide,
    (symbolsInfo_records_in_text QPythonExtracter.new "x = 1\n  y = 2".toList rfl (by decide)
      { name := ['y'], type := SymbolType.Variable, line := 2, column := 3, length := 1,
        scope := [], parameters := [] } (by decide)).2.2.2.2.2⟩

/-! ## Lemmas: the candidate model -/

theorem removeDuplicatesAux_skip (k : QString) (ks : List QString) :
    ∀ (l seen : List QString), (k ∈ l ∨ k ∈ seen) →
      removeDuplicatesAux seen (l ++ k :: ks) = removeDuplicatesAux seen (l ++ ks) := by
  intro l
  induction l with
  | nil =>
    intro seen h
    rcases h with h | h
    · exact absurd h (List.not_mem_nil k)
    · simp only [List.nil_append, removeDuplicatesAux]
      rw [if_pos ((qContains_iff seen k).2 h)]
  | cons y ys ih =>
    intro seen h
    simp only [List.cons_append, removeDuplicatesAux]
    by_cases hy : qContains seen y = true
    · rw [if_pos hy, if_pos hy]
      apply ih
      rcases h with h | h
      · rcases List.mem_cons.1 h with e | e
        · exact Or.inr (e ▸ (qContains_iff seen y).1 hy)
        · exact Or.inl e
      · exact Or.inr h
    · rw [if_neg hy, if_neg hy]
      congr 1
      apply ih
      rcases h with h | h
      · rcases List.mem_cons.1 h with e | e
        · exact Or.inr (e ▸ List.mem_cons_self _ _)
        · exact Or.inl e
      · exact Or.inr (List.mem_cons_of_mem _ h)

theorem removeDuplicates_appendMissing : ∀ (keys l : List QString),
    removeDuplicates (keys.foldl
      (fun (acc : List QString) key => if !qContains acc key then acc ++ [key] else acc) l) =
    removeDuplicates (l ++ keys) := by
  intro keys
  induction keys with
  | nil => intro l; simp
  | cons k ks ih =>
    intro l
    rw [List.foldl_cons, ih]
    by_cases hk : qContains l k = true
    · have e1 : (!qContains l k) = false := by rw [hk]; rfl
      simp only [e1]
      unfold removeDuplicates
      exact (removeDuplicatesAux_skip k ks l [] (Or.inl ((qContains_iff l k).1 hk))).symm
    · have e1 : (!qContains l k) = true := by
        cases h : qContains l k with
        | true => exact absurd h hk
        | false => rfl
      simp only [e1, if_true, List.append_assoc, List.singleton_append]

theorem updateCompleterModel_eq (fold : Char → Char) (c : QPythonCompleter) :
    (updateCompleterModel fold c).m_model =
      baseCandidates fold c.m_builtinSymbols c.m_userSymbols (specialKeys c)
        (trimmed c.completionPrefix) := by
  unfold updateCompleterModel baseCandidates
  dsimp only
  rw [removeDuplicates_appendMissing]
  cases trimmed c.completionPrefix with
  | nil => rfl
  | cons a t => rfl

theorem addSpecialCompletion_map (fold : Char → Char) (c : QPythonCompleter)
    (keyword expansion : QString) :
    (addSpecialCompletion fold c keyword expansion).m_specialCompletions =
      qmapSet c.m_specialCompletions keyword expansion := by
  unfold addSpecialCompletion
  dsimp only
  split_ifs <;> rfl

theorem addSpecialCompletion_frame (fold : Char → Char) (c : QPythonCompleter)
    (keyword expansion : QString) :
    (addSpecialCompletion fold c keyword expansion).m_builtinSymbols = c.m_builtinSymbols ∧
      (addSpecialCompletion fold c keyword expansion).m_userSymbols = c.m_userSymbols ∧
      (addSpecialCompletion fold c keyword expansion).completionPrefix =
        c.completionPrefix := by
  unfold addSpecialCompletion
  dsimp only
  split_ifs <;> exact ⟨rfl, rfl, rfl⟩

theorem initSpecialCompletions_state (fold : Char → Char) (c : QPythonCompleter) :
    (initSpecialCompletions fold c).m_specialCompletions =
        applyAssignments defaultTemplates c.m_specialCompletions ∧
      (initSpecialCompletions fold c).m_builtinSymbols = c.m_builtinSymbols ∧
      (initSpecialCompletions fold c).m_userSymbols = c.m_userSymbols ∧
      (initSpecialCompletions fold c).completionPrefix = c.completionPrefix := by
  unfold initSpecialCompletions
  refine ⟨?_, ?_, ?_, ?_⟩
  · have := foldl_applies (fun x : QPythonCompleter => x.m_specialCompletions)
      (fun p : QString × QString => [p])
      (fun acc p => addSpecialCompletion fold acc p.1 p.2)
      (fun acc p => addSpecialCompletion_map fold acc p.1 p.2) defaultTemplates c
    rw [this]
    simp
  · exact foldl_keeps (fun x : QPythonCompleter => x.m_builtinSymbols)
      (fun (acc : QPythonCompleter) (p : QString × QString) =>
        addSpecialCompletion fold acc p.1 p.2)
      (fun acc p => (addSpecialCompletion_frame fold acc p.1 p.2).1) defaultTemplates c
  · exact foldl_keeps (fun x : QPythonCompleter => x.m_userSymbols)
      (fun (acc : QPythonCompleter) (p : QString × QString) =>
        addSpecialCompletion fold acc p.1 p.2)
      (fun acc p => (addSpecialCompletion_frame fold acc p.1 p.2).2.1) defaultTemplates c
  · exact foldl_keeps (fun x : QPythonCompleter => x.completionPrefix)
      (fun (acc : QPythonCompleter) (p : QString × QString) =>
        addSpecialCompletion fold acc p.1 p.2)
      (fun acc p => (addSpecialCompletion_frame fold acc p.1 p.2).2.2) defaultTemplates c

theorem defaultTemplates_keys :
    (applyAssignments defaultTemplates []).map (fun p => p.1) =
      ["class", "def", "elif", "else", "for", "from", "if", "import", "main", "return",
       "try", "while"].map String.toList := by
  decide

theorem filter_pairwise {α : Type} (R : α → α → Prop) (p : α → Bool) (l : List α)
    (h : List.Pairwise R l) : List.Pairwise R (l.filter p) :=
  List.Pairwise.sublist (List.filter_sublist l) h

theorem baseCandidates_sorted (fold : Char → Char) (builtin user keys : List QString)
    (token : QString) :
    List.Pairwise (fun a b => ciLe fold a b = true)
      (baseCandidates fold builtin user keys token) := by
  have hs := sortBy_sorted (ciLe fold) (ciLe_total fold) (ciLe_trans fold)
    (removeDuplicates (builtin ++ user ++ keys))
  unfold baseCandidates ciSort removeAll
  split_ifs
  · exact hs
  · exact filter_pairwise _ _ _ hs

theorem mem_baseCandidates (fold : Char → Char) (builtin user keys : List QString)
    (token x : QString) :
    x ∈ baseCandidates fold builtin user keys token ↔
      (x ∈ builtin ∨ x ∈ user ∨ x ∈ keys) ∧ (token = [] ∨ x ≠ token) := by
  have hm : x ∈ ciSort fold (removeDuplicates (builtin ++ user ++ keys)) ↔
      (x ∈ builtin ∨ x ∈ user ∨ x ∈ keys) := by
    unfold ciSort
    rw [(sortBy_perm (ciLe fold) _).mem_iff, mem_removeDuplicates]
    simp only [List.mem_append]
    tauto
  unfold baseCandidates
  cases token with
  | nil =>
    have e : ([] : QString).isEmpty = true := rfl
    rw [if_pos e, hm]
    simp
  | cons a t =>
    have e : ¬ ((a :: t).isEmpty = true) := by simp
    rw [if_neg e]
    unfold removeAll
    rw [List.mem_filter, hm]
    simp

theorem baseCandidates_nodup (fold : Char → Char) (builtin user keys : List QString)
    (token : QString) : (baseCandidates fold builtin user keys token).Nodup := by
  have hn : (ciSort fold (removeDuplicates (builtin ++ user ++ keys))).Nodup := by
    unfold ciSort
    rw [(sortBy_perm (ciLe fold) _).nodup_iff]
    exact nodup_removeDuplicatesAux _ []
  unfold baseCandidates removeAll
  split_ifs
  · exact hn
  · exact hn.filter _

theorem mem_keys_qmapSet (k v x : QString) : ∀ (m : Entries),
    x ∈ (qmapSet m k v).map (fun p => p.1) ↔ x = k ∨ x ∈ m.map (fun p => p.1) := by
  intro m
  induction m with
  | nil => simp [qmapSet]
  | cons p t ih =>
    obtain ⟨k0, v0⟩ := p
    simp only [qmapSet]
    by_cases h1 : (k == k0) = true
    · have e1 : k = k0 := by simpa using h1
      subst e1
      rw [if_pos h1]
      simp
    · rw [if_neg h1]
      by_cases h2 : qstrLt k k0 = true
      · rw [if_pos h2]
        simp
      · rw [if_neg h2, List.map_cons, List.mem_cons, ih]
        simp only [List.map_cons, List.mem_cons]
        tauto

theorem splitPath_map (fold : Char → Char) (c : QPythonCompleter) (path : QString) :
    (splitPath fold c path).1.m_specialCompletions = c.m_specialCompletions := by
  unfold splitPath
  dsimp only
  split_ifs
  · rfl
  · rfl
  · cases lastIndexOfDot path with
    | none => rfl
    | some p =>
      dsimp only
      split_ifs <;> rfl

theorem extracterRun_map (fold : Char → Char) (c : QPythonCompleter) (code : QString) :
    (extracterRun fold c code).m_specialCompletions = c.m_specialCompletions := by
  unfold extracterRun
  cases c.m_extracter with
  | none => rfl
  | some ex =>
    dsimp only
    refine foldl_keeps (fun x : QPythonCompleter => x.m_specialCompletions)
      (fun (acc : QPythonCompleter) (sig : Signal) =>
        match sig with
        | Signal.symbolsUpdated syms => onSymbolsUpdated fold acc syms
        | Signal.symbolsInfoUpdated _ => acc) ?_ _ _
    intro acc sig
    cases sig with
    | symbolsUpdated syms => rfl
    | symbolsInfoUpdated infos => rfl

theorem applyOp_keys (fold : Char → Char) (c : QPythonCompleter) (op : CompleterOp)
    (x : QString) (h : x ∈ specialKeys c) : x ∈ specialKeys (applyOp fold c op) := by
  cases op with
  | symbolsUpdated symbols => exact h
  | updateUserSymbols userSymbols => exact h
  | addSpecialCompletion keyword expansion =>
    show x ∈ (addSpecialCompletion fold c keyword expansion).m_specialCompletions.map _
    rw [addSpecialCompletion_map, mem_keys_qmapSet]
    exact Or.inr h
  | splitPath path =>
    show x ∈ (splitPath fold c path).1.m_specialCompletions.map _
    rw [splitPath_map]
    exact h
  | setCompletionPrefix p =>
    show x ∈ (splitPath fold _ p).1.m_specialCompletions.map _
    rw [splitPath_map]
    exact h
  | setExtracter extracter =>
    cases extracter with
    | none => exact h
    | some ex => exact h
  | extract code =>
    show x ∈ (extracterRun fold c code).m_specialCompletions.map _
    rw [extracterRun_map]
    exact h

theorem applyOps_keys (fold : Char → Char) (ops : List CompleterOp) (c : QPythonCompleter)
    (x : QString) (h : x ∈ specialKeys c) : x ∈ specialKeys (applyOps fold c ops) := by
  unfold applyOps
  exact foldl_invariant (fun acc : QPythonCompleter => x ∈ specialKeys acc) (applyOp fold)
    (fun acc op hacc => applyOp_keys fold acc op x hacc) ops c h

/-! ## Claims on the candidate model -/

/-- C25: every rebuild of the candidate model (`updateCompleterModel`, at
construction, on a symbol update and through `updateUserSymbols`) leaves as
model list the builtin symbols, the user symbols and the registered template
keywords in one list, duplicates removed, sorted case-insensitively, and
without the entries equal to the trimmed completion prefix when that is not
empty; the list is in case-insensitive order and has no duplicates. -/
theorem updateCompleterModel_candidates (fold : Char → Char) (c : QPythonCompleter) :
    (updateCompleterModel fold c).m_model =
        baseCandidates fold c.m_builtinSymbols c.m_userSymbols (specialKeys c)
          (trimmed c.completionPrefix) ∧
      (∀ builtin : List QString,
        (QPythonCompleter.new fold builtin).m_model =
          baseCandidates fold builtin []
            (["class", "def", "elif", "else", "for", "from", "if", "import", "main",
              "return", "try", "while"].map String.toList) []) ∧
      (∀ symbols : List QString,
        (onSymbolsUpdated fold c symbols).m_model =
          baseCandidates fold c.m_builtinSymbols symbols (specialKeys c)
            (trimmed c.completionPrefix)) ∧
      (∀ userSymbols : List QString,
        (updateUserSymbols fold c userSymbols).m_model =
          baseCandidates fold c.m_builtinSymbols userSymbols (specialKeys c)
            (trimmed c.completionPrefix)) ∧
      List.Pairwise (fun a b => ciLe fold a b = true) (updateCompleterModel fold c).m_model ∧
      (updateCompleterModel fold c).m_model.Nodup ∧
      ∀ x, x ∈ (updateCompleterModel fold c).m_model ↔
        (x ∈ c.m_builtinSymbols ∨ x ∈ c.m_userSymbols ∨ x ∈ specialKeys c) ∧
          (trimmed c.completionPrefix = [] ∨ x ≠ trimmed c.completionPrefix) := by
  refine ⟨updateCompleterModel_eq fold c, ?_, ?_, ?_, ?_, ?_, ?_⟩
  · intro builtin
    unfold QPythonCompleter.new
    rw [updateCompleterModel_eq]
    obtain ⟨k1, k2, k3, k4⟩ := initSpecialCompletions_state fold
      { m_extracter := none, m_model := [], m_builtinSymbols := builtin,
        m_userSymbols := [], m_currentCompletionObject := [], m_currentCompletionList := [],
        m_specialCompletions := [], completionPrefix := [], popupVisible := false }
    unfold specialKeys
    rw [k1, k2, k3, k4]
    dsimp only
    rw [defaultTemplates_keys]
    rfl
  · intro symbols
    exact updateCompleterModel_eq fold { c with m_userSymbols := symbols }
  · intro userSymbols
    exact updateCompleterModel_eq fold { c with m_userSymbols := userSymbols }
  · rw [updateCompleterModel_eq]
    exact baseCandidates_sorted fold _ _ _ _
  · rw [updateCompleterModel_eq]
    exact baseCandidates_nodup fold _ _ _ _
  · intro x
    rw [updateCompleterModel_eq]
    exact mem_baseCandidates fold _ _ _ _ x

set_option maxRecDepth 200000 in
/-- C26, the claim as stated fails: the keyword `zz` is registered, the
completion prefix becomes `zz`, and the model rebuilt on the next symbol
update does not hold `zz`. -/
theorem registered_keyword_missing_after_rebuild :
    "zz".toList ∉
      (applyOps asciiFold
        (addSpecialCompletion asciiFold (QPythonCompleter.new asciiFold [])
          "zz".toList "zz()".toList)
        [CompleterOp.setCompletionPrefix "zz".toList, CompleterOp.symbolsUpdated []]).m_model := by
  decide

/-- C26, amended: a keyword registered with `addSpecialCompletion` stays
registered through every later sequence of completer operations, and the
model produced by a rebuild holds it exactly when the trimmed completion
prefix is empty or differs from the keyword. -/
theorem registered_keyword_in_rebuilt_model (fold : Char → Char) (c : QPythonCompleter)
    (k e : QString) (ops : List CompleterOp) :
    k ∈ specialKeys (applyOps fold (addSpecialCompletion fold c k e) ops) ∧
      (k ∈ (updateCompleterModel fold
            (applyOps fold (addSpecialCompletion fold c k e) ops)).m_model ↔
        (trimmed (applyOps fold (addSpecialCompletion fold c k e) ops).completionPrefix = [] ∨
          k ≠ trimmed (applyOps fold (addSpecialCompletion fold c k e) ops).completionPrefix)) := by
  have hk : k ∈ specialKeys (applyOps fold (addSpecialCompletion fold c k e) ops) := by
    apply applyOps_keys
    show k ∈ (addSpecialCompletion fold c k e).m_specialCompletions.map _
    rw [addSpecialCompletion_map, mem_keys_qmapSet]
    exact Or.inl rfl
  refine ⟨hk, ?_⟩
  rw [updateCompleterModel_eq, mem_baseCandidates]
  constructor
  · intro h; exact h.2
  · intro h; exact ⟨Or.inr (Or.inr hk), h⟩

set_option maxRecDepth 200000 in
/-- C27, evaluated: after the dotted completion `str.` the bare token `de`
leaves the members of `str` in the model, where the base candidate set
without `de` is the list of the template keywords; and after the bare token
`if` the bare token `for` leaves a model without `if`, which the base
candidate set without `for` holds. -/
theorem splitPath_bare_keeps_earlier_model :
    (splitPath asciiFold
        (splitPath asciiFold
          (setExtracter asciiFold (QPythonCompleter.new asciiFold [])
            (some QPythonExtracter.new))
          "str.".toList).1
        "de".toList).1.m_model =
        ["find", "join", "lower", "replace", "split", "strip", "upper"].map String.toList ∧
      baseCandidates asciiFold [] [] (specialKeys (QPythonCompleter.new asciiFold []))
          (trimmed "de".toList) =
        ["class", "def", "elif", "else", "for", "from", "if", "import", "main", "return",
         "try", "while"].map String.toList ∧
      "if".toList ∉
        (splitPath asciiFold
          (splitPath asciiFold (QPythonCompleter.new asciiFold []) "if".toList).1
          "for".toList).1.m_model ∧
      "if".toList ∈
        baseCandidates asciiFold [] [] (specialKeys (QPythonCompleter.new asciiFold []))
          (trimmed "for".toList) := by
  decide

end QCodeEditor
